import Mathlib

/-!
# hzncsv: a shallow embedding of `src/src/hzncsv.h`

The header implements a single-pass CSV scanner (`document::parse_from_stream`)
on top of a BOM detector (`document::detect_encoding`), a buffered code-unit
reader (`stream_buffer`) and a field accumulator (`string_builder`).

Conventions of the embedding.

* Bytes and code units are natural numbers; every narrowing conversion of the
  source (`static_cast<char>`, the return type of `swap_endian`) is an explicit
  `%`.
* `std::istream` is the record `istream`: the bytes of the stream, the read
  position and the fail bit.
* The host is little-endian, as the source assumes when it returns a
  reinterpreted UTF-16/UTF-32 little-endian unit unchanged.
* A `std::vector<uint8_t>` is its elements together with the bytes that follow
  them in its storage: the wide branches of `string_builder::to_string` read
  one unit past the elements.
* What the program reads without the repository determining it (uninitialised
  scratch buffers, the standard library's UTF-16/32 converter) is the record
  `host`, and every definition that depends on it takes it as a parameter.
-/

namespace hzn.csv

/-- A `u8string`: the bytes of a field. -/
abbrev u8string := List Nat

/-- The member `_document`: a vector of rows, a row a vector of fields. -/
abbrev table := List (List u8string)

/-- The enum `parse_result`. -/
inductive parse_result where
  | success
  | file_not_found
  | column_count_no_matched
  | argument_error
  | parse_error
  | no_csv
deriving DecidableEq, Repr

/-- The enum `parse_encoding`, in declaration order (the order is the index
used by the per-encoding literal tables). -/
inductive parse_encoding where
  | utf8
  | utf16_big_endian
  | utf16_little_endian
  | utf32_big_endian
  | utf32_little_endian
  | detect_from_bom
deriving DecidableEq, Repr

/-- The value of `(int)encoding`. -/
def parse_encoding.toNat : parse_encoding → Nat
  | .utf8 => 0
  | .utf16_big_endian => 1
  | .utf16_little_endian => 2
  | .utf32_big_endian => 3
  | .utf32_little_endian => 4
  | .detect_from_bom => 5

/-- The struct `parse_options`.  `delimiter` is the value the `char` has after
the integral conversion of the one place it is used, the comparison
`read == options.delimiter` against a `uint32_t`. -/
structure parse_options where
  delimiter : Nat
  trim : Bool
  determine_bom : parse_encoding
  backslash_to_special : Bool
  backslash_to_special_detect_error : Bool
deriving DecidableEq, Repr

/-- The default arguments of the constructor of `parse_options`:
`','`, `true`, `utf8`, `true`, `true`. -/
def default_options : parse_options :=
  { delimiter := 44
    trim := true
    determine_bom := .utf8
    backslash_to_special := true
    backslash_to_special_detect_error := true }

/-- What the program reads but the repository does not fix.

* `bom_scratch`: the initial content of the local `uint8_t buffer[4]` of
  `detect_encoding` (cells the short read does not overwrite keep it).
* `read_scratch`: the initial content of `stream_buffer::_buffer`.
* `grown_spare`: when `emplace_back` finds the vector of a `string_builder`
  full and moves it to a larger storage, the bytes that follow the elements
  there (as many as the new capacity exceeds the size), as a function of the
  elements after the insertion.
* `heap_scratch`: the bytes that lie after the storage of that vector.
* `wide_to_bytes`: the result of `std::wstring_convert::to_bytes` in the UTF-16
  and UTF-32 branches of `string_builder::to_string` (`convert16`,
  `convert32`), as a function of the encoding and the code units handed to it;
  `none` stands for the exception the converter throws on input it rejects.

A missing cell of a scratch list reads as 0. -/
structure host where
  bom_scratch : List Nat
  read_scratch : List Nat
  grown_spare : List Nat → List Nat
  heap_scratch : List Nat
  wide_to_bytes : parse_encoding → List Nat → Option u8string

/-- A host whose scratch memory is zeroed and whose converter rejects
everything. -/
def host.zero : host :=
  { bom_scratch := []
    read_scratch := []
    grown_spare := fun _ => []
    heap_scratch := []
    wide_to_bytes := fun _ _ => none }

/-! ## Byte signatures and endianness -/

def utf8_bom_bytes : List Nat := [0xEF, 0xBB, 0xBF]
def utf16be_bom_bytes : List Nat := [0xFE, 0xFF]
def utf16le_bom_bytes : List Nat := [0xFF, 0xFE]
def utf32be_bom_bytes : List Nat := [0x00, 0x00, 0xFE, 0xFF]
def utf32le_bom_bytes : List Nat := [0xFF, 0xFE, 0x00, 0x00]

/-- The 16-bit overload of `swap_endian`: `(us >> 8) | (us << 8)`, computed in
`int` and narrowed to `char16_t` by the return. -/
def swap_endian16 (us : Nat) : Nat :=
  ((us >>> 8) ||| (us <<< 8)) % 65536

/-- The 32-bit overload of `swap_endian`; the two left shifts wrap at 32
bits. -/
def swap_endian32 (ui : Nat) : Nat :=
  (ui >>> 24) ||| (((ui <<< 8) % 4294967296) &&& 0x00FF0000)
    ||| ((ui >>> 8) &&& 0x0000FF00) ||| ((ui <<< 24) % 4294967296)

/-- The value of `*reinterpret_cast<const uint16_t*>(a + i)` on the
little-endian host. -/
def load16 (a : List Nat) (i : Nat) : Nat :=
  a.getD i 0 + 256 * a.getD (i + 1) 0

/-- The value of `*reinterpret_cast<const uint32_t*>(a + i)` on the
little-endian host. -/
def load32 (a : List Nat) (i : Nat) : Nat :=
  a.getD i 0 + 256 * a.getD (i + 1) 0 + 65536 * a.getD (i + 2) 0
    + 16777216 * a.getD (i + 3) 0

/-! ## The input stream -/

/-- The part of `std::istream` the header uses: the bytes of the stream, the
read position, and the fail bit (set by a read that meets the end of the
stream before it has all the bytes it was asked for). -/
structure istream where
  data : List Nat
  pos : Nat
  failbit : Bool
deriving DecidableEq, Repr

/-- A fresh stream over `text`, as `std::istringstream stream(text)` makes
it. -/
def istream.of_text (text : List Nat) : istream :=
  { data := text, pos := 0, failbit := false }

/-- The call `stream.read(p, n)`: the bytes stored at `p` (their number is
`gcount()`) and the stream afterwards.  A failed stream yields nothing. -/
def istream.read (s : istream) (n : Nat) : List Nat × istream :=
  if s.failbit then ([], s)
  else
    let got := (s.data.drop s.pos).take n
    (got, { s with pos := s.pos + got.length, failbit := decide (got.length < n) })

/-- The call `stream.seekg(p)`: no effect on a failed stream. -/
def istream.seekg (s : istream) (p : Nat) : istream :=
  if s.failbit then s else { s with pos := p }

/-! ## `stream_buffer` -/

/-- The class `stream_buffer`. -/
structure stream_buffer where
  _stream : istream
  _encoding : parse_encoding
  _buffer : List Nat
  _position : Nat
  _length : Nat

/-- The constructor of `stream_buffer`; `_buffer` is left uninitialised. -/
def stream_buffer.mk_new (h : host) (stream : istream) (encoding : parse_encoding) :
    stream_buffer :=
  { _stream := stream
    _encoding := encoding
    _buffer := h.read_scratch
    _position := 0
    _length := 0 }

/-- The first statement of `stream_buffer::read`: when the buffer is used up,
read up to 4096 bytes over its start. -/
def stream_buffer.refill (b : stream_buffer) : stream_buffer :=
  if b._position ≥ b._length then
    let r := b._stream.read 4096
    { b with
      _stream := r.2
      _buffer := r.1 ++ b._buffer.drop r.1.length
      _length := r.1.length
      _position := 0 }
  else b

/-- The `switch` of `stream_buffer::read`: the unit at the position, by
encoding, and the reader moved past it. -/
def stream_buffer.fetch (b1 : stream_buffer) : Nat × stream_buffer :=
  let tempPosition := b1._position
  match b1._encoding with
  | .utf8 =>
      (b1._buffer.getD tempPosition 0, { b1 with _position := tempPosition + 1 })
  | .utf16_big_endian =>
      (swap_endian16 (load16 b1._buffer (2 * (tempPosition >>> 1))),
        { b1 with _position := tempPosition + 2 })
  | .utf16_little_endian =>
      (load16 b1._buffer (2 * (tempPosition >>> 1)),
        { b1 with _position := tempPosition + 2 })
  | .utf32_big_endian =>
      (swap_endian32 (load32 b1._buffer (4 * (tempPosition / 4))),
        { b1 with _position := tempPosition + 4 })
  | .utf32_little_endian =>
      (load32 b1._buffer (4 * (tempPosition / 4)),
        { b1 with _position := tempPosition + 4 })
  | .detect_from_bom => (0, b1)

/-- The method `stream_buffer::read`: the code unit returned and the reader
afterwards.  A refill that brings nothing returns 0; otherwise the `switch`
runs. -/
def stream_buffer.read (b : stream_buffer) : Nat × stream_buffer :=
  let b1 := b.refill
  if b._position ≥ b._length ∧ b1._length = 0 then (0, b1)
  else b1.fetch

/-- The units `while ((read = buffer.read()) != 0)` hands to the loop body:
the successive results of `read` before the first 0.  `fuel` bounds the number
of calls. -/
def stream_buffer.read_units : Nat → stream_buffer → List Nat
  | 0, _ => []
  | fuel + 1, b =>
      let r := b.read
      if r.1 = 0 then [] else r.1 :: stream_buffer.read_units fuel r.2

/-- The bytes the reader has not yet returned: those left in its buffer and
those left in the stream.  Every non-zero `read` lowers it, so it bounds the
number of iterations of the scan loop. -/
def stream_buffer.pending (b : stream_buffer) : Nat :=
  (b._length - b._position) + (b._stream.data.length - b._stream.pos)

/-! ## `string_builder` -/

/-- The class `string_builder`.  `_buffer` is a `std::vector<uint8_t>`: its
elements are `_buffer`, and `_spare` holds the bytes that follow them in its
storage, up to the capacity.  `clear` and `emplace_back` move the boundary
between the two and leave the bytes where they are; the UTF-16 and UTF-32
branches of `to_string` read past the boundary. -/
structure string_builder where
  _buffer : List Nat
  _encoding : parse_encoding
  _spare : List Nat

/-- The constructor of `string_builder`: the vector is made of 4096 zero bytes
and cleared at once, which leaves them in its storage. -/
def string_builder.mk_new (encoding : parse_encoding) : string_builder :=
  { _buffer := [], _encoding := encoding, _spare := List.replicate 4096 0 }

/-- The call `_buffer.emplace_back(byte)`: the byte takes the first spare cell
of the storage; a full vector moves to a larger storage first. -/
def string_builder.emplace_back (h : host) (b : string_builder) (byte : Nat) :
    string_builder :=
  { b with
    _buffer := b._buffer ++ [byte]
    _spare :=
      match b._spare with
      | [] => h.grown_spare (b._buffer ++ [byte])
      | _ :: rest => rest }

/-- The method `string_builder::append`.  Each branch makes ONE
`emplace_back` on the `vector<uint8_t>`, so the unit is narrowed to a byte
whatever the cast written in the branch. -/
def string_builder.append (h : host) (b : string_builder) (ch : Nat) : string_builder :=
  match b._encoding with
  | .utf8 => b.emplace_back h (ch % 256)
  | .utf16_big_endian => b.emplace_back h (ch % 65536 % 256)
  | .utf16_little_endian => b.emplace_back h (ch % 65536 % 256)
  | .utf32_big_endian => b.emplace_back h (ch % 256)
  | .utf32_little_endian => b.emplace_back h (ch % 256)
  | .detect_from_bom => b

/-- The method `string_builder::clear`: the size becomes 0, the bytes stay in
the storage. -/
def string_builder.clear (b : string_builder) : string_builder :=
  { b with _buffer := [], _spare := b._buffer ++ b._spare }

/-- The method `string_builder::empty`. -/
def string_builder.empty (b : string_builder) : Bool :=
  b._buffer.isEmpty

/-- The test `*p == ' ' || *p == '\t' || *p == '\0'` of the trimming loops. -/
def is_trimmed_unit (c : Nat) : Bool :=
  c == 32 || c == 9 || c == 0

/-- The first loop of the UTF-8 branch of `to_string`:
`while (trim && (start < end) && (*start is blank)) ++start;`
with `start` and `end` as indices into `buf`; `fuel` bounds the iterations. -/
def advance_start (buf : List Nat) (trim : Bool) (end_ : Nat) : Nat → Nat → Nat
  | 0, start => start
  | fuel + 1, start =>
      if trim && decide (start < end_) && is_trimmed_unit (buf.getD start 0) then
        advance_start buf trim end_ fuel (start + 1)
      else start

/-- The second loop of the UTF-8 branch of `to_string`:
`while (trim && (start < end) && (*end is blank)) --end;`. -/
def retreat_end (buf : List Nat) (trim : Bool) (start : Nat) : Nat → Nat → Nat
  | 0, end_ => end_
  | fuel + 1, end_ =>
      if trim && decide (start < end_) && is_trimmed_unit (buf.getD end_ 0) then
        retreat_end buf trim start fuel (end_ - 1)
      else end_

/-- The UTF-8 branch of `string_builder::to_string` on the accumulated bytes
`buf`: `start` is the first byte and `end` the LAST byte, the two loops move
them while `start < end`, and the result is the range `[start, end + 1)`. -/
def to_string_utf8 (buf : List Nat) (trim : Bool) : u8string :=
  let start := advance_start buf trim (buf.length - 1) buf.length 0
  let end_ := retreat_end buf trim start buf.length (buf.length - 1)
  (buf.drop start).take (end_ + 1 - start)

/-- The first `count` code units of `width` bytes (2 or 4) of a storage, as
`reinterpret_cast<const char16_t*>` and `reinterpret_cast<const char32_t*>`
read them. -/
def storage_units (storage : List Nat) (width count : Nat) : List Nat :=
  (List.range count).map fun i =>
    if width = 2 then load16 storage (2 * i) else load32 storage (4 * i)

/-- The UTF-16 (`width = 2`) and UTF-32 (`width = 4`) branches of
`string_builder::to_string`: `start` points at the storage, `end` is
`start + size() / width`, the two loops move them while `start < end`, reading
`*end`, and the units of the range `[start, end + 1)` go to the converter.  The
unit at `end` lies past the elements: it is read from the bytes that follow
them. -/
def to_string_wide (h : host) (b : string_builder) (trim : Bool) (width : Nat) :
    Option u8string :=
  let n := b._buffer.length / width
  let units := storage_units (b._buffer ++ b._spare ++ h.heap_scratch) width (n + 1)
  let start := advance_start units trim n (n + 1) 0
  let end_ := retreat_end units trim start (n + 1) n
  h.wide_to_bytes b._encoding ((units.drop start).take (end_ + 1 - start))

/-- The method `string_builder::to_string`; `none` when the converter of a
wide branch throws. -/
def string_builder.to_string (h : host) (b : string_builder) (trim : Bool) :
    Option u8string :=
  if b._buffer.isEmpty then some []
  else
    match b._encoding with
    | .utf8 => some (to_string_utf8 b._buffer trim)
    | .utf16_big_endian => to_string_wide h b trim 2
    | .utf16_little_endian => to_string_wide h b trim 2
    | .utf32_big_endian => to_string_wide h b trim 4
    | .utf32_little_endian => to_string_wide h b trim 4
    | .detect_from_bom => some []

/-! ## `document` -/

/-- The helper `document::is_equal_array`, the two arrays given as lists and
read from index 0. -/
def is_equal_array (array1 array2 : List Nat) (size : Nat) : Bool :=
  match size with
  | 2 => load16 array1 0 == load16 array2 0
  | 3 => load16 array1 0 == load16 array2 0 && array1.getD 2 0 == array2.getD 2 0
  | 4 => load32 array1 0 == load32 array2 0
  | _ => array1.take size == array2.take size

/-- The helper `document::detect_encoding`: the encoding returned and the
stream afterwards.  The local `buffer[4]` holds the bytes read, and scratch
content in the cells a short read leaves alone. -/
def detect_encoding (h : host) (stream : istream) (encoding : parse_encoding) :
    parse_encoding × istream :=
  if encoding = .detect_from_bom then
    let r := stream.read 4
    let buffer := r.1 ++ h.bom_scratch.drop r.1.length
    let stream := r.2
    let read_bom := r.1.length
    if read_bom = 0 then (.detect_from_bom, stream)
    else if is_equal_array buffer utf8_bom_bytes 3 then (.utf8, stream.seekg 3)
    else if is_equal_array buffer utf16be_bom_bytes 2 then (.utf16_big_endian, stream.seekg 2)
    else if is_equal_array buffer utf16le_bom_bytes 2 then
      (.utf16_little_endian, stream.seekg 2)
    else if is_equal_array buffer utf32be_bom_bytes 4 then (.utf32_big_endian, stream.seekg 4)
    else if is_equal_array buffer utf32le_bom_bytes 4 then
      (.utf32_little_endian, stream.seekg 4)
    else (encoding, stream)
  else (encoding, stream)

/-- The helper `double_quote_per_encoding`: entry `(int)encoding` of a
five-entry table (index 5 is outside the table and reads as 0 here). -/
def double_quote_per_encoding (encoding : parse_encoding) : Nat :=
  [34, 34, 34, 34, 34].getD encoding.toNat 0

/-- The helper `backslash_per_encoding`. -/
def backslash_per_encoding (encoding : parse_encoding) : Nat :=
  [92, 92, 92, 92, 92].getD encoding.toNat 0

/-- The helper `nextline_per_encoding`. -/
def nextline_per_encoding (encoding : parse_encoding) : Nat :=
  [10, 10, 10, 10, 10].getD encoding.toNat 0

/-- The variables of `parse_from_stream` that live across iterations of the
scan loop, and the member `_document`. -/
structure scan_state where
  builder : string_builder
  row : List u8string
  is_in_quote : Bool
  last_is_backslash : Bool
  lastRead : Nat
  _document : table

/-- How a piece of the body of `parse_from_stream` ends: control goes on to
the next iteration (by reaching the end of the body, where `lastRead` has been
assigned, or by `continue`, where it has not), the function returns `result`
with its locals and `_document` as in `s`, or an exception of the converter
leaves it. -/
inductive flow where
  | next (s : scan_state)
  | ret (result : parse_result) (s : scan_state)
  | thrown

/-- The statements `row.emplace_back(builder.to_string(options.trim));
builder.clear();` on a state. -/
def push_field (h : host) (o : parse_options) (s : scan_state) : Option scan_state :=
  match s.builder.to_string h o.trim with
  | none => none
  | some field => some { s with row := s.row ++ [field], builder := s.builder.clear }

/-- The `if`/`else if` chain of the loop body (from
`if (read == options.delimiter && !is_in_quote)` on), followed by
`lastRead = read`. -/
def classify (h : host) (o : parse_options) (enc : parse_encoding) (read : Nat)
    (s : scan_state) : flow :=
  if read = o.delimiter ∧ s.is_in_quote = false then
    match push_field h o s with
    | none => .thrown
    | some s1 => .next { s1 with lastRead := read }
  else if read = 34 ∧ s.is_in_quote = false then
    .next { s with is_in_quote := true, lastRead := read }
  else if read = 34 then
    if s.lastRead = 34 then
      .next { s with
        builder := s.builder.append h (double_quote_per_encoding enc), lastRead := read }
    else .next { s with is_in_quote := false, lastRead := read }
  else if read = 92 ∧ o.backslash_to_special = true then
    .next { s with last_is_backslash := true, lastRead := read }
  else if read = 10 then
    if s.is_in_quote then .ret .parse_error { s with _document := [] }
    else if s.row.isEmpty ∧ s.builder.empty then .next s
    else
      match push_field h o s with
      | none => .thrown
      | some s1 =>
          if ¬ s1._document.isEmpty ∧ (s1._document.getD 0 []).length ≠ s1.row.length then
            .ret .column_count_no_matched s1
          else
            .next { s1 with _document := s1._document ++ [s1.row], row := [], lastRead := read }
  else
    .next { s with builder := s.builder.append h read, lastRead := read }

/-- One iteration of the scan loop on the unit `read`: the pending-escape
block, then `classify`. -/
def loop_body (h : host) (o : parse_options) (enc : parse_encoding) (read : Nat)
    (s : scan_state) : flow :=
  if s.last_is_backslash then
    let s0 := { s with last_is_backslash := false }
    if read = 34 then
      .next { s0 with builder := s0.builder.append h (double_quote_per_encoding enc) }
    else if read = 110 then
      .next { s0 with builder := s0.builder.append h (nextline_per_encoding enc) }
    else if read = 92 then
      .next { s0 with builder := s0.builder.append h (backslash_per_encoding enc) }
    else if o.backslash_to_special_detect_error then
      .ret .parse_error { s0 with _document := [] }
    else
      classify h o enc read
        { s0 with builder := s0.builder.append h (backslash_per_encoding enc) }
  else classify h o enc read s

/-- The statements after the scan loop: the value returned, with the locals
and `_document` at the return. -/
def finish (h : host) (o : parse_options) (s : scan_state) :
    Option (parse_result × scan_state) :=
  if ¬ s.row.isEmpty then
    if s.is_in_quote then some (.parse_error, { s with _document := [] })
    else
      match push_field h o s with
      | none => none
      | some s1 =>
          if ¬ s1._document.isEmpty ∧ (s1._document.getD 0 []).length ≠ s1.row.length then
            some (.column_count_no_matched, s1)
          else some (.success, { s1 with _document := s1._document ++ [s1.row] })
  else some (.success, s)

/-- The scan loop `while ((read = buffer.read()) != 0) { ... }` over the units
the reader yields: `.next s` when the units are used up with the locals in
state `s`, otherwise how the body left the loop. -/
def scan_loop (h : host) (o : parse_options) (enc : parse_encoding) :
    List Nat → scan_state → flow
  | [], s => .next s
  | read :: rest, s =>
      match loop_body h o enc read s with
      | .next s1 => scan_loop h o enc rest s1
      | .ret result s1 => .ret result s1
      | .thrown => .thrown

/-- How `parse_from_stream` ends, given how its scan loop ended: the
statements after the loop run only when the loop used up its units. -/
def conclude (h : host) (o : parse_options) : flow → Option (parse_result × scan_state)
  | .next s => finish h o s
  | .ret result s => some (result, s)
  | .thrown => none

/-- The state at the first iteration: the locals as declared, `_document` as
the caller left it. -/
def scan_state.initial (enc : parse_encoding) (doc : table) : scan_state :=
  { builder := string_builder.mk_new enc
    row := []
    is_in_quote := false
    last_is_backslash := false
    lastRead := 0
    _document := doc }

/-- The units the scan loop of `parse_from_stream` reads from `stream` under
`encoding` (the reader makes at most one call per pending byte, and one
more). -/
def units_of (h : host) (stream : istream) (encoding : parse_encoding) : List Nat :=
  let buffer := stream_buffer.mk_new h stream encoding
  buffer.read_units (buffer.pending + 1)

/-- The body of `document::parse_from_stream` on a document holding `doc`:
the value returned together with the locals and `_document` at the return, or
`none` when an exception of the converter leaves the call. -/
def parse_from_stream_exit (h : host) (stream : istream) (options : parse_options)
    (doc : table) : Option (parse_result × scan_state) :=
  let d := detect_encoding h stream options.determine_bom
  conclude h options
    (scan_loop h options d.1 (units_of h d.2 d.1) (scan_state.initial d.1 doc))

/-- The method `document::parse_from_stream`, on a document holding `doc`:
the result and the table the document holds afterwards. -/
def parse_from_stream (h : host) (stream : istream) (options : parse_options)
    (doc : table) : Option (parse_result × table) :=
  (parse_from_stream_exit h stream options doc).map fun r => (r.1, r.2._document)

/-- The method `document::parse_from_text`. -/
def parse_from_text (h : host) (text : List Nat) (options : parse_options)
    (doc : table) : Option (parse_result × table) :=
  parse_from_stream h (istream.of_text text) options doc

/-! ## Specification-level functions used by the lemmas -/

/-- The width in bytes of a code unit of a concrete encoding (0 for the
unresolved `detect_from_bom`). -/
def unit_width : parse_encoding → Nat
  | .utf8 => 1
  | .utf16_big_endian => 2
  | .utf16_little_endian => 2
  | .utf32_big_endian => 4
  | .utf32_little_endian => 4
  | .detect_from_bom => 0

/-- The little-endian 16-bit values of the complete byte pairs of a list. -/
def units16 : List Nat → List Nat
  | a :: b :: t => (a + 256 * b) :: units16 t
  | _ => []

/-- The little-endian 32-bit values of the complete byte quadruples of a
list. -/
def units32 : List Nat → List Nat
  | a :: b :: c :: d :: t => (a + 256 * b + 65536 * c + 16777216 * d) :: units32 t
  | _ => []

/-- The code units of the complete groups of bytes of a list under an
encoding. -/
def decode_bytes : parse_encoding → List Nat → List Nat
  | .utf8, l => l
  | .utf16_big_endian, l => (units16 l).map swap_endian16
  | .utf16_little_endian, l => units16 l
  | .utf32_big_endian, l => (units32 l).map swap_endian32
  | .utf32_little_endian, l => units32 l
  | .detect_from_bom, _ => []

/-- The bytes of the stream a read can still obtain. -/
def istream.rest (s : istream) : List Nat :=
  if s.failbit then [] else s.data.drop s.pos

/-- The bytes the reader has yet to deliver: the unread part of its buffer,
then the rest of the stream. -/
def stream_buffer.rest (b : stream_buffer) : List Nat :=
  (b._buffer.take b._length).drop b._position ++ b._stream.rest

/-- The invariant of the reader: the position is on a unit boundary, the
filled length lies within the buffer, and a filled length that is not a whole
number of units was the last the stream had. -/
structure stream_buffer.inv (b : stream_buffer) : Prop where
  pos_dvd : unit_width b._encoding ∣ b._position
  len_le : b._length ≤ b._buffer.length
  len_dvd : unit_width b._encoding ∣ b._length ∨ b._stream.rest = []


/-- Every row of a table has as many fields as row 0. -/
def uniform (T : table) : Prop :=
  ∀ r ∈ T, r.length = (T.getD 0 []).length

/-- The table after a step that goes on: unchanged, or longer by one row that
passed the column-count test, the row buffer then being empty. -/
def step_document (s s1 : scan_state) : Prop :=
  s1._document = s._document ∨
    (s1.row = [] ∧ ∃ row, s1._document = s._document ++ [row] ∧
      (s._document = [] ∨ (s._document.getD 0 []).length = row.length))

/-- The table at a return from the loop or from the statements after it:
empty on `parse_error`, the non-empty table of before on
`column_count_no_matched`, with a pending row of another length. -/
def ret_document (s : scan_state) (r : parse_result) (s1 : scan_state) : Prop :=
  (r = .parse_error ∧ s1._document = []) ∨
    (r = .column_count_no_matched ∧ s1._document = s._document ∧ s._document ≠ []
      ∧ s1.row.length ≠ (s._document.getD 0 []).length)


/-- The text of one row: its fields joined with `','`, then `'\n'`. -/
def csv_line (r : List u8string) : List Nat :=
  [44].intercalate r ++ [10]

/-- The text of a list of rows: the texts of the rows, one after the other. -/
def csv_text (rows : table) : List Nat :=
  (rows.map csv_line).flatten

/-- A field that needs no quoting and that trimming leaves alone: bytes other
than `','`, `'"'`, `'\\'`, newline and NUL, with no space or tab at either
end. -/
def plain_field (f : u8string) : Prop :=
  (∀ b ∈ f, b < 256 ∧ b ≠ 44 ∧ b ≠ 34 ∧ b ≠ 92 ∧ b ≠ 10 ∧ b ≠ 0) ∧
    f.head? ≠ some 32 ∧ f.head? ≠ some 9 ∧ f.getLast? ≠ some 32 ∧ f.getLast? ≠ some 9

instance plain_field_decidable (f : u8string) : Decidable (plain_field f) := by
  unfold plain_field
  infer_instance

/-- The encoding `parse_from_stream` resolves for the stream over `input`. -/
def input_encoding (h : host) (input : List Nat) (o : parse_options) : parse_encoding :=
  (detect_encoding h (istream.of_text input) o.determine_bom).1

/-- The code units the scan loop of `parse_from_stream` reads from the stream
over `input`. -/
def input_units (h : host) (input : List Nat) (o : parse_options) : List Nat :=
  units_of h (detect_encoding h (istream.of_text input) o.determine_bom).2
    (detect_encoding h (istream.of_text input) o.determine_bom).1

/-- How the scan loop of `parse_from_stream`, run on the stream over `input`
and an empty document, stands after the first `k` units. -/
def scan_prefix (h : host) (input : List Nat) (o : parse_options) (k : Nat) : flow :=
  scan_loop h o (input_encoding h input o) ((input_units h input o).take k)
    (scan_state.initial (input_encoding h input o) [])

/-- The five signatures in the order `detect_encoding` tries them, each with
the encoding it stands for. -/
def bom_signatures : List (List Nat × parse_encoding) :=
  [(utf8_bom_bytes, .utf8), (utf16be_bom_bytes, .utf16_big_endian),
    (utf16le_bom_bytes, .utf16_little_endian), (utf32be_bom_bytes, .utf32_big_endian),
    (utf32le_bom_bytes, .utf32_little_endian)]

/-- The first signature of `bom_signatures`, in that order, that the bytes
`data` begin with, as the spec describes detection; `none` when they begin with
none of the five. -/
def first_signature (data : List Nat) : Option (List Nat × parse_encoding) :=
  bom_signatures.find? fun p => p.1.isPrefixOf data

/-! ## The code-unit reader -/

theorem istream_read_fst_append (s : istream) (n : Nat) :
    (s.read n).1 ++ (s.read n).2.rest = s.rest := by
  unfold istream.read istream.rest
  by_cases hf : s.failbit = true
  · simp [hf]
  · simp only [hf, if_false, Bool.false_eq_true]
    by_cases hlt : ((s.data.drop s.pos).take n).length < n
    · have hl : (s.data.drop s.pos).length < n := by
        rw [List.length_take] at hlt
        omega
      simp only [hlt, decide_True, if_true, List.append_nil]
      exact List.take_of_length_le (le_of_lt hl)
    · simp only [hlt, decide_False, Bool.false_eq_true, if_false]
      have hl : ((s.data.drop s.pos).take n).length = n := by
        rw [List.length_take] at hlt ⊢
        omega
      rw [hl, ← List.drop_drop]
      exact List.take_append_drop n _

theorem istream_read_short (s : istream) (n : Nat) (h : (s.read n).1.length < n) :
    (s.read n).2.rest = [] := by
  unfold istream.read istream.rest at *
  by_cases hf : s.failbit = true
  · simp [hf]
  · simp only [hf, if_false, Bool.false_eq_true] at h ⊢
    rw [if_pos (by simpa using h)]

theorem istream_read_length_le (s : istream) (n : Nat) : (s.read n).1.length ≤ n := by
  unfold istream.read
  by_cases hf : s.failbit = true
  · simp [hf]
  · simp [hf, List.length_take]

theorem unit_width_dvd_4096 (e : parse_encoding) (he : e ≠ .detect_from_bom) :
    unit_width e ∣ 4096 := by
  cases e <;> simp [unit_width] at * <;> decide

theorem refill_encoding (b : stream_buffer) : b.refill._encoding = b._encoding := by
  unfold stream_buffer.refill
  split <;> rfl

theorem refill_rest (b : stream_buffer) : b.refill.rest = b.rest := by
  unfold stream_buffer.refill
  split
  · rename_i hge
    simp only [stream_buffer.rest]
    have h1 : (b._buffer.take b._length).drop b._position = [] := by
      apply List.drop_eq_nil_of_le
      rw [List.length_take]
      omega
    rw [h1, List.nil_append, List.drop_zero, List.take_left', istream_read_fst_append]
    rfl
  · rfl

theorem refill_inv (b : stream_buffer) (hb : b.inv) (he : b._encoding ≠ .detect_from_bom) :
    b.refill.inv := by
  unfold stream_buffer.refill
  split
  · constructor
    · simp
    · simp
    · simp only
      by_cases hlt : (b._stream.read 4096).1.length < 4096
      · exact Or.inr (istream_read_short _ _ hlt)
      · have : (b._stream.read 4096).1.length = 4096 :=
          le_antisymm (istream_read_length_le _ _) (not_lt.mp hlt)
        rw [this]
        exact Or.inl (unit_width_dvd_4096 _ he)
  · exact hb

theorem rest_length (b : stream_buffer) (hb : b.inv) :
    b.rest.length = (b._length - b._position) + b._stream.rest.length := by
  have := hb.len_le
  simp [stream_buffer.rest, List.length_take, Nat.min_eq_left this]

theorem refill_pos_lt (b : stream_buffer) (hne : b.rest ≠ []) :
    b.refill._position < b.refill._length := by
  have hr := refill_rest b
  unfold stream_buffer.refill at *
  split
  · rename_i hge
    simp only
    rw [List.length_pos]
    intro hnil
    rw [if_pos hge] at hr
    apply hne
    rw [← hr]
    simp only [stream_buffer.rest, hnil]
    simp
    have := istream_read_short b._stream 4096 (by rw [hnil]; simp)
    exact this
  · omega

theorem refill_nil (b : stream_buffer) (hb : b.inv) (hnil : b.rest = []) :
    b._position ≥ b._length ∧ b.refill._length = 0 := by
  have hl := rest_length b hb
  rw [hnil, List.length_nil] at hl
  have hge : b._position ≥ b._length := by omega
  refine ⟨hge, ?_⟩
  have hs : b._stream.rest = [] := by
    apply List.eq_nil_of_length_eq_zero
    omega
  unfold stream_buffer.refill
  rw [if_pos hge]
  simp only
  have := istream_read_fst_append b._stream 4096
  rw [hs] at this
  simp at this
  rw [this.1]
  rfl

theorem rest_getD (b : stream_buffer) (hb : b.inv) (i : Nat)
    (h : b._position + i < b._length) :
    b.rest.getD i 0 = b._buffer.getD (b._position + i) 0 := by
  have hl := hb.len_le
  have h1 : i < ((b._buffer.take b._length).drop b._position).length := by
    rw [List.length_drop, List.length_take]
    omega
  simp only [stream_buffer.rest, List.getD_eq_getElem?_getD]
  rw [List.getElem?_append_left h1, List.getElem?_drop, List.getElem?_take_of_lt h]

theorem split1 (l : List Nat) (h : 1 ≤ l.length) : l = l.getD 0 0 :: l.drop 1 := by
  match l, h with
  | a :: t, _ => simp

theorem split2 (l : List Nat) (h : 2 ≤ l.length) :
    l = l.getD 0 0 :: l.getD 1 0 :: l.drop 2 := by
  match l, h with
  | a :: b :: t, _ => simp

theorem split4 (l : List Nat) (h : 4 ≤ l.length) :
    l = l.getD 0 0 :: l.getD 1 0 :: l.getD 2 0 :: l.getD 3 0 :: l.drop 4 := by
  match l, h with
  | a :: b :: c :: d :: t, _ => simp

theorem add_width_le {k p l : Nat} (hk : k ∣ p) (hl : k ∣ l) (h : p < l) : p + k ≤ l := by
  obtain ⟨a, rfl⟩ := hk
  obtain ⟨c, rfl⟩ := hl
  have hk0 : 0 < k := by
    rcases Nat.eq_zero_or_pos k with h0 | h0
    · subst h0; simp at h
    · exact h0
  have hac : a < c := lt_of_mul_lt_mul_left h (Nat.zero_le k)
  calc k * a + k = k * (a + 1) := by ring
    _ ≤ k * c := Nat.mul_le_mul_left k hac

theorem read_eq_fetch (b : stream_buffer) (hne : b.rest ≠ []) :
    b.read = b.refill.fetch := by
  have hlt := refill_pos_lt b hne
  unfold stream_buffer.read
  have : ¬ (b._position ≥ b._length ∧ b.refill._length = 0) := by
    intro h
    omega
  simp only [this, if_false]

theorem fetch_snd (b : stream_buffer) (he : b._encoding ≠ .detect_from_bom) :
    b.fetch.2 = { b with _position := b._position + unit_width b._encoding } := by
  unfold stream_buffer.fetch
  cases hq : b._encoding <;> simp [unit_width, hq] at he ⊢

theorem fetch_rest (b : stream_buffer) (hb : b.inv) (he : b._encoding ≠ .detect_from_bom)
    (hlt : b._position < b._length) :
    b.fetch.2.rest = b.rest.drop (unit_width b._encoding) := by
  rw [fetch_snd b he]
  simp only [stream_buffer.rest]
  rcases hb.len_dvd with hd | hs
  · have hle := add_width_le hb.pos_dvd hd hlt
    have hl := hb.len_le
    rw [List.drop_append_of_le_length, List.drop_drop]
    rw [List.length_drop, List.length_take]
    omega
  · rw [hs, List.append_nil, List.append_nil, List.drop_drop]

theorem fetch_inv (b : stream_buffer) (hb : b.inv) (he : b._encoding ≠ .detect_from_bom) :
    b.fetch.2.inv := by
  rw [fetch_snd b he]
  exact ⟨Dvd.dvd.add hb.pos_dvd (dvd_refl _), hb.len_le, hb.len_dvd⟩

theorem fetch_encoding (b : stream_buffer) : b.fetch.2._encoding = b._encoding := by
  unfold stream_buffer.fetch
  cases hq : b._encoding <;> simp [hq]

theorem width_le_rest (b : stream_buffer) (hb : b.inv) (hlt : b._position < b._length)
    (hk : unit_width b._encoding ≤ b.rest.length) :
    b._position + unit_width b._encoding ≤ b._length := by
  rcases hb.len_dvd with hd | hs
  · exact add_width_le hb.pos_dvd hd hlt
  · have := rest_length b hb
    rw [hs] at this
    simp at this
    omega

theorem fetch_value (b : stream_buffer) (hb : b.inv) (he : b._encoding ≠ .detect_from_bom)
    (hlt : b._position < b._length)
    (hk : unit_width b._encoding ≤ b.rest.length) :
    decode_bytes b._encoding b.rest
      = b.fetch.1 :: decode_bytes b._encoding (b.rest.drop (unit_width b._encoding)) := by
  have hle := width_le_rest b hb hlt hk
  have hpd := hb.pos_dvd
  have g0 := rest_getD b hb 0
  have g1 := rest_getD b hb 1
  have g2 := rest_getD b hb 2
  have g3 := rest_getD b hb 3
  rw [Nat.add_zero] at g0
  unfold stream_buffer.fetch
  cases hq : b._encoding
  all_goals simp only [hq, unit_width, decode_bytes] at hk hle hpd he ⊢
  · rw [← g0 (by omega)]
    exact split1 _ hk
  · have h2 : 2 * (b._position >>> 1) = b._position := by
      rw [Nat.shiftRight_eq_div_pow]; omega
    rw [h2, load16, ← g0 (by omega), ← g1 (by omega)]
    conv_lhs => rw [split2 _ hk]
    simp only [units16, List.map_cons]
  · have h2 : 2 * (b._position >>> 1) = b._position := by
      rw [Nat.shiftRight_eq_div_pow]; omega
    rw [h2, load16, ← g0 (by omega), ← g1 (by omega)]
    conv_lhs => rw [split2 _ hk]
    simp only [units16]
  · have h2 : 4 * (b._position / 4) = b._position := by omega
    rw [h2, load32, ← g0 (by omega), ← g1 (by omega), ← g2 (by omega), ← g3 (by omega)]
    conv_lhs => rw [split4 _ hk]
    simp only [units32, List.map_cons]
  · have h2 : 4 * (b._position / 4) = b._position := by omega
    rw [h2, load32, ← g0 (by omega), ← g1 (by omega), ← g2 (by omega), ← g3 (by omega)]
    conv_lhs => rw [split4 _ hk]
    simp only [units32]
  · exact absurd rfl he

theorem unit_width_pos (e : parse_encoding) (he : e ≠ .detect_from_bom) : 1 ≤ unit_width e := by
  cases e <;> simp [unit_width] at he ⊢

theorem decode_bytes_short (e : parse_encoding) (l : List Nat) (h : l.length < unit_width e) :
    decode_bytes e l = [] := by
  cases e <;> simp only [unit_width, decode_bytes] at h ⊢
  · match l, h with
    | [], _ => rfl
  · match l, h with
    | [], _ => rfl
    | [_], _ => rfl
  · match l, h with
    | [], _ => rfl
    | [_], _ => rfl
  · match l, h with
    | [], _ => rfl
    | [_], _ => rfl
    | [_, _], _ => rfl
    | [_, _, _], _ => rfl
  · match l, h with
    | [], _ => rfl
    | [_], _ => rfl
    | [_, _], _ => rfl
    | [_, _, _], _ => rfl

theorem decode_bytes_nil (e : parse_encoding) : decode_bytes e [] = [] := by
  cases e <;> rfl

theorem read_nil (b : stream_buffer) (hb : b.inv) (hnil : b.rest = []) : b.read.1 = 0 := by
  have h := refill_nil b hb hnil
  unfold stream_buffer.read
  simp only [h, and_self, if_true, ge_iff_le]

theorem read_units_nil (fuel : Nat) (b : stream_buffer) (hb : b.inv) (hnil : b.rest = []) :
    b.read_units fuel = [] := by
  cases fuel with
  | zero => rfl
  | succ n => simp [stream_buffer.read_units, read_nil b hb hnil]

theorem read_units_spec (fuel : Nat) : ∀ (b : stream_buffer), b.inv →
    b._encoding ≠ .detect_from_bom → b.rest.length + 1 ≤ fuel →
    ∃ t : List Nat, t.length ≤ 1 ∧ (unit_width b._encoding ∣ b.rest.length → t = []) ∧
      b.read_units fuel
        = (decode_bytes b._encoding b.rest ++ t).takeWhile (fun u => decide (u ≠ 0)) := by
  induction fuel with
  | zero => intro b _ _ h; omega
  | succ n ih =>
    intro b hb he hfuel
    by_cases hnil : b.rest = []
    · refine ⟨[], by simp, fun _ => rfl, ?_⟩
      rw [read_units_nil _ b hb hnil, hnil, decode_bytes_nil]
      rfl
    · have hread := read_eq_fetch b hnil
      have hinv1 := refill_inv b hb he
      have henc1 := refill_encoding b
      have hrest1 := refill_rest b
      have hlt1 := refill_pos_lt b hnil
      have he1 : b.refill._encoding ≠ .detect_from_bom := by rw [henc1]; exact he
      have hinv2 := fetch_inv b.refill hinv1 he1
      have henc2 := fetch_encoding b.refill
      have hrest2 := fetch_rest b.refill hinv1 he1 hlt1
      rw [henc1] at henc2
      rw [henc1, hrest1] at hrest2
      have hk := unit_width_pos _ he
      have hpos : 0 < b.rest.length := List.length_pos.mpr hnil
      simp only [stream_buffer.read_units, hread]
      by_cases hle : unit_width b._encoding ≤ b.rest.length
      · have hval := fetch_value b.refill hinv1 he1 hlt1 (by rw [henc1, hrest1]; exact hle)
        rw [henc1, hrest1] at hval
        by_cases hv : b.refill.fetch.1 = 0
        · refine ⟨[], by simp, fun _ => rfl, ?_⟩
          rw [hval]
          simp [hv]
        · have hlen2 : b.refill.fetch.2.rest.length + 1 ≤ n := by
            rw [hrest2, List.length_drop]; omega
          obtain ⟨t, ht1, ht2, ht3⟩ := ih _ hinv2 (by rw [henc2]; exact he) hlen2
          refine ⟨t, ht1, ?_, ?_⟩
          · intro hd
            apply ht2
            rw [henc2, hrest2, List.length_drop]
            exact (Nat.dvd_sub' hd (dvd_refl _))
          · rw [ht3, hval, henc2, hrest2]
            simp [hv]
      · have hshort := decode_bytes_short b._encoding b.rest (by omega)
        have hnil2 : b.refill.fetch.2.rest = [] := by
          rw [hrest2]; apply List.drop_eq_nil_of_le; omega
        refine ⟨[b.refill.fetch.1], by simp, ?_, ?_⟩
        · intro hd
          have := Nat.le_of_dvd hpos hd
          omega
        · rw [read_units_nil _ _ hinv2 hnil2, hshort]
          by_cases hv : b.refill.fetch.1 = 0 <;> simp [hv]

/-- A reader that has not read yet satisfies the invariant. -/
theorem mk_new_inv (h : host) (s : istream) (e : parse_encoding) :
    (stream_buffer.mk_new h s e).inv :=
  ⟨by simp [stream_buffer.mk_new], by simp [stream_buffer.mk_new],
    Or.inl (by simp [stream_buffer.mk_new])⟩

theorem mk_new_rest (h : host) (s : istream) (e : parse_encoding) :
    (stream_buffer.mk_new h s e).rest = s.rest := by
  simp [stream_buffer.mk_new, stream_buffer.rest]

theorem istream_rest_length_le (s : istream) : s.rest.length ≤ s.data.length - s.pos := by
  unfold istream.rest
  split <;> simp

/-- The units the scan loop receives from a stream under a concrete encoding
are the non-zero initial run of the code units of its complete byte groups,
followed by at most one unit built from an incomplete last group. -/
theorem units_of_spec (h : host) (s : istream) (e : parse_encoding)
    (he : e ≠ .detect_from_bom) :
    ∃ t : List Nat, t.length ≤ 1 ∧ (unit_width e ∣ s.rest.length → t = []) ∧
      units_of h s e = (decode_bytes e s.rest ++ t).takeWhile (fun u => decide (u ≠ 0)) := by
  have hfuel : (stream_buffer.mk_new h s e).rest.length + 1
      ≤ (stream_buffer.mk_new h s e).pending + 1 := by
    rw [mk_new_rest]
    have := istream_rest_length_le s
    simp only [stream_buffer.pending, stream_buffer.mk_new]
    omega
  have := read_units_spec _ (stream_buffer.mk_new h s e) (mk_new_inv h s e) he hfuel
  rw [mk_new_rest] at this
  exact this

/-- Under UTF-8 the scan loop receives the bytes of the stream up to the first
NUL byte. -/
theorem units_of_utf8 (h : host) (s : istream) :
    units_of h s .utf8 = s.rest.takeWhile (fun u => decide (u ≠ 0)) := by
  obtain ⟨t, _, ht, heq⟩ := units_of_spec h s .utf8 (by decide)
  rw [heq, ht (by simp [unit_width])]
  simp [decode_bytes]

/-- With the encoding unresolved the reader yields no unit. -/
theorem units_of_detect (h : host) (s : istream) : units_of h s .detect_from_bom = [] := by
  unfold units_of
  simp only [stream_buffer.read_units]
  have henc : (stream_buffer.mk_new h s .detect_from_bom).refill._encoding
      = .detect_from_bom := by
    rw [refill_encoding]; rfl
  have : (stream_buffer.mk_new h s .detect_from_bom).read.1 = 0 := by
    unfold stream_buffer.read
    simp only [henc]
    split <;> rfl
  simp [this]


/-- The fuel of `read_units` is enough once it exceeds the number of bytes the
reader has yet to deliver: one more call changes nothing, so the list ends
because `read` returned 0 and not because the calls ran out. -/
theorem read_units_fuel (fuel : Nat) : ∀ (b : stream_buffer), b.inv →
    b._encoding ≠ .detect_from_bom → b.rest.length + 1 ≤ fuel →
    b.read_units (fuel + 1) = b.read_units fuel := by
  induction fuel with
  | zero => intro b _ _ h; omega
  | succ n ih =>
      intro b hb he hfuel
      by_cases hnil : b.rest = []
      · rw [read_units_nil _ b hb hnil, read_units_nil _ b hb hnil]
      · have hread := read_eq_fetch b hnil
        have hinv1 := refill_inv b hb he
        have henc1 := refill_encoding b
        have hrest1 := refill_rest b
        have hlt1 := refill_pos_lt b hnil
        have he1 : b.refill._encoding ≠ .detect_from_bom := by rw [henc1]; exact he
        have hinv2 := fetch_inv b.refill hinv1 he1
        have henc2 := fetch_encoding b.refill
        have hrest2 := fetch_rest b.refill hinv1 he1 hlt1
        rw [henc1] at henc2
        rw [henc1, hrest1] at hrest2
        have hk := unit_width_pos _ he
        have hpos : 0 < b.rest.length := List.length_pos.mpr hnil
        have hlen2 : b.refill.fetch.2.rest.length + 1 ≤ n := by
          rw [hrest2, List.length_drop]; omega
        have := ih _ hinv2 (by rw [henc2]; exact he) hlen2
        simp only [stream_buffer.read_units, hread] at this ⊢
        rw [this]


/-! ## One step of the scan: what it does to the table -/

theorem push_field_frame (h : host) (o : parse_options) (s s1 : scan_state)
    (hp : push_field h o s = some s1) :
    s1._document = s._document ∧ s1.is_in_quote = s.is_in_quote
      ∧ s1.last_is_backslash = s.last_is_backslash ∧ s1.lastRead = s.lastRead
      ∧ s1.row ≠ [] := by
  unfold push_field at hp
  split at hp
  · cases hp
  · cases hp
    simp

theorem push_test (s s1 : scan_state) (hd : s1._document = s._document)
    (hn : ¬(¬List.isEmpty s1._document = true ∧
      (List.getD s1._document 0 []).length ≠ s1.row.length)) :
    s._document = [] ∨ (s._document.getD 0 []).length = s1.row.length := by
  rw [hd] at hn
  by_cases he : s._document = []
  · exact Or.inl he
  · right
    by_contra hne
    apply hn
    refine ⟨?_, hne⟩
    simpa [List.isEmpty_iff] using he

theorem classify_next (h : host) (o : parse_options) (enc : parse_encoding) (read : Nat)
    (s s1 : scan_state) (hc : classify h o enc read s = .next s1) :
    step_document s s1 := by
  unfold classify at hc
  unfold step_document
  split_ifs at hc
  all_goals try (split at hc)
  all_goals try (split_ifs at hc)
  all_goals try (cases hc)
  all_goals try (simp; done)
  · rename_i s2 hp
    exact Or.inl (push_field_frame h o s s2 hp).1
  · rename_i s2 hp hn
    have hf := push_field_frame h o s s2 hp
    right
    refine ⟨rfl, s2.row, ?_, ?_⟩
    · simp [hf.1]
    · exact push_test s s2 hf.1 hn

theorem classify_ret (h : host) (o : parse_options) (enc : parse_encoding) (read : Nat)
    (s s1 : scan_state) (r : parse_result) (hc : classify h o enc read s = .ret r s1) :
    ret_document s r s1 := by
  unfold classify at hc
  unfold ret_document
  split_ifs at hc
  all_goals try (split at hc)
  all_goals try (split_ifs at hc)
  all_goals try (cases hc)
  all_goals try (simp; done)
  rename_i hp hn
  have hf := push_field_frame h o s s1 hp
  right
  rw [hf.1] at hn
  refine ⟨rfl, hf.1, ?_, ?_⟩
  · intro he
    rw [he] at hn
    simp at hn
  · exact fun he => hn.2 he.symm

theorem loop_body_next (h : host) (o : parse_options) (enc : parse_encoding) (read : Nat)
    (s s1 : scan_state) (hc : loop_body h o enc read s = .next s1) :
    step_document s s1 := by
  unfold loop_body at hc
  dsimp only at hc
  split_ifs at hc
  · cases hc; exact Or.inl rfl
  · cases hc; exact Or.inl rfl
  · cases hc; exact Or.inl rfl
  · have := classify_next _ _ _ _ _ _ hc
    exact this
  · exact classify_next _ _ _ _ _ _ hc

theorem loop_body_ret (h : host) (o : parse_options) (enc : parse_encoding) (read : Nat)
    (s s1 : scan_state) (r : parse_result) (hc : loop_body h o enc read s = .ret r s1) :
    ret_document s r s1 := by
  unfold loop_body at hc
  dsimp only at hc
  split_ifs at hc
  · cases hc; exact Or.inl ⟨rfl, rfl⟩
  · have := classify_ret _ _ _ _ _ _ _ hc
    exact this
  · exact classify_ret _ _ _ _ _ _ _ hc

theorem finish_cases (h : host) (o : parse_options) (s s1 : scan_state) (r : parse_result)
    (hf : finish h o s = some (r, s1)) :
    (ret_document s r s1 ∧ s.row ≠ []) ∨
      (r = .success ∧ ((s.row = [] ∧ s1 = s) ∨
        ∃ row, s1._document = s._document ++ [row] ∧
          (s._document = [] ∨ (s._document.getD 0 []).length = row.length))) := by
  unfold finish at hf
  unfold ret_document
  by_cases h1 : s.row = []
  · have h1e : s.row.isEmpty = true := by simp [h1]
    simp only [h1e, not_true_eq_false, if_false] at hf
    cases hf
    exact Or.inr ⟨rfl, Or.inl ⟨h1, rfl⟩⟩
  · have h1e : ¬ s.row.isEmpty = true := by simpa [List.isEmpty_iff] using h1
    rw [if_pos h1e] at hf
    split_ifs at hf with h2
    · cases hf
      exact Or.inl ⟨Or.inl ⟨rfl, rfl⟩, h1⟩
    · split at hf
      · cases hf
      · rename_i s2 hp
        have hfr := push_field_frame h o s s2 hp
        split_ifs at hf with h3
        · cases hf
          left
          rw [hfr.1] at h3
          refine ⟨Or.inr ⟨rfl, hfr.1, ?_, ?_⟩, h1⟩
          · intro he
            rw [he] at h3
            simp at h3
          · exact fun he => h3.2 he.symm
        · cases hf
          right
          refine ⟨rfl, Or.inr ⟨s2.row, ?_, push_test s s2 hfr.1 h3⟩⟩
          simp [hfr.1]


theorem uniform_nil : uniform [] := by
  intro r hr
  cases hr

theorem uniform_append (D : table) (row : List u8string) (hu : uniform D)
    (hrow : D = [] ∨ (D.getD 0 []).length = row.length) : uniform (D ++ [row]) := by
  cases D with
  | nil =>
      intro r hr
      simp at hr
      simp [hr]
  | cons d ds =>
      rcases hrow with hrow | hrow
      · cases hrow
      · intro r hr
        simp only [List.cons_append, List.mem_cons, List.mem_append, List.mem_singleton,
          List.not_mem_nil, or_false] at hr
        simp only [List.cons_append, List.getD_cons_zero] at hrow ⊢
        rcases hr with hr | hr | hr
        · rw [hr]
        · have := hu r (List.mem_cons_of_mem _ hr)
          simpa using this
        · rw [hr, hrow]

theorem uniform_step (s s1 : scan_state) (hu : uniform s._document)
    (hs : step_document s s1) : uniform s1._document := by
  rcases hs with hs | ⟨_, row, hd, hrow⟩
  · rw [hs]; exact hu
  · rw [hd]; exact uniform_append _ _ hu hrow

theorem scan_loop_append (h : host) (o : parse_options) (enc : parse_encoding)
    (a b : List Nat) (s : scan_state) :
    scan_loop h o enc (a ++ b) s =
      match scan_loop h o enc a s with
      | .next s1 => scan_loop h o enc b s1
      | .ret r s1 => .ret r s1
      | .thrown => .thrown := by
  induction a generalizing s with
  | nil => rfl
  | cons u a ih =>
      simp only [List.cons_append, scan_loop]
      cases hb : loop_body h o enc u s with
      | next s1 => exact ih s1
      | ret r s1 => rfl
      | thrown => rfl

theorem scan_loop_append_next (h : host) (o : parse_options) (enc : parse_encoding)
    (a b : List Nat) (s s1 : scan_state) (ha : scan_loop h o enc a s = .next s1) :
    scan_loop h o enc (a ++ b) s = scan_loop h o enc b s1 := by
  rw [scan_loop_append, ha]

theorem scan_loop_next_uniform (h : host) (o : parse_options) (enc : parse_encoding)
    (units : List Nat) : ∀ (s s1 : scan_state), uniform s._document →
    scan_loop h o enc units s = .next s1 → uniform s1._document := by
  induction units with
  | nil =>
      intro s s1 hu hs
      simp only [scan_loop] at hs
      cases hs
      exact hu
  | cons u rest ih =>
      intro s s1 hu hs
      simp only [scan_loop] at hs
      cases hb : loop_body h o enc u s with
      | next s2 =>
          rw [hb] at hs
          exact ih s2 s1 (uniform_step s s2 hu (loop_body_next _ _ _ _ _ _ hb)) hs
      | ret r s2 => rw [hb] at hs; cases hs
      | thrown => rw [hb] at hs; cases hs

/-- A return from inside the loop is the return of one iteration, reached
after the iterations before it went on. -/
theorem scan_loop_ret (h : host) (o : parse_options) (enc : parse_encoding)
    (units : List Nat) : ∀ (s s1 : scan_state) (r : parse_result),
    scan_loop h o enc units s = .ret r s1 →
    ∃ pre u post s2, units = pre ++ u :: post ∧ scan_loop h o enc pre s = .next s2 ∧
      loop_body h o enc u s2 = .ret r s1 := by
  induction units with
  | nil =>
      intro s s1 r hs
      simp only [scan_loop] at hs
      cases hs
  | cons u rest ih =>
      intro s s1 r hs
      simp only [scan_loop] at hs
      cases hb : loop_body h o enc u s with
      | next s2 =>
          rw [hb] at hs
          obtain ⟨pre, v, post, s3, hu, hpre, hv⟩ := ih s2 s1 r hs
          refine ⟨u :: pre, v, post, s3, by rw [hu]; rfl, ?_, hv⟩
          simp only [scan_loop, hb]
          exact hpre
      | ret r2 s2 =>
          rw [hb] at hs
          cases hs
          exact ⟨[], u, rest, s, rfl, rfl, hb⟩
      | thrown => rw [hb] at hs; cases hs

/-- What `parse_from_stream` returns is `success`, or one of the two returns
described by `ret_document`, taken from a state the loop reached. -/
theorem conclude_cases (h : host) (o : parse_options) (enc : parse_encoding)
    (units : List Nat) (s s1 : scan_state) (r : parse_result)
    (hc : conclude h o (scan_loop h o enc units s) = some (r, s1)) :
    ∃ pre s2, pre <+: units ∧ scan_loop h o enc pre s = .next s2 ∧
      (ret_document s2 r s1 ∨
        (r = .success ∧ scan_loop h o enc units s = .next s2 ∧
          ((s2.row = [] ∧ s1 = s2) ∨
            ∃ row, s1._document = s2._document ++ [row] ∧
              (s2._document = [] ∨ (s2._document.getD 0 []).length = row.length)))) := by
  cases hl : scan_loop h o enc units s with
  | next s2 =>
      rw [hl] at hc
      simp only [conclude] at hc
      refine ⟨units, s2, List.prefix_refl _, hl, ?_⟩
      rcases finish_cases h o s2 s1 r hc with ⟨hret, _⟩ | ⟨hr, hcase⟩
      · exact Or.inl hret
      · exact Or.inr ⟨hr, rfl, hcase⟩
  | ret r2 s2 =>
      rw [hl] at hc
      simp only [conclude] at hc
      cases hc
      obtain ⟨pre, u, post, s3, hu, hpre, hbody⟩ := scan_loop_ret h o enc units s s1 r hl
      exact ⟨pre, s3, ⟨u :: post, hu.symm⟩, hpre,
        Or.inl (loop_body_ret h o enc u s3 s1 r hbody)⟩
  | thrown =>
      rw [hl] at hc
      simp only [conclude] at hc
      cases hc

/-- Whatever `parse_from_stream` returns on a uniform table, the table it
leaves is uniform. -/
theorem conclude_uniform (h : host) (o : parse_options) (enc : parse_encoding)
    (units : List Nat) (s s1 : scan_state) (r : parse_result) (hu : uniform s._document)
    (hc : conclude h o (scan_loop h o enc units s) = some (r, s1)) :
    uniform s1._document := by
  obtain ⟨pre, s2, _, hpre, hcase⟩ := conclude_cases h o enc units s s1 r hc
  have hu2 := scan_loop_next_uniform h o enc pre s s2 hu hpre
  rcases hcase with (⟨_, hd⟩ | ⟨_, hd, _, _⟩) | ⟨_, _, hcase⟩
  · rw [hd]; exact uniform_nil
  · rw [hd]; exact hu2
  · rcases hcase with ⟨_, he⟩ | ⟨row, hd, hrow⟩
    · rw [he]; exact hu2
    · rw [hd]; exact uniform_append _ _ hu2 hrow

theorem parse_from_stream_eq (h : host) (stream : istream) (o : parse_options) (doc T : table)
    (r : parse_result) (hres : parse_from_stream h stream o doc = some (r, T)) :
    ∃ s1, parse_from_stream_exit h stream o doc = some (r, s1) ∧ s1._document = T := by
  unfold parse_from_stream at hres
  cases hx : parse_from_stream_exit h stream o doc with
  | none => rw [hx] at hres; cases hres
  | some p =>
      rw [hx] at hres
      simp only [Option.map_some', Option.some.injEq, Prod.mk.injEq] at hres
      exact ⟨p.2, by rw [← hres.1], hres.2⟩


/-! ## The accumulator under UTF-8 -/

theorem to_string_utf8_eq (h : host) (buf sp : List Nat) (trim : Bool) :
    string_builder.to_string h ⟨buf, .utf8, sp⟩ trim = some (to_string_utf8 buf trim) := by
  unfold string_builder.to_string
  by_cases hb : buf.isEmpty = true
  · rw [List.isEmpty_iff.mp hb]
    rfl
  · simp only [hb, Bool.false_eq_true, if_false]

theorem append_utf8 (h : host) (buf sp : List Nat) (ch : Nat) :
    ∃ sp1, string_builder.append h ⟨buf, .utf8, sp⟩ ch = ⟨buf ++ [ch % 256], .utf8, sp1⟩ :=
  ⟨_, rfl⟩

theorem getD_getLast (buf : List Nat) (hne : buf ≠ []) :
    buf.getLast? = some (buf.getD (buf.length - 1) 0) := by
  rw [List.getLast?_eq_getElem?, List.getD_eq_getElem?_getD]
  have : buf.length - 1 < buf.length := by
    have := List.length_pos.mpr hne
    omega
  rw [List.getElem?_eq_getElem this]
  rfl

theorem getD_head (buf : List Nat) (hne : buf ≠ []) :
    buf.head? = some (buf.getD 0 0) := by
  cases buf with
  | nil => exact absurd rfl hne
  | cons a t => rfl

theorem advance_start_stop (buf : List Nat) (trim : Bool) (e fuel start : Nat)
    (h : (trim && decide (start < e) && is_trimmed_unit (buf.getD start 0)) = false) :
    advance_start buf trim e fuel start = start := by
  cases fuel with
  | zero => rfl
  | succ n => simp only [advance_start, h, Bool.false_eq_true, if_false]

theorem retreat_end_stop (buf : List Nat) (trim : Bool) (start fuel e : Nat)
    (h : (trim && decide (start < e) && is_trimmed_unit (buf.getD e 0)) = false) :
    retreat_end buf trim start fuel e = e := by
  cases fuel with
  | zero => rfl
  | succ n => simp only [retreat_end, h, Bool.false_eq_true, if_false]

/-- A content that does not begin or end with a trimmed unit, or is read
without `trim`, is returned whole. -/
theorem to_string_utf8_whole (buf : List Nat) (trim : Bool)
    (hok : trim = true → buf ≠ [] →
      is_trimmed_unit (buf.getD 0 0) = false ∧
        is_trimmed_unit (buf.getD (buf.length - 1) 0) = false) :
    to_string_utf8 buf trim = buf := by
  unfold to_string_utf8
  by_cases hb : buf = []
  · rw [hb]
    rfl
  · have hlen : 1 ≤ buf.length := List.length_pos.mpr hb
    simp only []
    have ha : advance_start buf trim (buf.length - 1) buf.length 0 = 0 := by
      apply advance_start_stop
      cases trim with
      | false => rfl
      | true => rw [(hok rfl hb).1, Bool.and_false]
    rw [ha]
    have hr : retreat_end buf trim 0 buf.length (buf.length - 1) = buf.length - 1 := by
      apply retreat_end_stop
      cases trim with
      | false => rfl
      | true => rw [(hok rfl hb).2, Bool.and_false]
    rw [hr, List.drop_zero, Nat.sub_zero, Nat.sub_add_cancel hlen, List.take_length]


/-! ## Steps of the scan on particular units -/

/-- A unit that is no quote, no newline, no armed backslash and no delimiter
outside quotes is appended to the accumulator. -/
theorem loop_body_plain (h : host) (o : parse_options) (enc : parse_encoding) (u : Nat)
    (b : string_builder) (row : List u8string) (q : Bool) (last : Nat) (doc : table)
    (h34 : u ≠ 34) (h10 : u ≠ 10) (h92 : u = 92 → o.backslash_to_special = false)
    (hd : u = o.delimiter → q = true) :
    loop_body h o enc u ⟨b, row, q, false, last, doc⟩
      = .next ⟨b.append h u, row, q, false, u, doc⟩ := by
  have c1 : ¬ (u = o.delimiter ∧ q = false) := by
    rintro ⟨h1, h2⟩
    rw [hd h1] at h2
    cases h2
  have c4 : ¬ (u = 92 ∧ o.backslash_to_special = true) := by
    rintro ⟨h1, h2⟩
    rw [h92 h1] at h2
    cases h2
  simp only [loop_body, classify, Bool.false_eq_true, if_false, c1, h34, false_and, c4, h10]

theorem scan_loop_plain (h : host) (o : parse_options) (enc : parse_encoding)
    (row : List u8string) (q : Bool) (doc : table) (us : List Nat) :
    ∀ (b : string_builder) (last : Nat),
    (∀ u ∈ us, u ≠ 34 ∧ u ≠ 10 ∧ (u = 92 → o.backslash_to_special = false) ∧
      (u = o.delimiter → q = true)) →
    scan_loop h o enc us ⟨b, row, q, false, last, doc⟩
      = .next ⟨us.foldl (string_builder.append h) b, row, q, false, us.getLast?.getD last,
          doc⟩ := by
  induction us with
  | nil => intro b last _; rfl
  | cons u us ih =>
      intro b last hus
      obtain ⟨h34, h10, h92, hd⟩ := hus u (List.mem_cons_self _ _)
      simp only [scan_loop, loop_body_plain h o enc u b row q last doc h34 h10 h92 hd]
      rw [ih (b.append h u) u (fun v hv => hus v (List.mem_cons_of_mem _ hv))]
      simp only [List.foldl_cons]
      congr 2
      cases us with
      | nil => rfl
      | cons v vs =>
          rw [List.getLast?_cons_cons, List.getLast?_eq_getLast _ (List.cons_ne_nil v vs)]
          rfl

theorem foldl_append_utf8 (h : host) (us : List Nat) : ∀ (buf sp : List Nat),
    (∀ u ∈ us, u < 256) →
    ∃ sp1, us.foldl (string_builder.append h) ⟨buf, .utf8, sp⟩ = ⟨buf ++ us, .utf8, sp1⟩ := by
  induction us with
  | nil => intro buf sp _; exact ⟨sp, by simp⟩
  | cons u us ih =>
      intro buf sp hus
      have hu := hus u (List.mem_cons_self _ _)
      obtain ⟨sp1, h1⟩ := append_utf8 h buf sp u
      obtain ⟨sp2, h2⟩ := ih (buf ++ [u]) sp1 (fun v hv => hus v (List.mem_cons_of_mem _ hv))
      refine ⟨sp2, ?_⟩
      rw [List.foldl_cons, h1, Nat.mod_eq_of_lt hu, h2]
      simp

/-- The delimiter outside quotes ends the field. -/
theorem loop_body_delimiter (h : host) (o : parse_options) (buf sp : List Nat)
    (row : List u8string) (last : Nat) (doc : table) :
    loop_body h o .utf8 o.delimiter ⟨⟨buf, .utf8, sp⟩, row, false, false, last, doc⟩
      = .next ⟨⟨[], .utf8, buf ++ sp⟩, row ++ [to_string_utf8 buf o.trim], false, false,
          o.delimiter, doc⟩ := by
  simp only [loop_body, classify, Bool.false_eq_true, if_false, and_self, if_true, push_field,
    to_string_utf8_eq, string_builder.clear]

/-- The newline outside quotes, with a field or a row pending, ends the row:
the row is added when the table is empty or its row 0 has as many fields. -/
theorem loop_body_newline (h : host) (o : parse_options) (buf sp : List Nat)
    (row : List u8string) (last : Nat) (doc : table) (hd : o.delimiter ≠ 10)
    (hpending : row ≠ [] ∨ buf ≠ [])
    (hcount : doc = [] ∨ (doc.getD 0 []).length = row.length + 1) :
    loop_body h o .utf8 10 ⟨⟨buf, .utf8, sp⟩, row, false, false, last, doc⟩
      = .next ⟨⟨[], .utf8, buf ++ sp⟩, [], false, false, 10,
          doc ++ [row ++ [to_string_utf8 buf o.trim]]⟩ := by
  have c1 : ¬ ((10 : Nat) = o.delimiter) := fun hc => hd hc.symm
  have c2 : ¬ (row.isEmpty = true ∧ string_builder.empty ⟨buf, .utf8, sp⟩ = true) := by
    rintro ⟨h1, h2⟩
    rcases hpending with hp | hp
    · exact hp (List.isEmpty_iff.mp h1)
    · exact hp (List.isEmpty_iff.mp h2)
  have c3 : ¬ (¬ doc.isEmpty = true ∧
      (doc.getD 0 []).length ≠ (row ++ [to_string_utf8 buf o.trim]).length) := by
    rintro ⟨h1, h2⟩
    rcases hcount with hc | hc
    · exact h1 (List.isEmpty_iff.mpr hc)
    · apply h2
      rw [hc]
      simp
  simp only [loop_body, classify, Bool.false_eq_true, if_false, c1, false_and, c2, push_field,
    to_string_utf8_eq, string_builder.clear, c3]
  simp


/-! ## Parsing UTF-8 text -/

theorem detect_encoding_concrete (h : host) (s : istream) (e : parse_encoding)
    (he : e ≠ .detect_from_bom) : detect_encoding h s e = (e, s) := by
  unfold detect_encoding
  rw [if_neg he]

/-- With the UTF-8 encoding configured, `parse_from_text` scans the bytes of the
text before its first NUL byte. -/
theorem parse_from_text_utf8 (h : host) (text : List Nat) (o : parse_options) (doc : table)
    (ho : o.determine_bom = .utf8) :
    parse_from_text h text o doc
      = (conclude h o (scan_loop h o .utf8 (text.takeWhile (fun u => decide (u ≠ 0)))
          (scan_state.initial .utf8 doc))).map fun r => (r.1, r.2._document) := by
  unfold parse_from_text parse_from_stream parse_from_stream_exit
  rw [ho, detect_encoding_concrete h _ _ (by decide)]
  simp only [units_of_utf8]
  rfl

theorem takeWhile_ne_zero (text : List Nat) (hz : ∀ b ∈ text, b ≠ 0) :
    text.takeWhile (fun u => decide (u ≠ 0)) = text := by
  rw [List.takeWhile_eq_self_iff]
  intro b hb
  simpa using hz b hb

/-- Trimming leaves alone a content without NUL that has no space or tab at
either end. -/
theorem to_string_utf8_untrimmed (f : u8string) (trim : Bool) (hz : ∀ b ∈ f, b ≠ 0)
    (h1 : f.head? ≠ some 32) (h2 : f.head? ≠ some 9)
    (h3 : f.getLast? ≠ some 32) (h4 : f.getLast? ≠ some 9) :
    to_string_utf8 f trim = f := by
  apply to_string_utf8_whole
  intro _ hne
  have hh := getD_head f hne
  have hl := getD_getLast f hne
  have m1 : f.getD 0 0 ∈ f := List.mem_of_mem_head? hh
  have m2 : f.getD (f.length - 1) 0 ∈ f := List.mem_of_mem_getLast? hl
  rw [hh] at h1 h2
  rw [hl] at h3 h4
  have z1 := hz _ m1
  have z2 := hz _ m2
  constructor
  · simp only [is_trimmed_unit, Bool.or_eq_false_iff, beq_eq_false_iff_ne, ne_eq]
    exact ⟨⟨fun hc => h1 (by rw [hc]), fun hc => h2 (by rw [hc])⟩, z1⟩
  · simp only [is_trimmed_unit, Bool.or_eq_false_iff, beq_eq_false_iff_ne, ne_eq]
    exact ⟨⟨fun hc => h3 (by rw [hc]), fun hc => h4 (by rw [hc])⟩, z2⟩

theorem plain_field_to_string (f : u8string) (hf : plain_field f) :
    to_string_utf8 f true = f :=
  to_string_utf8_untrimmed f true (fun b hb => (hf.1 b hb).2.2.2.2.2) hf.2.1 hf.2.2.1
    hf.2.2.2.1 hf.2.2.2.2

theorem scan_plain_field (h : host) (f : u8string) (hf : plain_field f) (buf sp : List Nat)
    (row : List u8string) (q : Bool) (last : Nat) (doc : table) :
    ∃ sp1, scan_loop h default_options .utf8 f ⟨⟨buf, .utf8, sp⟩, row, q, false, last, doc⟩
      = .next ⟨⟨buf ++ f, .utf8, sp1⟩, row, q, false, f.getLast?.getD last, doc⟩ := by
  obtain ⟨sp1, h1⟩ := foldl_append_utf8 h f buf sp (fun u hu => (hf.1 u hu).1)
  refine ⟨sp1, ?_⟩
  rw [scan_loop_plain, h1]
  intro u hu
  obtain ⟨_, h44, h34, h92, h10, _⟩ := hf.1 u hu
  exact ⟨h34, h10, fun hc => absurd hc h92, fun hc => absurd hc h44⟩

theorem csv_line_single (f : u8string) : csv_line [f] = f ++ [10] := by
  simp [csv_line, List.intercalate]

theorem csv_line_cons (f g : u8string) (gs : List u8string) :
    csv_line (f :: g :: gs) = f ++ 44 :: csv_line (g :: gs) := by
  simp [csv_line, List.intercalate]

theorem csv_text_cons (r : List u8string) (rs : table) :
    csv_text (r :: rs) = csv_line r ++ csv_text rs := by
  simp [csv_text]

theorem scan_csv_line (h : host) (doc : table) (fs : List u8string) :
    ∀ (f : u8string) (acc : List u8string) (last : Nat) (sp : List Nat),
    (∀ g ∈ f :: fs, plain_field g) → acc ++ f :: fs ≠ [[]] →
    (doc = [] ∨ (doc.getD 0 []).length = (acc ++ f :: fs).length) →
    ∃ sp1, scan_loop h default_options .utf8 (csv_line (f :: fs))
        ⟨⟨[], .utf8, sp⟩, acc, false, false, last, doc⟩
      = .next ⟨⟨[], .utf8, sp1⟩, [], false, false, 10, doc ++ [acc ++ f :: fs]⟩ := by
  induction fs with
  | nil =>
      intro f acc last sp hp hne hcount
      have hf := hp f (List.mem_cons_self _ _)
      obtain ⟨sp1, h1⟩ := scan_plain_field h f hf [] sp acc false last doc
      refine ⟨f ++ sp1, ?_⟩
      rw [csv_line_single, scan_loop_append_next _ _ _ _ _ _ _ h1]
      simp only [scan_loop, List.nil_append]
      have hpend : acc ≠ [] ∨ f ≠ [] := by
        by_contra hc
        push_neg at hc
        apply hne
        rw [hc.1, hc.2]
        rfl
      have hcount2 : doc = [] ∨ (doc.getD 0 []).length = acc.length + 1 := by
        simpa using hcount
      rw [loop_body_newline h default_options f sp1 acc _ doc (by decide) hpend hcount2]
      simp only [default_options, plain_field_to_string f hf]
  | cons g gs ih =>
      intro f acc last sp hp hne hcount
      have hf := hp f (List.mem_cons_self _ _)
      obtain ⟨sp1, h1⟩ := scan_plain_field h f hf [] sp acc false last doc
      have hne2 : (acc ++ [f]) ++ g :: gs ≠ [[]] := by
        intro hc
        have := congrArg List.length hc
        simp at this
        omega
      obtain ⟨sp2, h2⟩ := ih g (acc ++ [f]) 44 (f ++ sp1)
        (fun x hx => hp x (List.mem_cons_of_mem _ hx)) hne2 (by simpa using hcount)
      refine ⟨sp2, ?_⟩
      rw [csv_line_cons, scan_loop_append_next _ _ _ _ _ _ _ h1]
      simp only [scan_loop, List.nil_append]
      have hdel := loop_body_delimiter h default_options f sp1 acc (f.getLast?.getD last) doc
      simp only [default_options] at hdel
      simp only [default_options]
      rw [hdel]
      simp only [plain_field_to_string f hf]
      simp only [default_options, List.append_assoc, List.singleton_append] at h2
      exact h2

theorem scan_csv_text (h : host) (n : Nat) (hn : 1 ≤ n) (rows : table) :
    ∀ (doc : table) (last : Nat) (sp : List Nat),
    (∀ r ∈ rows, r.length = n ∧ r ≠ [[]] ∧ ∀ f ∈ r, plain_field f) →
    (doc = [] ∨ (doc.getD 0 []).length = n) →
    ∃ last1 sp1, scan_loop h default_options .utf8 (csv_text rows)
        ⟨⟨[], .utf8, sp⟩, [], false, false, last, doc⟩
      = .next ⟨⟨[], .utf8, sp1⟩, [], false, false, last1, doc ++ rows⟩ := by
  induction rows with
  | nil =>
      intro doc last sp _ _
      exact ⟨last, sp, by simp [csv_text, scan_loop]⟩
  | cons r rs ih =>
      intro doc last sp hrows hdoc
      obtain ⟨hlen, hne, hfields⟩ := hrows r (List.mem_cons_self _ _)
      cases r with
      | nil => simp at hlen; omega
      | cons f fs =>
          obtain ⟨sp1, hline⟩ := scan_csv_line h doc fs f [] last sp hfields (by simpa using hne)
            (by rw [List.nil_append, hlen]; exact hdoc)
          rw [List.nil_append] at hline
          have hdoc2 : doc ++ [f :: fs] = [] ∨ ((doc ++ [f :: fs]).getD 0 []).length = n := by
            right
            rcases hdoc with hd | hd
            · rw [hd]; simpa using hlen
            · cases doc with
              | nil => simpa using hlen
              | cons d ds => simpa using hd
          obtain ⟨last1, sp2, hrest⟩ := ih (doc ++ [f :: fs]) 10 sp1
            (fun x hx => hrows x (List.mem_cons_of_mem _ hx)) hdoc2
          refine ⟨last1, sp2, ?_⟩
          rw [csv_text_cons, scan_loop_append_next _ _ _ _ _ _ _ hline, hrest]
          simp

theorem csv_line_ne_zero (fs : List u8string) : ∀ (f : u8string),
    (∀ g ∈ f :: fs, plain_field g) → ∀ b ∈ csv_line (f :: fs), b ≠ 0 := by
  induction fs with
  | nil =>
      intro f hp b hb
      rw [csv_line_single] at hb
      rcases List.mem_append.mp hb with hb | hb
      · exact ((hp f (List.mem_cons_self _ _)).1 b hb).2.2.2.2.2
      · rw [List.mem_singleton.mp hb]; decide
  | cons g gs ih =>
      intro f hp b hb
      rw [csv_line_cons] at hb
      rcases List.mem_append.mp hb with hb | hb
      · exact ((hp f (List.mem_cons_self _ _)).1 b hb).2.2.2.2.2
      · rcases List.mem_cons.mp hb with hb | hb
        · rw [hb]; decide
        · exact ih g (fun x hx => hp x (List.mem_cons_of_mem _ hx)) b hb

theorem csv_text_ne_zero (rows : table) (hrows : ∀ r ∈ rows, ∀ f ∈ r, plain_field f) :
    ∀ b ∈ csv_text rows, b ≠ 0 := by
  induction rows with
  | nil => intro b hb; simp [csv_text] at hb
  | cons r rs ih =>
      intro b hb
      rw [csv_text_cons] at hb
      rcases List.mem_append.mp hb with hb | hb
      · cases r with
        | nil =>
            simp [csv_line, List.intercalate] at hb
            rw [hb]; decide
        | cons f fs => exact csv_line_ne_zero fs f (hrows _ (List.mem_cons_self _ _)) b hb
      · exact ih (fun x hx => hrows x (List.mem_cons_of_mem _ hx)) b hb


/-! ## Quotes and escapes -/

theorem loop_body_open_quote (h : host) (o : parse_options) (enc : parse_encoding)
    (b : string_builder) (row : List u8string) (last : Nat) (doc : table)
    (hd : o.delimiter ≠ 34) :
    loop_body h o enc 34 ⟨b, row, false, false, last, doc⟩
      = .next ⟨b, row, true, false, 34, doc⟩ := by
  have c1 : ¬ ((34 : Nat) = o.delimiter) := fun hc => hd hc.symm
  simp only [loop_body, classify, Bool.false_eq_true, if_false, c1, false_and, and_self, if_true]

theorem loop_body_close_quote (h : host) (o : parse_options) (enc : parse_encoding)
    (b : string_builder) (row : List u8string) (last : Nat) (doc : table)
    (hl : last ≠ 34) :
    loop_body h o enc 34 ⟨b, row, true, false, last, doc⟩
      = .next ⟨b, row, false, false, 34, doc⟩ := by
  simp only [loop_body, classify, Bool.false_eq_true, if_false, Bool.true_eq_false, and_false,
    if_true, hl]

theorem loop_body_quote_after_quote (h : host) (o : parse_options) (enc : parse_encoding)
    (b : string_builder) (row : List u8string) (doc : table) :
    loop_body h o enc 34 ⟨b, row, true, false, 34, doc⟩
      = .next ⟨b.append h (double_quote_per_encoding enc), row, true, false, 34, doc⟩ := by
  simp only [loop_body, classify, Bool.false_eq_true, if_false, Bool.true_eq_false, and_false,
    if_true]

theorem loop_body_newline_in_quote (h : host) (o : parse_options) (enc : parse_encoding)
    (b : string_builder) (row : List u8string) (last : Nat) (doc : table) :
    loop_body h o enc 10 ⟨b, row, true, false, last, doc⟩
      = .ret .parse_error ⟨b, row, true, false, last, []⟩ := by
  have c34 : ¬ ((10 : Nat) = 34) := by decide
  have c92 : ¬ ((10 : Nat) = 92) := by decide
  simp only [loop_body, classify, Bool.false_eq_true, if_false, Bool.true_eq_false, and_false,
    c34, c92, false_and, if_true]

theorem loop_body_backslash (h : host) (o : parse_options) (enc : parse_encoding)
    (b : string_builder) (row : List u8string) (q : Bool) (last : Nat) (doc : table)
    (hbs : o.backslash_to_special = true) (hd : o.delimiter ≠ 92 ∨ q = true) :
    loop_body h o enc 92 ⟨b, row, q, false, last, doc⟩
      = .next ⟨b, row, q, true, 92, doc⟩ := by
  have c1 : ¬ ((92 : Nat) = o.delimiter ∧ q = false) := by
    rintro ⟨h1, h2⟩
    rcases hd with hd | hd
    · exact hd h1.symm
    · rw [hd] at h2; cases h2
  have c34 : ¬ ((92 : Nat) = 34) := by decide
  simp only [loop_body, classify, Bool.false_eq_true, if_false, c1, c34, false_and, hbs,
    and_self, if_true]

theorem loop_body_escaped_quote (h : host) (o : parse_options) (enc : parse_encoding)
    (b : string_builder) (row : List u8string) (q : Bool) (last : Nat) (doc : table) :
    loop_body h o enc 34 ⟨b, row, q, true, last, doc⟩
      = .next ⟨b.append h (double_quote_per_encoding enc), row, q, false, last, doc⟩ := by
  simp only [loop_body, if_true]

theorem loop_body_escaped_n (h : host) (o : parse_options) (enc : parse_encoding)
    (b : string_builder) (row : List u8string) (q : Bool) (last : Nat) (doc : table) :
    loop_body h o enc 110 ⟨b, row, q, true, last, doc⟩
      = .next ⟨b.append h (nextline_per_encoding enc), row, q, false, last, doc⟩ := by
  have c34 : ¬ ((110 : Nat) = 34) := by decide
  simp only [loop_body, if_true, c34, if_false]

theorem loop_body_escaped_backslash (h : host) (o : parse_options) (enc : parse_encoding)
    (b : string_builder) (row : List u8string) (q : Bool) (last : Nat) (doc : table) :
    loop_body h o enc 92 ⟨b, row, q, true, last, doc⟩
      = .next ⟨b.append h (backslash_per_encoding enc), row, q, false, last, doc⟩ := by
  have c34 : ¬ ((92 : Nat) = 34) := by decide
  have c110 : ¬ ((92 : Nat) = 110) := by decide
  simp only [loop_body, if_true, c34, c110, if_false]

/-- Units free of quote, backslash and newline never leave the loop and keep
the quote state: under UTF-8 each is appended or, as the delimiter outside
quotes, ends a field. -/
theorem scan_loop_no_exit (h : host) (o : parse_options) (q : Bool) (doc : table)
    (us : List Nat) (hus : ∀ u ∈ us, u ≠ 34 ∧ u ≠ 92 ∧ u ≠ 10) :
    ∀ (buf sp : List Nat) (row : List u8string) (last : Nat),
    ∃ (buf1 sp1 : List Nat) (row1 : List u8string),
      scan_loop h o .utf8 us ⟨⟨buf, .utf8, sp⟩, row, q, false, last, doc⟩
        = .next ⟨⟨buf1, .utf8, sp1⟩, row1, q, false, us.getLast?.getD last, doc⟩ := by
  induction us with
  | nil => intro buf sp row last; exact ⟨buf, sp, row, rfl⟩
  | cons u us ih =>
      intro buf sp row last
      obtain ⟨h34, h92, h10⟩ := hus u (List.mem_cons_self _ _)
      have hlast : (u :: us).getLast?.getD last = us.getLast?.getD u := by
        cases us with
        | nil => rfl
        | cons v vs =>
            rw [List.getLast?_cons_cons, List.getLast?_eq_getLast _ (List.cons_ne_nil v vs)]
            rfl
      rw [hlast]
      by_cases hd : u = o.delimiter ∧ q = false
      · obtain ⟨hd1, hd2⟩ := hd
        subst hd1 hd2
        obtain ⟨buf1, sp1, row1, hrest⟩ :=
          ih (fun v hv => hus v (List.mem_cons_of_mem _ hv)) [] (buf ++ sp)
            (row ++ [to_string_utf8 buf o.trim]) o.delimiter
        refine ⟨buf1, sp1, row1, ?_⟩
        simp only [scan_loop, loop_body_delimiter]
        exact hrest
      · have hd2 : u = o.delimiter → q = true := by
          intro hc
          cases q with
          | true => rfl
          | false => exact absurd ⟨hc, rfl⟩ hd
        obtain ⟨sp0, happ⟩ := append_utf8 h buf sp u
        obtain ⟨buf1, sp1, row1, hrest⟩ :=
          ih (fun v hv => hus v (List.mem_cons_of_mem _ hv)) (buf ++ [u % 256]) sp0 row u
        refine ⟨buf1, sp1, row1, ?_⟩
        simp only [scan_loop,
          loop_body_plain h o .utf8 u _ row q last doc h34 h10 (fun hc => absurd hc h92) hd2,
          happ]
        exact hrest

theorem takeWhile_ne_zero_append (a b : List Nat) (ha : ∀ x ∈ a, x ≠ 0) :
    (a ++ b).takeWhile (fun u => decide (u ≠ 0))
      = a ++ b.takeWhile (fun u => decide (u ≠ 0)) := by
  apply List.takeWhile_append_of_pos
  intro x hx
  simpa using ha x hx


/-- A line `u \ c v` followed by newline, where the escape `\ c` resolves to the
byte `r`, parses to the one field `u r v` when trimming is off. -/
theorem scan_escape_line (h : host) (strict : Bool) (u v : List Nat) (c r : Nat)
    (hu : ∀ b ∈ u, b < 256 ∧ b ≠ 44 ∧ b ≠ 34 ∧ b ≠ 92 ∧ b ≠ 10 ∧ b ≠ 0)
    (hv : ∀ b ∈ v, b < 256 ∧ b ≠ 44 ∧ b ≠ 34 ∧ b ≠ 92 ∧ b ≠ 10 ∧ b ≠ 0)
    (hc : c ≠ 0)
    (hesc : ∀ (buf sp : List Nat) (last : Nat),
      ∃ sp1, loop_body h ⟨44, false, .utf8, true, strict⟩ .utf8 c
          ⟨⟨buf, .utf8, sp⟩, [], false, true, last, []⟩
        = .next ⟨⟨buf ++ [r], .utf8, sp1⟩, [], false, false, last, []⟩) :
    parse_from_text h (u ++ [92, c] ++ v ++ [10]) ⟨44, false, .utf8, true, strict⟩ []
      = some (.success, [[u ++ [r] ++ v]]) := by
  rw [parse_from_text_utf8 h _ _ _ rfl]
  have hz : ∀ b ∈ u ++ [92, c] ++ v ++ [10], b ≠ 0 := by
    intro b hb
    simp only [List.mem_append, List.mem_cons, List.mem_singleton, List.not_mem_nil,
      or_false] at hb
    rcases hb with ((hb | hb | hb) | hb) | hb
    · exact (hu b hb).2.2.2.2.2
    · rw [hb]; decide
    · rw [hb]; exact hc
    · exact (hv b hb).2.2.2.2.2
    · rw [hb]; decide
  have e : u ++ [92, c] ++ v ++ [10] = u ++ (92 :: c :: (v ++ [10])) := by simp
  rw [takeWhile_ne_zero _ hz, e]
  have hplain : ∀ (w : List Nat),
      (∀ b ∈ w, b < 256 ∧ b ≠ 44 ∧ b ≠ 34 ∧ b ≠ 92 ∧ b ≠ 10 ∧ b ≠ 0) →
      ∀ (buf sp : List Nat) (last : Nat),
      ∃ sp1, scan_loop h ⟨44, false, .utf8, true, strict⟩ .utf8 w
          ⟨⟨buf, .utf8, sp⟩, [], false, false, last, []⟩
        = .next ⟨⟨buf ++ w, .utf8, sp1⟩, [], false, false, w.getLast?.getD last, []⟩ := by
    intro w hw buf sp last
    obtain ⟨sp1, h1⟩ := foldl_append_utf8 h w buf sp (fun b hb => (hw b hb).1)
    refine ⟨sp1, ?_⟩
    rw [scan_loop_plain, h1]
    intro b hb
    obtain ⟨_, h44, h34, h92, h10, _⟩ := hw b hb
    exact ⟨h34, h10, fun hc => absurd hc h92, fun hc => absurd hc h44⟩
  have hinit : scan_state.initial .utf8 []
      = ⟨⟨[], .utf8, List.replicate 4096 0⟩, [], false, false, 0, []⟩ := rfl
  obtain ⟨sp1, h1⟩ := hplain u hu [] (List.replicate 4096 0) 0
  rw [hinit, scan_loop_append_next _ _ _ _ _ _ _ h1]
  simp only [scan_loop]
  rw [loop_body_backslash h _ .utf8 _ _ _ _ _ rfl (Or.inl (show (44 : Nat) ≠ 92 by decide))]
  simp only []
  obtain ⟨sp2, h2⟩ := hesc ([] ++ u) sp1 92
  rw [h2]
  simp only []
  obtain ⟨sp3, h3⟩ := hplain v hv ([] ++ u ++ [r]) sp2 92
  rw [scan_loop_append_next _ _ _ _ _ _ _ h3]
  simp only [scan_loop]
  rw [loop_body_newline h _ _ _ _ _ _ (show (44 : Nat) ≠ 10 by decide) (Or.inr (by simp))
    (Or.inl rfl)]
  simp only [conclude, finish]
  rw [to_string_utf8_whole _ false (fun hf => absurd hf (by decide))]
  simp

/-! ## The rows kept on a column-count mismatch -/

theorem scan_loop_snoc_next (h : host) (o : parse_options) (enc : parse_encoding)
    (init : List Nat) (u : Nat) (s0 s2 : scan_state)
    (hs : scan_loop h o enc (init ++ [u]) s0 = .next s2) :
    ∃ s1, scan_loop h o enc init s0 = .next s1 ∧ loop_body h o enc u s1 = .next s2 := by
  rw [scan_loop_append] at hs
  cases hi : scan_loop h o enc init s0 with
  | next s1 =>
      rw [hi] at hs
      simp only [scan_loop] at hs
      refine ⟨s1, rfl, ?_⟩
      cases hb : loop_body h o enc u s1 with
      | next s3 => rw [hb] at hs; simp only [scan_loop] at hs; rw [hs]
      | ret r s3 => rw [hb] at hs; cases hs
      | thrown => rw [hb] at hs; cases hs
  | ret r s1 => rw [hi] at hs; cases hs
  | thrown => rw [hi] at hs; cases hs

/-- A step of the classification chain that goes on leaves the table as it
was, or has just added a row: the row buffer and the accumulator are then
empty. -/
theorem classify_next_pushed (h : host) (o : parse_options) (enc : parse_encoding)
    (read : Nat) (s s1 : scan_state) (hc : classify h o enc read s = .next s1) :
    s1._document = s._document ∨ (s1.row = [] ∧ s1.builder.empty = true) := by
  unfold classify at hc
  by_cases c1 : read = o.delimiter ∧ s.is_in_quote = false
  · rw [if_pos c1] at hc
    cases hp : push_field h o s with
    | none => rw [hp] at hc; cases hc
    | some s2 =>
      rw [hp] at hc
      cases hc
      exact Or.inl (push_field_frame h o s s2 hp).1
  · rw [if_neg c1] at hc
    by_cases c2 : read = 34 ∧ s.is_in_quote = false
    · rw [if_pos c2] at hc
      cases hc
      exact Or.inl rfl
    · rw [if_neg c2] at hc
      by_cases c3 : read = 34
      · rw [if_pos c3] at hc
        by_cases c4 : s.lastRead = 34
        · rw [if_pos c4] at hc
          cases hc
          exact Or.inl rfl
        · rw [if_neg c4] at hc
          cases hc
          exact Or.inl rfl
      · rw [if_neg c3] at hc
        by_cases c5 : read = 92 ∧ o.backslash_to_special = true
        · rw [if_pos c5] at hc
          cases hc
          exact Or.inl rfl
        · rw [if_neg c5] at hc
          by_cases c6 : read = 10
          · rw [if_pos c6] at hc
            by_cases c7 : s.is_in_quote = true
            · rw [if_pos c7] at hc
              cases hc
            · rw [if_neg c7] at hc
              by_cases c8 : s.row.isEmpty = true ∧ s.builder.empty = true
              · rw [if_pos c8] at hc
                cases hc
                exact Or.inl rfl
              · rw [if_neg c8] at hc
                cases hp : push_field h o s with
                | none => rw [hp] at hc; cases hc
                | some s2 =>
                  rw [hp] at hc
                  simp only [] at hc
                  split_ifs at hc
                  cases hc
                  right
                  refine ⟨rfl, ?_⟩
                  unfold push_field at hp
                  split at hp
                  · cases hp
                  · cases hp
                    rfl
          · rw [if_neg c6] at hc
            cases hc
            exact Or.inl rfl

theorem loop_body_next_pushed (h : host) (o : parse_options) (enc : parse_encoding)
    (read : Nat) (s s1 : scan_state) (hc : loop_body h o enc read s = .next s1) :
    s1._document = s._document ∨ (s1.row = [] ∧ s1.builder.empty = true) := by
  unfold loop_body at hc
  dsimp only at hc
  split_ifs at hc
  · cases hc; exact Or.inl rfl
  · cases hc; exact Or.inl rfl
  · cases hc; exact Or.inl rfl
  · have := classify_next_pushed _ _ _ _ _ _ hc
    exact this
  · exact classify_next_pushed _ _ _ _ _ _ hc

/-- The table of a state the loop reaches is the table of an earlier state of
the same scan at which the row buffer and the accumulator are empty (the state
after the last row was added, or the first state). -/
theorem scan_loop_last_push (h : host) (o : parse_options) (enc : parse_encoding)
    (s0 : scan_state) (hrow0 : s0.row = []) (hb0 : s0.builder.empty = true) (pre : List Nat) :
    ∀ s2, scan_loop h o enc pre s0 = .next s2 →
    ∃ j sj, j ≤ pre.length ∧ scan_loop h o enc (pre.take j) s0 = .next sj ∧ sj.row = [] ∧
      sj.builder.empty = true ∧ sj._document = s2._document := by
  induction pre using List.reverseRecOn with
  | nil =>
      intro s2 hs
      simp only [scan_loop] at hs
      cases hs
      exact ⟨0, s0, le_refl _, rfl, hrow0, hb0, rfl⟩
  | append_singleton init u ih =>
      intro s2 hs
      obtain ⟨s1, hi, hb⟩ := scan_loop_snoc_next h o enc init u s0 s2 hs
      obtain ⟨j, sj, hj, hsj, hrow, hbe, hdoc⟩ := ih s1 hi
      rcases loop_body_next_pushed h o enc u s1 s2 hb with hsame | ⟨hrow2, hbe2⟩
      · refine ⟨j, sj, ?_, ?_, hrow, hbe, by rw [hdoc, hsame]⟩
        · rw [List.length_append]; omega
        · rw [List.take_append_of_le_length hj]; exact hsj
      · refine ⟨(init ++ [u]).length, s2, le_refl _, ?_, hrow2, hbe2, rfl⟩
        rw [List.take_length]; exact hs

/-- Along the scan loop the table only grows at its end. -/
theorem scan_loop_next_prefix (h : host) (o : parse_options) (enc : parse_encoding)
    (units : List Nat) : ∀ (s s1 : scan_state), scan_loop h o enc units s = .next s1 →
    s._document <+: s1._document := by
  induction units with
  | nil =>
    intro s s1 hl
    simp only [scan_loop] at hl
    cases hl
    exact List.prefix_refl _
  | cons u rest ih =>
    intro s s1 hl
    simp only [scan_loop] at hl
    cases hb : loop_body h o enc u s with
    | next s2 =>
      rw [hb] at hl
      have h2 := ih s2 s1 hl
      rcases loop_body_next h o enc u s s2 hb with hd | ⟨_, row, hd, _⟩
      · rw [← hd]; exact h2
      · exact List.IsPrefix.trans (hd ▸ List.prefix_append _ _) h2
    | ret r s2 => rw [hb] at hl; cases hl
    | thrown => rw [hb] at hl; cases hl

/-- When the call returns `column_count_no_matched`, the table it leaves
extends the table the scan started from. -/
theorem conclude_mismatch_prefix (h : host) (o : parse_options) (enc : parse_encoding)
    (units : List Nat) (s s1 : scan_state)
    (hc : conclude h o (scan_loop h o enc units s) = some (.column_count_no_matched, s1)) :
    s._document <+: s1._document := by
  obtain ⟨pre, s2, _, hscan, hcase⟩ := conclude_cases h o enc units s s1 _ hc
  have hp := scan_loop_next_prefix h o enc pre s s2 hscan
  rcases hcase with (⟨hr, _⟩ | ⟨_, hd, _, _⟩) | ⟨hr, _⟩
  · cases hr
  · rw [hd]; exact hp
  · cases hr

/-- When the call returns `column_count_no_matched`, the table it leaves is
non-empty, the row under assembly has another length than row 0, and there is
a proper initial segment of the units after which the row buffer and the
accumulator are empty and the table is this very table; from there on no row
is added, and the rest of the units, scanned from that state, end in the same
return. -/
theorem conclude_mismatch (h : host) (o : parse_options) (enc : parse_encoding)
    (s0 : scan_state) (hrow0 : s0.row = []) (hb0 : s0.builder.empty = true)
    (units : List Nat) (s1 : scan_state)
    (hc : conclude h o (scan_loop h o enc units s0) = some (.column_count_no_matched, s1)) :
    s1._document ≠ [] ∧ s1.row.length ≠ (s1._document.getD 0 []).length ∧
    ∃ j sj, j < units.length ∧ scan_loop h o enc (units.take j) s0 = .next sj ∧
      sj.row = [] ∧ sj.builder.empty = true ∧ sj._document = s1._document ∧
      (∀ k sk, j ≤ k → scan_loop h o enc (units.take k) s0 = .next sk →
        sk._document = s1._document) ∧
      conclude h o (scan_loop h o enc (units.drop j) sj)
        = some (.column_count_no_matched, s1) := by
  obtain ⟨pre, s2, hpre, hscan, hcase⟩ := conclude_cases h o enc units s0 s1 _ hc
  rcases hcase with (⟨hr, _⟩ | ⟨_, hd, hne, hlen⟩) | ⟨hr, _⟩
  · cases hr
  · obtain ⟨j, sj, hj, hsj, hrow, hbe, hdoc⟩ :=
      scan_loop_last_push h o enc s0 hrow0 hb0 pre s2 hscan
    rw [← hd] at hne hlen
    have hsj2 : scan_loop h o enc (units.take j) s0 = .next sj := by
      obtain ⟨post, hpost⟩ := hpre
      rw [← hpost, List.take_append_of_le_length hj]
      exact hsj
    have hresume : ∀ k sk, scan_loop h o enc (units.take k) s0 = .next sk →
        conclude h o (scan_loop h o enc (units.drop k) sk)
          = some (.column_count_no_matched, s1) := by
      intro k sk hk
      rw [← scan_loop_append_next h o enc _ _ s0 sk hk, List.take_append_drop]
      exact hc
    refine ⟨hne, hlen, j, sj, ?_, hsj2, hrow, hbe, by rw [hdoc, hd], ?_, hresume j sj hsj2⟩
    · have hle : pre.length ≤ units.length := hpre.length_le
      rcases Nat.lt_or_ge j units.length with hlt | hge
      · exact hlt
      · exfalso
        have hpl : pre.length = units.length := by omega
        have hpu : pre = units := hpre.eq_of_length hpl
        subst hpu
        have hjl : j = pre.length := by omega
        rw [hjl, List.take_length] at hsj
        rw [hsj] at hc
        simp only [conclude, finish, hrow, List.isEmpty_nil, not_true_eq_false, if_false] at hc
        cases hc
    · intro k sk hjk hk
      have h1 : sk._document <+: s1._document :=
        conclude_mismatch_prefix h o enc _ sk s1 (hresume k sk hk)
      have h2 : sj._document <+: sk._document := by
        have hsplit : units.take k = units.take j ++ (units.take k).drop j := by
          have e := (List.take_append_drop j (units.take k)).symm
          rw [List.take_take, min_eq_left hjk] at e
          exact e
        rw [hsplit, scan_loop_append_next h o enc _ _ s0 sj hsj2] at hk
        exact scan_loop_next_prefix h o enc _ sj sk hk
      rw [hdoc, ← hd] at h2
      exact h1.eq_of_length (Nat.le_antisymm h1.length_le h2.length_le)
  · cases hr

/-! ## Reading an initial segment of a stream -/

theorem units16_take (j : Nat) : ∀ (l : List Nat),
    units16 (l.take (2 * j)) = (units16 l).take j := by
  induction j with
  | zero => intro l; simp [units16]
  | succ n ih =>
      intro l
      match l with
      | [] => simp [units16]
      | [a] => simp [units16]
      | a :: b :: t =>
          have e : 2 * (n + 1) = 2 * n + 1 + 1 := by ring
          rw [e]
          simp only [List.take_succ_cons, units16, ih t]

theorem units32_take (j : Nat) : ∀ (l : List Nat),
    units32 (l.take (4 * j)) = (units32 l).take j := by
  induction j with
  | zero => intro l; simp [units32]
  | succ n ih =>
      intro l
      match l with
      | [] => simp [units32]
      | [a] => simp [units32]
      | [a, b] => simp [units32]
      | [a, b, c] =>
          have e : 4 * (n + 1) = 4 * n + 1 + 1 + 1 + 1 := by ring
          rw [e]
          simp [units32]
      | a :: b :: c :: d :: t =>
          have e : 4 * (n + 1) = 4 * n + 1 + 1 + 1 + 1 := by ring
          rw [e]
          simp only [List.take_succ_cons, units32, ih t]

theorem decode_bytes_take (e : parse_encoding) (j : Nat) (l : List Nat) :
    decode_bytes e (l.take (unit_width e * j)) = (decode_bytes e l).take j := by
  cases e <;> simp only [decode_bytes, unit_width, one_mul, units16_take, units32_take,
    List.map_take, List.take_nil]

theorem units16_length (l : List Nat) : (units16 l).length * 2 ≤ l.length := by
  match l with
  | [] => simp [units16]
  | [a] => simp [units16]
  | a :: b :: t =>
      have := units16_length t
      simp only [units16, List.length_cons]
      omega

theorem units32_length (l : List Nat) : (units32 l).length * 4 ≤ l.length := by
  match l with
  | [] => simp [units32]
  | [a] => simp [units32]
  | [a, b] => simp [units32]
  | [a, b, c] => simp [units32]
  | a :: b :: c :: d :: t =>
      have := units32_length t
      simp only [units32, List.length_cons]
      omega

theorem decode_bytes_length (e : parse_encoding) (l : List Nat) :
    (decode_bytes e l).length * unit_width e ≤ l.length := by
  cases e <;> simp only [decode_bytes, unit_width, List.length_map, mul_one, List.length_nil,
    mul_zero, Nat.zero_le, le_refl]
  · exact units16_length l
  · exact units16_length l
  · exact units32_length l
  · exact units32_length l

/-- Cutting the stream after `j` complete code units leaves the reader the
first `j` of the units it would have yielded. -/
theorem units_of_take (h : host) (e : parse_encoding) (he : e ≠ .detect_from_bom)
    (input : List Nat) (m j : Nat)
    (hj : j < (units_of h ⟨input, m, false⟩ e).length) :
    units_of h ⟨input.take (m + unit_width e * j), m, false⟩ e
      = (units_of h ⟨input, m, false⟩ e).take j ∧
    m + unit_width e * j ≤ input.length := by
  obtain ⟨t, ht1, _, hU⟩ := units_of_spec h ⟨input, m, false⟩ e he
  have hrest : istream.rest ⟨input, m, false⟩ = input.drop m := rfl
  rw [hrest] at hU
  have hk := unit_width_pos e he
  have hlen := decode_bytes_length e (input.drop m)
  have hjD : j ≤ (decode_bytes e (input.drop m)).length := by
    rw [hU] at hj
    have := (List.takeWhile_prefix (fun u => decide (u ≠ 0))
      (l := decode_bytes e (input.drop m) ++ t)).length_le
    rw [List.length_append] at this
    omega
  have hkj : unit_width e * j ≤ (input.drop m).length := by
    calc unit_width e * j ≤ unit_width e * (decode_bytes e (input.drop m)).length :=
          Nat.mul_le_mul_left _ hjD
      _ = (decode_bytes e (input.drop m)).length * unit_width e := Nat.mul_comm _ _
      _ ≤ (input.drop m).length := hlen
  have hpos : 0 < (input.drop m).length := by
    rcases Nat.eq_zero_or_pos (input.drop m).length with h0 | h0
    · exfalso
      have hnil : input.drop m = [] := List.eq_nil_of_length_eq_zero h0
      obtain ⟨t3, _, ht3, hU3⟩ := units_of_spec h ⟨input, m, false⟩ e he
      rw [hrest, hnil] at ht3 hU3
      rw [ht3 (by simp), decode_bytes_nil] at hU3
      rw [hU3] at hj
      simp at hj
    · exact h0
  have hbound : m + unit_width e * j ≤ input.length := by
    rw [List.length_drop] at hkj hpos
    omega
  refine ⟨?_, hbound⟩
  obtain ⟨t2, _, ht2, hU2⟩ :=
    units_of_spec h ⟨input.take (m + unit_width e * j), m, false⟩ e he
  have hrest2 : istream.rest ⟨input.take (m + unit_width e * j), m, false⟩
      = (input.drop m).take (unit_width e * j) := by
    simp only [istream.rest, Bool.false_eq_true, if_false]
    rw [List.drop_take, Nat.add_sub_cancel_left]
  rw [hrest2] at hU2 ht2
  have hl2 : ((input.drop m).take (unit_width e * j)).length = unit_width e * j := by
    rw [List.length_take]; omega
  rw [ht2 (by rw [hl2]; exact Dvd.intro _ rfl), List.append_nil, decode_bytes_take] at hU2
  rw [hU2, hU, List.take_takeWhile, List.take_append_of_le_length hjD]


/-! ## Detection on an initial segment of a stream -/

theorem units_of_rest_nil (h : host) (s : istream) (e : parse_encoding) (hs : s.rest = []) :
    units_of h s e = [] := by
  by_cases he : e = .detect_from_bom
  · rw [he]; exact units_of_detect h s
  · obtain ⟨t, _, ht, hU⟩ := units_of_spec h s e he
    rw [hs] at ht hU
    rw [hU, ht (by simp), decode_bytes_nil]
    rfl

theorem read_four (data : List Nat) (hl : 4 ≤ data.length) :
    (istream.of_text data).read 4 = (data.take 4, ⟨data, 4, false⟩) := by
  have h4 : (data.take 4).length = 4 := by rw [List.length_take]; omega
  simp only [istream.read, istream.of_text, Bool.false_eq_true, if_false, List.drop_zero,
    h4, Nat.zero_add, lt_irrefl, decide_False]

theorem read_short (data : List Nat) (hl : data.length < 4) :
    ((istream.of_text data).read 4).2.failbit = true := by
  have h4 : (data.take 4).length < 4 := by rw [List.length_take]; omega
  simp only [istream.read, istream.of_text, Bool.false_eq_true, if_false, List.drop_zero,
    h4, decide_True]

theorem rest_of_failed (s : istream) (hf : s.failbit = true) : s.rest = [] := by
  simp [istream.rest, hf]

theorem seekg_failed (s : istream) (p : Nat) (hf : s.failbit = true) : s.seekg p = s := by
  simp [istream.seekg, hf]

/-- Detection on a stream of at least four bytes: the comparisons run on the
first four bytes, and the stream is left after the matched signature. -/
theorem detect_encoding_of_four (h : host) (data : List Nat) (hl : 4 ≤ data.length) :
    detect_encoding h (istream.of_text data) .detect_from_bom =
      if is_equal_array (data.take 4 ++ h.bom_scratch.drop 4) utf8_bom_bytes 3 then
        (.utf8, ⟨data, 3, false⟩)
      else if is_equal_array (data.take 4 ++ h.bom_scratch.drop 4) utf16be_bom_bytes 2 then
        (.utf16_big_endian, ⟨data, 2, false⟩)
      else if is_equal_array (data.take 4 ++ h.bom_scratch.drop 4) utf16le_bom_bytes 2 then
        (.utf16_little_endian, ⟨data, 2, false⟩)
      else if is_equal_array (data.take 4 ++ h.bom_scratch.drop 4) utf32be_bom_bytes 4 then
        (.utf32_big_endian, ⟨data, 4, false⟩)
      else if is_equal_array (data.take 4 ++ h.bom_scratch.drop 4) utf32le_bom_bytes 4 then
        (.utf32_little_endian, ⟨data, 4, false⟩)
      else (.detect_from_bom, ⟨data, 4, false⟩) := by
  have h4 : (data.take 4).length = 4 := by rw [List.length_take]; omega
  unfold detect_encoding
  simp only [if_true, read_four data hl, h4, istream.seekg, Bool.false_eq_true, if_false]
  rfl

/-- Detection on a short stream leaves nothing to read. -/
theorem detect_encoding_short (h : host) (data : List Nat) (hl : data.length < 4) :
    (detect_encoding h (istream.of_text data) .detect_from_bom).2.rest = [] := by
  have hf := read_short data hl
  have hr := rest_of_failed _ hf
  unfold detect_encoding
  simp only [if_true]
  split_ifs <;> simp only [seekg_failed _ _ hf, hr]

/-- Either the scan loop receives no unit at all, or the encoding is resolved
and detection gives the same answer, with the stream at the same position, on
every initial segment of the input that ends at least one code unit after the
position. -/
theorem detect_encoding_take (h : host) (input : List Nat) (e0 : parse_encoding) :
    units_of h (detect_encoding h (istream.of_text input) e0).2
        (detect_encoding h (istream.of_text input) e0).1 = [] ∨
      ((detect_encoding h (istream.of_text input) e0).1 ≠ .detect_from_bom ∧
        ∃ m, (detect_encoding h (istream.of_text input) e0).2 = ⟨input, m, false⟩ ∧
          ∀ n, 1 ≤ n →
            m + unit_width (detect_encoding h (istream.of_text input) e0).1 * n
              ≤ input.length →
            detect_encoding h (istream.of_text (input.take
                (m + unit_width (detect_encoding h (istream.of_text input) e0).1 * n))) e0
              = ((detect_encoding h (istream.of_text input) e0).1,
                  ⟨input.take
                    (m + unit_width (detect_encoding h (istream.of_text input) e0).1 * n),
                    m, false⟩)) := by
  by_cases he : e0 = .detect_from_bom
  · subst he
    by_cases hl : 4 ≤ input.length
    · have key : ∀ (m k n : Nat), 4 ≤ m + k * n → m + k * n ≤ input.length →
          detect_encoding h (istream.of_text (input.take (m + k * n))) .detect_from_bom =
            if is_equal_array (input.take 4 ++ h.bom_scratch.drop 4) utf8_bom_bytes 3 then
              (.utf8, ⟨input.take (m + k * n), 3, false⟩)
            else if is_equal_array (input.take 4 ++ h.bom_scratch.drop 4) utf16be_bom_bytes 2
              then (.utf16_big_endian, ⟨input.take (m + k * n), 2, false⟩)
            else if is_equal_array (input.take 4 ++ h.bom_scratch.drop 4) utf16le_bom_bytes 2
              then (.utf16_little_endian, ⟨input.take (m + k * n), 2, false⟩)
            else if is_equal_array (input.take 4 ++ h.bom_scratch.drop 4) utf32be_bom_bytes 4
              then (.utf32_big_endian, ⟨input.take (m + k * n), 4, false⟩)
            else if is_equal_array (input.take 4 ++ h.bom_scratch.drop 4) utf32le_bom_bytes 4
              then (.utf32_little_endian, ⟨input.take (m + k * n), 4, false⟩)
            else (.detect_from_bom, ⟨input.take (m + k * n), 4, false⟩) := by
        intro m k n h4 hb
        have hlen : (input.take (m + k * n)).length = m + k * n := by
          rw [List.length_take]; omega
        rw [detect_encoding_of_four h _ (by rw [hlen]; exact h4), List.take_take,
          Nat.min_eq_left h4]
      rw [detect_encoding_of_four h input hl]
      split_ifs with h1 h2 h3 h4 h5
      · right
        refine ⟨(fun hc => by cases hc), 3, rfl, fun n hn hb => ?_⟩
        simp only [unit_width] at hb ⊢
        rw [key 3 1 n (by omega) hb, if_pos h1]
      · right
        refine ⟨(fun hc => by cases hc), 2, rfl, fun n hn hb => ?_⟩
        simp only [unit_width] at hb ⊢
        rw [key 2 2 n (by omega) hb, if_neg h1, if_pos h2]
      · right
        refine ⟨(fun hc => by cases hc), 2, rfl, fun n hn hb => ?_⟩
        simp only [unit_width] at hb ⊢
        rw [key 2 2 n (by omega) hb, if_neg h1, if_neg h2, if_pos h3]
      · right
        refine ⟨(fun hc => by cases hc), 4, rfl, fun n hn hb => ?_⟩
        simp only [unit_width] at hb ⊢
        rw [key 4 4 n (by omega) hb, if_neg h1, if_neg h2, if_neg h3, if_pos h4]
      · right
        refine ⟨(fun hc => by cases hc), 4, rfl, fun n hn hb => ?_⟩
        simp only [unit_width] at hb ⊢
        rw [key 4 4 n (by omega) hb, if_neg h1, if_neg h2, if_neg h3, if_neg h4, if_pos h5]
      · left
        exact units_of_detect h _
    · left
      exact units_of_rest_nil h _ _ (detect_encoding_short h input (by omega))
  · right
    rw [detect_encoding_concrete h _ _ he]
    refine ⟨he, 0, rfl, fun n _ _ => ?_⟩
    rw [detect_encoding_concrete h _ _ he]
    rfl


theorem finish_pending_row (h : host) (o : parse_options) (s s1 : scan_state)
    (hrow : s.row ≠ []) (hq : s.is_in_quote = false) (hp : push_field h o s = some s1) :
    finish h o s =
      if ¬ s1._document.isEmpty ∧ (s1._document.getD 0 []).length ≠ s1.row.length then
        some (.column_count_no_matched, s1)
      else some (.success, { s1 with _document := s1._document ++ [s1.row] }) := by
  have hre : ¬ s.row.isEmpty = true := by
    rw [List.isEmpty_iff]; exact hrow
  unfold finish
  rw [if_pos hre, if_neg (by rw [hq]; decide)]
  simp only [hp]

theorem loop_body_newline_pending_row (h : host) (o : parse_options) (enc : parse_encoding)
    (s s1 : scan_state) (hd : o.delimiter ≠ 10) (hrow : s.row ≠ [])
    (hq : s.is_in_quote = false) (hb : s.last_is_backslash = false)
    (hp : push_field h o s = some s1) :
    loop_body h o enc 10 s =
      if ¬ s1._document.isEmpty ∧ (s1._document.getD 0 []).length ≠ s1.row.length then
        .ret .column_count_no_matched s1
      else .next { s1 with _document := s1._document ++ [s1.row], row := [], lastRead := 10 } := by
  have hre : ¬ (s.row.isEmpty = true ∧ s.builder.empty = true) := by
    rw [List.isEmpty_iff]; exact fun hc => hrow hc.1
  unfold loop_body
  rw [if_neg (by rw [hb]; decide)]
  unfold classify
  rw [if_neg (fun hc => hd hc.1.symm), if_neg (fun hc => absurd hc.1 (by decide)),
    if_neg (by decide), if_neg (fun hc => absurd hc.1 (by decide)), if_pos rfl,
    if_neg (by rw [hq]; decide), if_neg hre]
  simp only [hp]


/-! ## The trimming loops -/

theorem drop_eq_getD_cons (buf : List Nat) (i : Nat) (hi : i < buf.length) :
    buf.drop i = buf.getD i 0 :: buf.drop (i + 1) := by
  rw [List.drop_eq_getElem_cons hi, List.getD_eq_getElem?_getD, List.getElem?_eq_getElem hi]
  rfl

/-- The first trimming loop stops at the first index of `[start, end)` that
holds no trimmed unit, or at `end`. -/
theorem advance_start_eq (buf : List Nat) (e : Nat) (he : e < buf.length) (fuel : Nat) :
    ∀ start, start ≤ e → e - start ≤ fuel →
    advance_start buf true e fuel start
      = start + (((buf.drop start).take (e - start)).takeWhile is_trimmed_unit).length := by
  induction fuel with
  | zero =>
      intro start h1 h2
      have : e - start = 0 := by omega
      simp [advance_start, this]
  | succ n ih =>
      intro start h1 h2
      rcases Nat.eq_or_lt_of_le h1 with heq | hlt
      · subst heq
        rw [advance_start_stop _ _ _ _ _ (by simp)]
        simp
      · have hs : start < buf.length := by omega
        obtain ⟨d, hd⟩ : ∃ d, e - start = d + 1 := ⟨e - start - 1, by omega⟩
        rw [drop_eq_getD_cons buf start hs, hd, List.take_succ_cons, List.takeWhile_cons]
        by_cases hp : is_trimmed_unit (buf.getD start 0) = true
        · have hc : (true && decide (start < e) && is_trimmed_unit (buf.getD start 0)) = true := by
            rw [hp, decide_eq_true hlt]; rfl
          simp only [advance_start]
          rw [if_pos hc, if_pos hp]
          rw [ih (start + 1) (by omega) (by omega)]
          have : e - (start + 1) = d := by omega
          rw [this, List.length_cons]
          omega
        · have hc :
              (true && decide (start < e) && is_trimmed_unit (buf.getD start 0)) = false := by
            rw [Bool.not_eq_true] at hp
            rw [hp, Bool.and_false]
          rw [advance_start_stop _ _ _ _ _ hc, if_neg hp]
          rfl

/-- The second trimming loop stops at the last index of `(start, end]` that
holds no trimmed unit, or at `start`. -/
theorem retreat_end_eq (buf : List Nat) (start : Nat) (fuel : Nat) :
    ∀ e, start ≤ e → e < buf.length → e - start ≤ fuel →
    retreat_end buf true start fuel e
      = e - ((((buf.drop (start + 1)).take (e - start)).reverse).takeWhile
          is_trimmed_unit).length := by
  induction fuel with
  | zero =>
      intro e h1 _ h2
      have : e - start = 0 := by omega
      simp [retreat_end, this]
  | succ n ih =>
      intro e h1 he h2
      rcases Nat.eq_or_lt_of_le h1 with heq | hlt
      · subst heq
        rw [retreat_end_stop _ _ _ _ _ (by simp)]
        simp
      · obtain ⟨d, hd⟩ : ∃ d, e - start = d + 1 := ⟨e - start - 1, by omega⟩
        have hsplit : (buf.drop (start + 1)).take (d + 1)
            = (buf.drop (start + 1)).take d ++ [buf.getD e 0] := by
          rw [List.take_succ, List.getElem?_drop]
          have : start + 1 + d = e := by omega
          rw [this, List.getElem?_eq_getElem he, List.getD_eq_getElem?_getD,
            List.getElem?_eq_getElem he]
          rfl
        rw [hd, hsplit, List.reverse_append, List.reverse_singleton, List.singleton_append,
          List.takeWhile_cons]
        by_cases hp : is_trimmed_unit (buf.getD e 0) = true
        · have hc : (true && decide (start < e) && is_trimmed_unit (buf.getD e 0)) = true := by
            rw [hp, decide_eq_true hlt]; rfl
          simp only [retreat_end]
          rw [if_pos hc, if_pos hp]
          rw [ih (e - 1) (by omega) (by omega) (by omega)]
          have : e - 1 - start = d := by omega
          rw [this, List.length_cons]
          omega
        · have hc : (true && decide (start < e) && is_trimmed_unit (buf.getD e 0)) = false := by
            rw [Bool.not_eq_true] at hp
            rw [hp, Bool.and_false]
          rw [retreat_end_stop _ _ _ _ _ hc, if_neg hp]
          rfl


theorem dropWhile_eq_drop_length (p : Nat → Bool) (l : List Nat) :
    l.dropWhile p = l.drop (l.takeWhile p).length := by
  have h := List.takeWhile_append_dropWhile p l
  have h2 : (l.takeWhile p ++ l.dropWhile p).drop (l.takeWhile p).length = l.dropWhile p :=
    List.drop_left _ _
  rw [h] at h2
  exact h2.symm

theorem takeWhile_snoc_of_neg (p : Nat → Bool) (x : Nat) (hx : p x = false) (xs : List Nat) :
    (xs ++ [x]).takeWhile p = xs.takeWhile p := by
  induction xs with
  | nil => simp [List.takeWhile, hx]
  | cons a t ih =>
      simp only [List.cons_append, List.takeWhile_cons, ih]

theorem advance_start_whole (b : List Nat) (hne : b ≠ []) :
    advance_start b true (b.length - 1) b.length 0
      = min (b.length - 1) (b.takeWhile is_trimmed_unit).length := by
  have hlen : 1 ≤ b.length := List.length_pos.mpr hne
  rw [advance_start_eq b (b.length - 1) (by omega) b.length 0 (Nat.zero_le _) (by omega),
    Nat.zero_add, Nat.sub_zero, List.drop_zero, ← List.take_takeWhile, List.length_take]

/-- A content that holds a byte other than space, tab and NUL is returned by
`to_string(true)` without its leading and without its trailing run of such
bytes. -/
theorem to_string_utf8_trimmed (b : List Nat) (hb : ∃ x ∈ b, is_trimmed_unit x = false) :
    to_string_utf8 b true
      = ((b.dropWhile is_trimmed_unit).reverse.dropWhile is_trimmed_unit).reverse := by
  obtain ⟨y, hy, hpy⟩ := hb
  have hne : b ≠ [] := List.ne_nil_of_mem hy
  have hlen : 1 ≤ b.length := List.length_pos.mpr hne
  have hdne : b.dropWhile is_trimmed_unit ≠ [] := by
    intro hc
    have := List.dropWhile_eq_nil_iff.mp hc y hy
    rw [hpy] at this
    cases this
  have hdrop := dropWhile_eq_drop_length is_trimmed_unit b
  have hk : (b.takeWhile is_trimmed_unit).length < b.length := by
    by_contra hc
    apply hdne
    rw [hdrop]
    exact List.drop_eq_nil_of_le (by omega)
  obtain ⟨x, rest, hd⟩ : ∃ x rest, b.dropWhile is_trimmed_unit = x :: rest := by
    cases hq : b.dropWhile is_trimmed_unit with
    | nil => exact absurd hq hdne
    | cons x rest => exact ⟨x, rest, rfl⟩
  have hpx : is_trimmed_unit x = false := by
    have := List.head_dropWhile_not is_trimmed_unit b hdne
    simp only [hd, List.head_cons] at this
    exact this
  have hrest : b.drop ((b.takeWhile is_trimmed_unit).length + 1) = rest := by
    rw [← List.drop_drop, ← hdrop, hd]
    rfl
  have hrl : rest.length = b.length - 1 - (b.takeWhile is_trimmed_unit).length := by
    rw [← hrest, List.length_drop]
    omega
  unfold to_string_utf8
  simp only []
  rw [advance_start_whole b hne, Nat.min_eq_right (by omega),
    retreat_end_eq b _ b.length (b.length - 1) (by omega) (by omega) (by omega), hrest,
    ← hrl, List.take_length, ← hdrop, hd]
  have hr : (rest.reverse.takeWhile is_trimmed_unit).length ≤ rest.length := by
    have := (List.takeWhile_prefix is_trimmed_unit (l := rest.reverse)).length_le
    rwa [List.length_reverse] at this
  rw [dropWhile_eq_drop_length is_trimmed_unit (x :: rest).reverse, List.reverse_drop,
    List.reverse_reverse, List.length_reverse, List.reverse_cons,
    takeWhile_snoc_of_neg _ x hpx]
  congr 1
  rw [List.length_cons]
  omega

/-- A non-empty content made only of spaces, tabs and NULs is returned by
`to_string(true)` as its last byte. -/
theorem to_string_utf8_blank (b : List Nat) (hne : b ≠ [])
    (hall : ∀ x ∈ b, is_trimmed_unit x = true) :
    to_string_utf8 b true = [b.getLast hne] := by
  have hlen : 1 ≤ b.length := List.length_pos.mpr hne
  have htw : b.takeWhile is_trimmed_unit = b := List.takeWhile_eq_self_iff.mpr hall
  unfold to_string_utf8
  simp only []
  rw [advance_start_whole b hne, htw, Nat.min_eq_left (by omega),
    retreat_end_eq b _ b.length (b.length - 1) (le_refl _) (by omega) (by omega),
    Nat.sub_self, List.take_zero, List.reverse_nil, List.takeWhile_nil, List.length_nil,
    Nat.sub_zero, Nat.sub_add_cancel hlen,
    List.drop_eq_getElem_cons (show b.length - 1 < b.length by omega),
    List.getLast_eq_getElem]
  have : b.length - (b.length - 1) = 1 := by omega
  rw [this]
  rfl


/-! ## A NUL byte in the text -/

theorem takeWhile_ne_zero_nul (x y : List Nat) :
    (x ++ [0] ++ y).takeWhile (fun u => decide (u ≠ 0))
      = x.takeWhile (fun u => decide (u ≠ 0)) := by
  induction x with
  | nil => simp
  | cons a t ih =>
      simp only [List.cons_append, List.takeWhile_cons]
      split
      · rw [ih]
      · rfl


/-! ## The signature comparisons on bytes -/

theorem is_equal_array_utf8 (a b c d : Nat) (t : List Nat) (ha : a < 256) :
    is_equal_array ([a, b, c, d] ++ t) utf8_bom_bytes 3 = true
      ↔ (a = 0xEF ∧ b = 0xBB ∧ c = 0xBF) := by
  simp [is_equal_array, load16, utf8_bom_bytes]
  omega

theorem is_equal_array_utf16be (a b c d : Nat) (t : List Nat) (ha : a < 256) :
    is_equal_array ([a, b, c, d] ++ t) utf16be_bom_bytes 2 = true ↔ (a = 0xFE ∧ b = 0xFF) := by
  simp [is_equal_array, load16, utf16be_bom_bytes]
  omega

theorem is_equal_array_utf16le (a b c d : Nat) (t : List Nat) (ha : a < 256) :
    is_equal_array ([a, b, c, d] ++ t) utf16le_bom_bytes 2 = true ↔ (a = 0xFF ∧ b = 0xFE) := by
  simp [is_equal_array, load16, utf16le_bom_bytes]
  omega

theorem is_equal_array_utf32be (a b c d : Nat) (t : List Nat) (ha : a < 256) (hb : b < 256)
    (hc : c < 256) :
    is_equal_array ([a, b, c, d] ++ t) utf32be_bom_bytes 4 = true
      ↔ (a = 0 ∧ b = 0 ∧ c = 0xFE ∧ d = 0xFF) := by
  simp [is_equal_array, load32, utf32be_bom_bytes]
  omega

theorem is_equal_array_utf32le (a b c d : Nat) (t : List Nat) (ha : a < 256) (hb : b < 256)
    (hc : c < 256) :
    is_equal_array ([a, b, c, d] ++ t) utf32le_bom_bytes 4 = true
      ↔ (a = 0xFF ∧ b = 0xFE ∧ c = 0 ∧ d = 0) := by
  simp [is_equal_array, load32, utf32le_bom_bytes]
  omega


theorem first_signature_cases (a b c d : Nat) (rest : List Nat) :
    first_signature (a :: b :: c :: d :: rest) =
      if a = 0xEF ∧ b = 0xBB ∧ c = 0xBF then some (utf8_bom_bytes, .utf8)
      else if a = 0xFE ∧ b = 0xFF then some (utf16be_bom_bytes, .utf16_big_endian)
      else if a = 0xFF ∧ b = 0xFE then some (utf16le_bom_bytes, .utf16_little_endian)
      else if a = 0 ∧ b = 0 ∧ c = 0xFE ∧ d = 0xFF then
        some (utf32be_bom_bytes, .utf32_big_endian)
      else if a = 0xFF ∧ b = 0xFE ∧ c = 0 ∧ d = 0 then
        some (utf32le_bom_bytes, .utf32_little_endian)
      else none := by
  simp only [first_signature, bom_signatures, List.find?, utf8_bom_bytes, utf16be_bom_bytes,
    utf16le_bom_bytes, utf32be_bom_bytes, utf32le_bom_bytes, List.isPrefixOf]
  split_ifs with h1 h2 h3 h4 h5
  · obtain ⟨rfl, rfl, rfl⟩ := h1
    rfl
  · obtain ⟨rfl, rfl⟩ := h2
    rfl
  · obtain ⟨rfl, rfl⟩ := h3
    rfl
  · obtain ⟨rfl, rfl, rfl, rfl⟩ := h4
    rfl
  · exact absurd ⟨h5.1, h5.2.1⟩ h3
  · have e1 : (239 == a && (187 == b && 191 == c)) = false := by
      rw [Bool.eq_false_iff]
      simp only [ne_eq, Bool.and_eq_true, beq_iff_eq, not_and]
      omega
    have e2 : (254 == a && 255 == b) = false := by
      rw [Bool.eq_false_iff]
      simp only [ne_eq, Bool.and_eq_true, beq_iff_eq, not_and]
      omega
    have e3 : (255 == a && 254 == b) = false := by
      rw [Bool.eq_false_iff]
      simp only [ne_eq, Bool.and_eq_true, beq_iff_eq, not_and]
      omega
    have e4 : (0 == a && (0 == b && (254 == c && 255 == d))) = false := by
      rw [Bool.eq_false_iff]
      simp only [ne_eq, Bool.and_eq_true, beq_iff_eq, not_and]
      omega
    have e5 : (255 == a && (254 == b && (0 == c && 0 == d))) = false := by
      rw [Bool.eq_false_iff]
      simp only [ne_eq, Bool.and_eq_true, beq_iff_eq, not_and]
      omega
    simp only [Bool.and_true, e1, e2, e3, e4, e5]

/-- Detection on a stream of at least four bytes, by the bytes the stream
begins with. -/
theorem detect_encoding_cases (h : host) (a b c d : Nat) (rest : List Nat)
    (ha : a < 256) (hb : b < 256) (hc : c < 256) :
    detect_encoding h (istream.of_text (a :: b :: c :: d :: rest)) .detect_from_bom =
      if a = 0xEF ∧ b = 0xBB ∧ c = 0xBF then (.utf8, ⟨a :: b :: c :: d :: rest, 3, false⟩)
      else if a = 0xFE ∧ b = 0xFF then
        (.utf16_big_endian, ⟨a :: b :: c :: d :: rest, 2, false⟩)
      else if a = 0xFF ∧ b = 0xFE then
        (.utf16_little_endian, ⟨a :: b :: c :: d :: rest, 2, false⟩)
      else if a = 0 ∧ b = 0 ∧ c = 0xFE ∧ d = 0xFF then
        (.utf32_big_endian, ⟨a :: b :: c :: d :: rest, 4, false⟩)
      else if a = 0xFF ∧ b = 0xFE ∧ c = 0 ∧ d = 0 then
        (.utf32_little_endian, ⟨a :: b :: c :: d :: rest, 4, false⟩)
      else (.detect_from_bom, ⟨a :: b :: c :: d :: rest, 4, false⟩) := by
  rw [detect_encoding_of_four h _ (by simp)]
  have e : (a :: b :: c :: d :: rest).take 4 = [a, b, c, d] := rfl
  rw [e]
  simp only [is_equal_array_utf8 a b c d _ ha, is_equal_array_utf16be a b c d _ ha,
    is_equal_array_utf16le a b c d _ ha, is_equal_array_utf32be a b c d _ ha hb hc,
    is_equal_array_utf32le a b c d _ ha hb hc]

/-! ## The UTF-8 signature -/

/-- The loop body does not read the option `determine_bom`. -/
theorem loop_body_determine_bom (h : host) (d : Nat) (t b e : Bool) (e1 e2 : parse_encoding)
    (enc : parse_encoding) (read : Nat) (s : scan_state) :
    loop_body h ⟨d, t, e1, b, e⟩ enc read s = loop_body h ⟨d, t, e2, b, e⟩ enc read s := rfl

theorem scan_loop_determine_bom (h : host) (d : Nat) (t b e : Bool) (e1 e2 : parse_encoding)
    (enc : parse_encoding) (units : List Nat) (s : scan_state) :
    scan_loop h ⟨d, t, e1, b, e⟩ enc units s
      = scan_loop h ⟨d, t, e2, b, e⟩ enc units s := by
  induction units generalizing s with
  | nil => rfl
  | cons u rest ih =>
    simp only [scan_loop]
    rw [loop_body_determine_bom h d t b e e1 e2]
    cases loop_body h ⟨d, t, e2, b, e⟩ enc u s with
    | next s1 => exact ih s1
    | ret r s1 => rfl
    | thrown => rfl

theorem conclude_determine_bom (h : host) (d : Nat) (t b e : Bool) (e1 e2 : parse_encoding)
    (f : flow) : conclude h ⟨d, t, e1, b, e⟩ f = conclude h ⟨d, t, e2, b, e⟩ f := by
  cases f <;> rfl

/-- Detection skips a UTF-8 signature: the parse of `EF BB BF` followed by `c`
with `detect_from_bom` is the parse of `c` with `utf8`. -/
theorem parse_from_stream_utf8_bom (h : host) (c : List Nat) (d : Nat) (t b e : Bool)
    (doc : table) :
    parse_from_stream h (istream.of_text ([0xEF, 0xBB, 0xBF] ++ c))
        ⟨d, t, .detect_from_bom, b, e⟩ doc
      = parse_from_stream h (istream.of_text c) ⟨d, t, .utf8, b, e⟩ doc := by
  unfold parse_from_stream parse_from_stream_exit
  simp only []
  rw [detect_encoding_concrete h (istream.of_text c) .utf8 (by decide)]
  cases c with
  | nil =>
    have hr := detect_encoding_short h [0xEF, 0xBB, 0xBF] (by decide)
    rw [List.append_nil, units_of_rest_nil h _ _ hr,
      units_of_rest_nil h (istream.of_text []) .utf8 rfl]
    simp [scan_loop, conclude, finish, scan_state.initial]
  | cons x rest =>
    have hd := detect_encoding_cases h 0xEF 0xBB 0xBF x rest (by decide) (by decide)
      (by decide)
    rw [if_pos (by decide)] at hd
    rw [show ([0xEF, 0xBB, 0xBF] ++ x :: rest : List Nat) = 0xEF :: 0xBB :: 0xBF :: x :: rest
      from rfl, hd]
    simp only []
    rw [units_of_utf8, units_of_utf8, scan_loop_determine_bom h d t b e .detect_from_bom .utf8,
      conclude_determine_bom h d t b e .detect_from_bom .utf8]
    rfl

/-! ## Units up to a backslash -/

/-- A unit other than the backslash and the newline, read under UTF-8 with no
escape pending, does not leave the loop and leaves no escape pending. -/
theorem loop_body_no_backslash (h : host) (o : parse_options) (u : Nat) (buf sp : List Nat)
    (row : List u8string) (q : Bool) (last : Nat) (doc : table) (h92 : u ≠ 92) (h10 : u ≠ 10) :
    ∃ (buf1 sp1 : List Nat) (row1 : List u8string) (q1 : Bool),
      loop_body h o .utf8 u ⟨⟨buf, .utf8, sp⟩, row, q, false, last, doc⟩
        = .next ⟨⟨buf1, .utf8, sp1⟩, row1, q1, false, u, doc⟩ := by
  by_cases hd : u = o.delimiter ∧ q = false
  · obtain ⟨hd1, hd2⟩ := hd
    subst hd1 hd2
    exact ⟨_, _, _, _, loop_body_delimiter h o buf sp row last doc⟩
  · by_cases h34 : u = 34
    · subst h34
      cases q with
      | false =>
        have hdel : o.delimiter ≠ 34 := fun hc => hd ⟨hc.symm, rfl⟩
        exact ⟨_, _, _, _, loop_body_open_quote h o .utf8 _ row last doc hdel⟩
      | true =>
        by_cases hl : last = 34
        · subst hl
          exact ⟨_, _, _, _, loop_body_quote_after_quote h o .utf8 ⟨buf, .utf8, sp⟩ row doc⟩
        · exact ⟨_, _, _, _, loop_body_close_quote h o .utf8 _ row last doc hl⟩
    · refine ⟨_, _, _, _, loop_body_plain h o .utf8 u ⟨buf, .utf8, sp⟩ row q last doc h34 h10
        (fun hc => absurd hc h92) (fun hc => ?_)⟩
      cases q with
      | false => exact absurd ⟨hc, rfl⟩ hd
      | true => rfl

/-- Units free of backslash and newline, read under UTF-8 with no escape
pending, are used up with no escape pending and the table as it was. -/
theorem scan_loop_no_backslash (h : host) (o : parse_options) (doc : table) (us : List Nat)
    (hus : ∀ u ∈ us, u ≠ 92 ∧ u ≠ 10) :
    ∀ (buf sp : List Nat) (row : List u8string) (q : Bool) (last : Nat),
    ∃ (buf1 sp1 : List Nat) (row1 : List u8string) (q1 : Bool) (last1 : Nat),
      scan_loop h o .utf8 us ⟨⟨buf, .utf8, sp⟩, row, q, false, last, doc⟩
        = .next ⟨⟨buf1, .utf8, sp1⟩, row1, q1, false, last1, doc⟩ := by
  induction us with
  | nil => intro buf sp row q last; exact ⟨buf, sp, row, q, last, rfl⟩
  | cons u us ih =>
    intro buf sp row q last
    obtain ⟨h92, h10⟩ := hus u (List.mem_cons_self _ _)
    obtain ⟨buf1, sp1, row1, q1, hstep⟩ :=
      loop_body_no_backslash h o u buf sp row q last doc h92 h10
    obtain ⟨buf2, sp2, row2, q2, last2, hrest⟩ :=
      ih (fun v hv => hus v (List.mem_cons_of_mem _ hv)) buf1 sp1 row1 q1 u
    refine ⟨buf2, sp2, row2, q2, last2, ?_⟩
    simp only [scan_loop, hstep]
    exact hrest

/-- With strict escapes, a unit other than quote, `n` and backslash read while
an escape is pending ends the call in `parse_error` with the table emptied. -/
theorem loop_body_bad_escape (h : host) (o : parse_options) (enc : parse_encoding) (c : Nat)
    (b : string_builder) (row : List u8string) (q : Bool) (last : Nat) (doc : table)
    (hstrict : o.backslash_to_special_detect_error = true)
    (h34 : c ≠ 34) (h110 : c ≠ 110) (h92 : c ≠ 92) :
    loop_body h o enc c ⟨b, row, q, true, last, doc⟩
      = .ret .parse_error ⟨b, row, q, false, last, []⟩ := by
  simp only [loop_body, if_true, h34, h110, h92, if_false, hstrict]

/-! ## Blank lines -/

/-- After a newline that goes on, outside an escape, nothing is pending: the
state is outside quotes with the row buffer and the accumulator empty. -/
theorem classify_newline_next (h : host) (o : parse_options) (enc : parse_encoding)
    (s s1 : scan_state) (hd : o.delimiter ≠ 10) (hb : s.last_is_backslash = false)
    (hs : classify h o enc 10 s = .next s1) :
    s1.last_is_backslash = false ∧ s1.is_in_quote = false ∧ s1.row = [] ∧
      s1.builder.empty = true := by
  have c1 : ¬ ((10 : Nat) = o.delimiter ∧ s.is_in_quote = false) := fun hc => hd hc.1.symm
  have c34 : ¬ ((10 : Nat) = 34) := by decide
  have c92 : ¬ ((10 : Nat) = 92) := by decide
  simp only [classify, c1, c34, c92, false_and, if_false, if_true] at hs
  by_cases hq : s.is_in_quote = true
  · rw [if_pos hq] at hs
    cases hs
  · rw [if_neg hq] at hs
    by_cases he : s.row.isEmpty = true ∧ s.builder.empty = true
    · rw [if_pos he] at hs
      cases hs
      exact ⟨hb, by simpa using hq, List.isEmpty_iff.mp he.1, he.2⟩
    · rw [if_neg he] at hs
      cases hp : push_field h o s with
      | none => rw [hp] at hs; cases hs
      | some s2 =>
        rw [hp] at hs
        obtain ⟨_, hq2, hb2, _, _⟩ := push_field_frame h o s s2 hp
        have hbuilder : s2.builder.empty = true := by
          unfold push_field at hp
          split at hp
          · cases hp
          · cases hp
            rfl
        simp only [] at hs
        split_ifs at hs
        cases hs
        exact ⟨by rw [hb2, hb], by rw [hq2]; simpa using hq, rfl, hbuilder⟩

/-- A newline read with nothing pending is skipped. -/
theorem loop_body_blank_line (h : host) (o : parse_options) (enc : parse_encoding)
    (s : scan_state) (hd : o.delimiter ≠ 10) (hb : s.last_is_backslash = false)
    (hq : s.is_in_quote = false) (hrow : s.row = []) (hbuf : s.builder.empty = true) :
    loop_body h o enc 10 s = .next s := by
  have c1 : ¬ ((10 : Nat) = o.delimiter) := fun hc => hd hc.symm
  have c34 : ¬ ((10 : Nat) = 34) := by decide
  have c92 : ¬ ((10 : Nat) = 92) := by decide
  simp only [loop_body, classify, hb, hq, hrow, hbuf, c1, c34, c92, false_and, if_false,
    if_true, Bool.false_eq_true, List.isEmpty_nil, and_self]

/-- A second newline right after a newline changes nothing. -/
theorem loop_body_newline_twice (h : host) (o : parse_options) (enc : parse_encoding)
    (s s1 : scan_state) (hd : o.delimiter ≠ 10) (hs : loop_body h o enc 10 s = .next s1) :
    loop_body h o enc 10 s1 = .next s1 := by
  have c34 : ¬ ((10 : Nat) = 34) := by decide
  have c110 : ¬ ((10 : Nat) = 110) := by decide
  have c92 : ¬ ((10 : Nat) = 92) := by decide
  have key : s1.last_is_backslash = false ∧ s1.is_in_quote = false ∧ s1.row = [] ∧
      s1.builder.empty = true := by
    unfold loop_body at hs
    by_cases hb : s.last_is_backslash = true
    · simp only [hb, if_true, c34, c110, c92, if_false] at hs
      split_ifs at hs
      exact classify_newline_next h o enc _ s1 hd rfl hs
    · rw [if_neg hb] at hs
      exact classify_newline_next h o enc s s1 hd (by simpa using hb) hs
  exact loop_body_blank_line h o enc s1 hd key.1 key.2.1 key.2.2.1 key.2.2.2

/-- The scan loop does the same on `x ++ [10] ++ y` and on `x ++ [10, 10] ++ y`. -/
theorem scan_loop_blank_line (h : host) (o : parse_options) (enc : parse_encoding)
    (x y : List Nat) (s : scan_state) (hd : o.delimiter ≠ 10) :
    scan_loop h o enc (x ++ [10] ++ y) s = scan_loop h o enc (x ++ [10, 10] ++ y) s := by
  rw [List.append_assoc, List.append_assoc, scan_loop_append, scan_loop_append]
  cases hx : scan_loop h o enc x s with
  | next s1 =>
    simp only [List.cons_append, List.nil_append, scan_loop]
    cases hn : loop_body h o enc 10 s1 with
    | next s2 =>
      simp only [loop_body_newline_twice h o enc s1 s2 hd hn]
    | ret r s2 => rfl
    | thrown => rfl
  | ret r s1 => rfl
  | thrown => rfl

/-- Newlines alone leave the initial state as it is. -/
theorem scan_loop_newlines (h : host) (o : parse_options) (enc : parse_encoding) (doc : table)
    (hd : o.delimiter ≠ 10) (n : Nat) :
    scan_loop h o enc (List.replicate n 10) (scan_state.initial enc doc)
      = .next (scan_state.initial enc doc) := by
  induction n with
  | zero => rfl
  | succ n ih =>
    simp only [List.replicate_succ, scan_loop]
    rw [loop_body_blank_line h o enc (scan_state.initial enc doc) hd rfl rfl rfl rfl]
    exact ih

/-- The units before the first NUL of `x ++ [10] ++ y` and of
`x ++ [10, 10] ++ y`: those of `x` when `x` holds a NUL, and otherwise `x`, the
newlines and the units of `y` before its first NUL. -/
theorem takeWhile_blank_line (x y : List Nat) :
    ((x ++ [10] ++ y).takeWhile (fun u => decide (u ≠ 0))
        = x.takeWhile (fun u => decide (u ≠ 0)) ∧
      (x ++ [10, 10] ++ y).takeWhile (fun u => decide (u ≠ 0))
        = x.takeWhile (fun u => decide (u ≠ 0))) ∨
    ((x ++ [10] ++ y).takeWhile (fun u => decide (u ≠ 0))
        = x ++ [10] ++ y.takeWhile (fun u => decide (u ≠ 0)) ∧
      (x ++ [10, 10] ++ y).takeWhile (fun u => decide (u ≠ 0))
        = x ++ [10, 10] ++ y.takeWhile (fun u => decide (u ≠ 0))) := by
  by_cases hx : ∀ b ∈ x, b ≠ 0
  · right
    constructor
    · apply takeWhile_ne_zero_append
      intro b hb
      rcases List.mem_append.mp hb with hb | hb
      · exact hx b hb
      · simp only [List.mem_singleton] at hb
        rw [hb]; decide
    · apply takeWhile_ne_zero_append
      intro b hb
      rcases List.mem_append.mp hb with hb | hb
      · exact hx b hb
      · simp only [List.mem_cons, List.mem_singleton, List.not_mem_nil, or_false, or_self] at hb
        rw [hb]; decide
  · left
    push_neg at hx
    obtain ⟨b, hb, hb0⟩ := hx
    subst hb0
    obtain ⟨s, t, rfl⟩ := List.append_of_mem hb
    have e1 : s ++ 0 :: t ++ [10] ++ y = s ++ [0] ++ (t ++ [10] ++ y) := by simp
    have e2 : s ++ 0 :: t ++ [10, 10] ++ y = s ++ [0] ++ (t ++ [10, 10] ++ y) := by simp
    have e3 : s ++ 0 :: t = s ++ [0] ++ t := by simp
    rw [e1, e2, e3, takeWhile_ne_zero_nul, takeWhile_ne_zero_nul, takeWhile_ne_zero_nul]
    exact ⟨rfl, rfl⟩

/-! ## The last unit read -/

/-- A step of the classification chain that goes on records the unit as the
last one read, unless it skips a blank line outside quotes; and it leaves an
escape pending only if one was pending or the unit is a backslash. -/
theorem classify_next_lastRead (h : host) (o : parse_options) (enc : parse_encoding)
    (read : Nat) (s s1 : scan_state) (hc : classify h o enc read s = .next s1) :
    (s1.lastRead = read ∨ (s1 = s ∧ s.is_in_quote = false)) ∧
      (s1.last_is_backslash = true → s.last_is_backslash = true ∨ read = 92) := by
  unfold classify at hc
  by_cases c1 : read = o.delimiter ∧ s.is_in_quote = false
  · rw [if_pos c1] at hc
    cases hp : push_field h o s with
    | none => rw [hp] at hc; cases hc
    | some s2 =>
      rw [hp] at hc
      cases hc
      have hf := (push_field_frame h o s s2 hp).2.2.1
      exact ⟨Or.inl rfl, fun h1 => Or.inl (hf ▸ h1)⟩
  · rw [if_neg c1] at hc
    by_cases c2 : read = 34 ∧ s.is_in_quote = false
    · rw [if_pos c2] at hc
      cases hc
      exact ⟨Or.inl rfl, fun h1 => Or.inl h1⟩
    · rw [if_neg c2] at hc
      by_cases c3 : read = 34
      · rw [if_pos c3] at hc
        by_cases c4 : s.lastRead = 34
        · rw [if_pos c4] at hc
          cases hc
          exact ⟨Or.inl rfl, fun h1 => Or.inl h1⟩
        · rw [if_neg c4] at hc
          cases hc
          exact ⟨Or.inl rfl, fun h1 => Or.inl h1⟩
      · rw [if_neg c3] at hc
        by_cases c5 : read = 92 ∧ o.backslash_to_special = true
        · rw [if_pos c5] at hc
          cases hc
          exact ⟨Or.inl rfl, fun _ => Or.inr c5.1⟩
        · rw [if_neg c5] at hc
          by_cases c6 : read = 10
          · rw [if_pos c6] at hc
            by_cases c7 : s.is_in_quote = true
            · rw [if_pos c7] at hc
              cases hc
            · rw [if_neg c7] at hc
              by_cases c8 : s.row.isEmpty = true ∧ s.builder.empty = true
              · rw [if_pos c8] at hc
                cases hc
                exact ⟨Or.inr ⟨rfl, by simpa using c7⟩, fun h1 => Or.inl h1⟩
              · rw [if_neg c8] at hc
                cases hp : push_field h o s with
                | none => rw [hp] at hc; cases hc
                | some s2 =>
                  rw [hp] at hc
                  have hf := (push_field_frame h o s s2 hp).2.2.1
                  simp only [] at hc
                  split_ifs at hc
                  cases hc
                  exact ⟨Or.inl rfl, fun h1 => Or.inl (hf ▸ h1)⟩
          · rw [if_neg c6] at hc
            cases hc
            exact ⟨Or.inl rfl, fun h1 => Or.inl h1⟩

/-- A step of the loop body leaves an escape pending only at a backslash that
it records as the last unit read. -/
theorem loop_body_pending_escape (h : host) (o : parse_options) (enc : parse_encoding)
    (read : Nat) (s s1 : scan_state) (hc : loop_body h o enc read s = .next s1)
    (h1 : s1.last_is_backslash = true) : s1.lastRead = 92 := by
  unfold loop_body at hc
  by_cases hb : s.last_is_backslash = true
  · rw [if_pos hb] at hc
    simp only [] at hc
    split_ifs at hc
    · cases hc; cases h1
    · cases hc; cases h1
    · cases hc; cases h1
    · obtain ⟨hl, hp⟩ := classify_next_lastRead h o enc read _ s1 hc
      rcases hp h1 with hp | hp
      · cases hp
      · rcases hl with hl | ⟨hl, _⟩
        · rw [hl, hp]
        · rw [hl] at h1; cases h1
  · rw [if_neg hb] at hc
    obtain ⟨hl, hp⟩ := classify_next_lastRead h o enc read _ s1 hc
    rcases hp h1 with hp | hp
    · exact absurd hp hb
    · rcases hl with hl | ⟨hl, _⟩
      · rw [hl, hp]
      · rw [hl] at h1; exact absurd h1 hb

/-- Along the scan loop, a pending escape comes with the backslash as the last
unit read. -/
theorem scan_loop_pending_escape (h : host) (o : parse_options) (enc : parse_encoding)
    (units : List Nat) : ∀ (s s1 : scan_state),
    (s.last_is_backslash = true → s.lastRead = 92) →
    scan_loop h o enc units s = .next s1 →
    s1.last_is_backslash = true → s1.lastRead = 92 := by
  induction units with
  | nil =>
    intro s s1 hs hl
    simp only [scan_loop] at hl
    cases hl
    exact hs
  | cons u rest ih =>
    intro s s1 _ hl
    simp only [scan_loop] at hl
    cases hb : loop_body h o enc u s with
    | next s2 =>
      rw [hb] at hl
      exact ih s2 s1 (loop_body_pending_escape h o enc u s s2 hb) hl
    | ret r s2 => rw [hb] at hl; cases hl
    | thrown => rw [hb] at hl; cases hl

/-- The last unit read after a step that ends inside a quoted field: the unit
of the step, unless the step consumed it as the second unit of an escape, which
leaves the last unit read as it was. -/
theorem loop_body_lastRead (h : host) (o : parse_options) (enc : parse_encoding)
    (v : Nat) (s0 s : scan_state) (hv : loop_body h o enc v s0 = .next s)
    (hq : s.is_in_quote = true) :
    s.lastRead = if s0.last_is_backslash = true ∧ (v = 34 ∨ v = 110 ∨ v = 92)
      then s0.lastRead else v := by
  unfold loop_body at hv
  by_cases hb : s0.last_is_backslash = true
  · rw [if_pos hb] at hv
    simp only [] at hv
    by_cases h34 : v = 34
    · rw [if_pos h34] at hv
      cases hv
      rw [if_pos ⟨hb, Or.inl h34⟩]
    · rw [if_neg h34] at hv
      by_cases h110 : v = 110
      · rw [if_pos h110] at hv
        cases hv
        rw [if_pos ⟨hb, Or.inr (Or.inl h110)⟩]
      · rw [if_neg h110] at hv
        by_cases h92 : v = 92
        · rw [if_pos h92] at hv
          cases hv
          rw [if_pos ⟨hb, Or.inr (Or.inr h92)⟩]
        · rw [if_neg h92] at hv
          rw [if_neg (fun hc => by rcases hc.2 with hc | hc | hc <;> contradiction)]
          split_ifs at hv
          rcases (classify_next_lastRead h o enc v _ s hv).1 with hl | ⟨hl, hq0⟩
          · exact hl
          · rw [hl] at hq
            simp only [] at hq0
            rw [hq0] at hq
            cases hq
  · rw [if_neg hb] at hv
    rw [if_neg (fun hc => hb hc.1)]
    rcases (classify_next_lastRead h o enc v _ s hv).1 with hl | ⟨hl, hq0⟩
    · exact hl
    · rw [hl] at hq
      rw [hq0] at hq
      cases hq

/-- A quote read inside a quoted field with no escape pending is appended when
the last unit read is a quote, and closes the field otherwise. -/
theorem loop_body_quote_in_quote (h : host) (o : parse_options) (enc : parse_encoding)
    (s : scan_state) (hq : s.is_in_quote = true) (hb : s.last_is_backslash = false) :
    loop_body h o enc 34 s =
      if s.lastRead = 34 then
        .next { s with
          builder := s.builder.append h (double_quote_per_encoding enc), lastRead := 34 }
      else .next { s with is_in_quote := false, lastRead := 34 } := by
  simp only [loop_body, classify, hb, hq, Bool.false_eq_true, if_false, Bool.true_eq_false,
    and_false, if_true]

/-! ## A table that follows prior rows -/

/-- Pushing a field does not look at the table. -/
theorem push_field_prior (h : host) (o : parse_options) (D : table) (s : scan_state) :
    push_field h o { s with _document := D ++ s._document }
      = (push_field h o s).map fun s1 => { s1 with _document := D ++ s1._document } := by
  unfold push_field
  cases s.builder.to_string h o.trim <;> rfl

/-- The column-count test on a table that follows prior rows `D`: it passes
when it passes without them and the row has the width of `D`. -/
theorem count_test_prior (D doc : table) (row : List u8string)
    (hn : ¬ (¬ doc.isEmpty = true ∧ (doc.getD 0 []).length ≠ row.length))
    (hfit : D = [] ∨ row.length = (D.getD 0 []).length) :
    ¬ (¬ (D ++ doc).isEmpty = true ∧ ((D ++ doc).getD 0 []).length ≠ row.length) := by
  rcases hfit with hD | hw
  · subst hD
    simpa using hn
  · cases D with
    | nil => simpa using hn
    | cons d ds =>
      rintro ⟨_, hne⟩
      apply hne
      simpa using hw.symm

/-- A step of the classification chain that goes on does the same on a table
that follows prior rows `D`, when every row of the table afterwards has the
width of `D`. -/
theorem classify_prior (h : host) (o : parse_options) (enc : parse_encoding) (read : Nat)
    (D : table) (s s1 : scan_state) (hc : classify h o enc read s = .next s1)
    (hfit : D = [] ∨ ∀ r ∈ s1._document, r.length = (D.getD 0 []).length) :
    classify h o enc read { s with _document := D ++ s._document }
      = .next { s1 with _document := D ++ s1._document } := by
  unfold classify at hc ⊢
  dsimp only
  by_cases c1 : read = o.delimiter ∧ s.is_in_quote = false
  · rw [if_pos c1] at hc ⊢
    rw [push_field_prior]
    cases hp : push_field h o s with
    | none => rw [hp] at hc; cases hc
    | some s2 =>
      rw [hp] at hc
      cases hc
      rfl
  · rw [if_neg c1] at hc ⊢
    by_cases c2 : read = 34 ∧ s.is_in_quote = false
    · rw [if_pos c2] at hc ⊢
      cases hc
      rfl
    · rw [if_neg c2] at hc ⊢
      by_cases c3 : read = 34
      · rw [if_pos c3] at hc ⊢
        by_cases c4 : s.lastRead = 34
        · rw [if_pos c4] at hc ⊢
          cases hc
          rfl
        · rw [if_neg c4] at hc ⊢
          cases hc
          rfl
      · rw [if_neg c3] at hc ⊢
        by_cases c5 : read = 92 ∧ o.backslash_to_special = true
        · rw [if_pos c5] at hc ⊢
          cases hc
          rfl
        · rw [if_neg c5] at hc ⊢
          by_cases c6 : read = 10
          · rw [if_pos c6] at hc ⊢
            by_cases c7 : s.is_in_quote = true
            · rw [if_pos c7] at hc
              cases hc
            · rw [if_neg c7] at hc ⊢
              by_cases c8 : s.row.isEmpty = true ∧ s.builder.empty = true
              · rw [if_pos c8] at hc ⊢
                cases hc
                rfl
              · rw [if_neg c8] at hc ⊢
                rw [push_field_prior]
                cases hp : push_field h o s with
                | none => rw [hp] at hc; cases hc
                | some s2 =>
                  rw [hp] at hc
                  dsimp only [Option.map_some'] at hc ⊢
                  by_cases c9 : ¬ s2._document.isEmpty = true ∧
                      (s2._document.getD 0 []).length ≠ s2.row.length
                  · rw [if_pos c9] at hc
                    cases hc
                  · rw [if_neg c9] at hc
                    cases hc
                    have hrow : D = [] ∨ s2.row.length = (D.getD 0 []).length := by
                      rcases hfit with hD | hall
                      · exact Or.inl hD
                      · exact Or.inr (hall s2.row (by simp))
                    rw [if_neg (count_test_prior D s2._document s2.row c9 hrow),
                      List.append_assoc]
          · rw [if_neg c6] at hc ⊢
            cases hc
            rfl

theorem loop_body_prior (h : host) (o : parse_options) (enc : parse_encoding) (read : Nat)
    (D : table) (s s1 : scan_state) (hc : loop_body h o enc read s = .next s1)
    (hfit : D = [] ∨ ∀ r ∈ s1._document, r.length = (D.getD 0 []).length) :
    loop_body h o enc read { s with _document := D ++ s._document }
      = .next { s1 with _document := D ++ s1._document } := by
  unfold loop_body at hc ⊢
  dsimp only at hc ⊢
  by_cases hb : s.last_is_backslash = true
  · rw [if_pos hb] at hc ⊢
    by_cases h34 : read = 34
    · rw [if_pos h34] at hc ⊢
      cases hc
      rfl
    · rw [if_neg h34] at hc ⊢
      by_cases h110 : read = 110
      · rw [if_pos h110] at hc ⊢
        cases hc
        rfl
      · rw [if_neg h110] at hc ⊢
        by_cases h92 : read = 92
        · rw [if_pos h92] at hc ⊢
          cases hc
          rfl
        · rw [if_neg h92] at hc ⊢
          by_cases hstrict : o.backslash_to_special_detect_error = true
          · rw [if_pos hstrict] at hc
            cases hc
          · rw [if_neg hstrict] at hc ⊢
            exact classify_prior h o enc read D _ s1 hc hfit
  · rw [if_neg hb] at hc ⊢
    exact classify_prior h o enc read D s s1 hc hfit

/-- A scan that uses up its units does the same on a table that follows prior
rows `D`, when every row of the table afterwards has the width of `D`. -/
theorem scan_loop_prior (h : host) (o : parse_options) (enc : parse_encoding) (D : table)
    (units : List Nat) : ∀ (s s1 : scan_state), scan_loop h o enc units s = .next s1 →
    (D = [] ∨ ∀ r ∈ s1._document, r.length = (D.getD 0 []).length) →
    scan_loop h o enc units { s with _document := D ++ s._document }
      = .next { s1 with _document := D ++ s1._document } := by
  induction units with
  | nil =>
    intro s s1 hl _
    simp only [scan_loop] at hl ⊢
    cases hl
    rfl
  | cons u rest ih =>
    intro s s1 hl hfit
    simp only [scan_loop] at hl ⊢
    cases hb : loop_body h o enc u s with
    | next s2 =>
      rw [hb] at hl
      have hpre := scan_loop_next_prefix h o enc rest s2 s1 hl
      have hfit2 : D = [] ∨ ∀ r ∈ s2._document, r.length = (D.getD 0 []).length := by
        rcases hfit with hD | hall
        · exact Or.inl hD
        · exact Or.inr fun r hr => hall r (hpre.subset hr)
      rw [loop_body_prior h o enc u D s s2 hb hfit2]
      exact ih s2 s1 hl hfit
    | ret r s2 => rw [hb] at hl; cases hl
    | thrown => rw [hb] at hl; cases hl

/-- The statements after the loop, when they return `success`, do the same on
a table that follows prior rows `D`, when every row of the table afterwards
has the width of `D`. -/
theorem finish_prior (h : host) (o : parse_options) (D : table) (s s1 : scan_state)
    (hf : finish h o s = some (.success, s1))
    (hfit : D = [] ∨ ∀ r ∈ s1._document, r.length = (D.getD 0 []).length) :
    finish h o { s with _document := D ++ s._document }
      = some (.success, { s1 with _document := D ++ s1._document }) := by
  unfold finish at hf ⊢
  dsimp only
  by_cases hrow : ¬ s.row.isEmpty = true
  · rw [if_pos hrow] at hf ⊢
    by_cases hq : s.is_in_quote = true
    · rw [if_pos hq] at hf
      cases hf
    · rw [if_neg hq] at hf ⊢
      rw [push_field_prior]
      cases hp : push_field h o s with
      | none => rw [hp] at hf; cases hf
      | some s2 =>
        rw [hp] at hf
        dsimp only [Option.map_some'] at hf ⊢
        by_cases c9 : ¬ s2._document.isEmpty = true ∧
            (s2._document.getD 0 []).length ≠ s2.row.length
        · rw [if_pos c9] at hf
          cases hf
        · rw [if_neg c9] at hf
          cases hf
          have hr : D = [] ∨ s2.row.length = (D.getD 0 []).length := by
            rcases hfit with hD | hall
            · exact Or.inl hD
            · exact Or.inr (hall s2.row (by simp))
          rw [if_neg (count_test_prior D s2._document s2.row c9 hr), List.append_assoc]
  · rw [if_neg hrow] at hf ⊢
    cases hf
    rfl

/-- The scan loop never returns `success` from inside. -/
theorem scan_loop_ret_ne_success (h : host) (o : parse_options) (enc : parse_encoding)
    (units : List Nat) (s s1 : scan_state) (r : parse_result)
    (hl : scan_loop h o enc units s = .ret r s1) : r ≠ .success := by
  obtain ⟨pre, u, post, s2, _, _, hb⟩ := scan_loop_ret h o enc units s s1 r hl
  rcases loop_body_ret h o enc u s2 s1 r hb with ⟨hr, _⟩ | ⟨hr, _⟩ <;> rw [hr] <;>
    exact fun hc => by cases hc

/-- A parse that returns `success` with table `T0` on an empty document returns
`success` with `D ++ T0` on a document holding `D`, when `D` or `T0` is empty
or their rows 0 have the same number of fields. -/
theorem parse_from_stream_prior (h : host) (stream : istream) (o : parse_options)
    (D T0 : table) (h0 : parse_from_stream h stream o [] = some (.success, T0))
    (hfit : D = [] ∨ T0 = [] ∨ (D.getD 0 []).length = (T0.getD 0 []).length) :
    parse_from_stream h stream o D = some (.success, D ++ T0) := by
  obtain ⟨sf, hexit, hT⟩ := parse_from_stream_eq h stream o [] T0 _ h0
  unfold parse_from_stream
  unfold parse_from_stream_exit at hexit ⊢
  dsimp only at hexit ⊢
  generalize detect_encoding h stream o.determine_bom = d at hexit ⊢
  have hu : uniform sf._document :=
    conclude_uniform h o d.1 _ _ sf _ uniform_nil hexit
  have hfit2 : D = [] ∨ ∀ r ∈ sf._document, r.length = (D.getD 0 []).length := by
    rcases hfit with hD | hT0 | hw
    · exact Or.inl hD
    · right
      intro r hr
      rw [hT, hT0] at hr
      cases hr
    · right
      intro r hr
      rw [hw, ← hT]
      exact hu r hr
  have hinit : scan_state.initial d.1 D
      = { scan_state.initial d.1 [] with
          _document := D ++ (scan_state.initial d.1 [])._document } := by
    simp [scan_state.initial]
  cases hl : scan_loop h o d.1 (units_of h d.2 d.1) (scan_state.initial d.1 []) with
  | next s1 =>
    rw [hl] at hexit
    simp only [conclude] at hexit
    have hpre : D = [] ∨ ∀ r ∈ s1._document, r.length = (D.getD 0 []).length := by
      rcases hfit2 with hD | hall
      · exact Or.inl hD
      · right
        intro r hr
        rcases finish_cases h o s1 sf _ hexit with ⟨hret, _⟩ | ⟨_, hcase⟩
        · rcases hret with ⟨hc, _⟩ | ⟨hc, _⟩ <;> cases hc
        · rcases hcase with ⟨_, he⟩ | ⟨row, hd, _⟩
          · exact hall r (he ▸ hr)
          · exact hall r (by rw [hd]; exact List.mem_append_left _ hr)
    rw [hinit, scan_loop_prior h o d.1 D _ _ s1 hl hpre]
    simp only [conclude]
    rw [finish_prior h o D s1 sf hexit hfit2]
    simp [hT]
  | ret r s1 =>
    rw [hl] at hexit
    simp only [conclude, Option.some.injEq, Prod.mk.injEq] at hexit
    exact absurd hexit.1 (scan_loop_ret_ne_success h o d.1 _ _ s1 r hl)
  | thrown =>
    rw [hl] at hexit
    cases hexit

/-! ## The encoding of the accumulator -/

theorem append_encoding (h : host) (b : string_builder) (ch : Nat) :
    (b.append h ch)._encoding = b._encoding := by
  unfold string_builder.append
  split <;> rfl

theorem push_field_builder (h : host) (o : parse_options) (s s1 : scan_state)
    (hp : push_field h o s = some s1) : s1.builder = s.builder.clear := by
  unfold push_field at hp
  split at hp
  · cases hp
  · cases hp
    rfl

theorem classify_builder_encoding (h : host) (o : parse_options) (enc : parse_encoding)
    (read : Nat) (s s1 : scan_state) (hc : classify h o enc read s = .next s1) :
    s1.builder._encoding = s.builder._encoding := by
  unfold classify at hc
  by_cases c1 : read = o.delimiter ∧ s.is_in_quote = false
  · rw [if_pos c1] at hc
    cases hp : push_field h o s with
    | none => rw [hp] at hc; cases hc
    | some s2 =>
      rw [hp] at hc
      cases hc
      rw [show s2.builder = s.builder.clear from push_field_builder h o s s2 hp]
      rfl
  · rw [if_neg c1] at hc
    by_cases c2 : read = 34 ∧ s.is_in_quote = false
    · rw [if_pos c2] at hc
      cases hc
      rfl
    · rw [if_neg c2] at hc
      by_cases c3 : read = 34
      · rw [if_pos c3] at hc
        by_cases c4 : s.lastRead = 34
        · rw [if_pos c4] at hc
          cases hc
          exact append_encoding h _ _
        · rw [if_neg c4] at hc
          cases hc
          rfl
      · rw [if_neg c3] at hc
        by_cases c5 : read = 92 ∧ o.backslash_to_special = true
        · rw [if_pos c5] at hc
          cases hc
          rfl
        · rw [if_neg c5] at hc
          by_cases c6 : read = 10
          · rw [if_pos c6] at hc
            by_cases c7 : s.is_in_quote = true
            · rw [if_pos c7] at hc
              cases hc
            · rw [if_neg c7] at hc
              by_cases c8 : s.row.isEmpty = true ∧ s.builder.empty = true
              · rw [if_pos c8] at hc
                cases hc
                rfl
              · rw [if_neg c8] at hc
                cases hp : push_field h o s with
                | none => rw [hp] at hc; cases hc
                | some s2 =>
                  rw [hp] at hc
                  simp only [] at hc
                  split_ifs at hc
                  cases hc
                  rw [show s2.builder = s.builder.clear from push_field_builder h o s s2 hp]
                  rfl
          · rw [if_neg c6] at hc
            cases hc
            exact append_encoding h _ _

theorem loop_body_builder_encoding (h : host) (o : parse_options) (enc : parse_encoding)
    (read : Nat) (s s1 : scan_state) (hc : loop_body h o enc read s = .next s1) :
    s1.builder._encoding = s.builder._encoding := by
  unfold loop_body at hc
  by_cases hb : s.last_is_backslash = true
  · rw [if_pos hb] at hc
    simp only [] at hc
    split_ifs at hc
    · cases hc; exact append_encoding h _ _
    · cases hc; exact append_encoding h _ _
    · cases hc; exact append_encoding h _ _
    · rw [classify_builder_encoding h o enc read _ s1 hc]
      exact append_encoding h _ _
  · rw [if_neg hb] at hc
    exact classify_builder_encoding h o enc read s s1 hc

/-- Along the scan loop the accumulator keeps the encoding it was made with. -/
theorem scan_loop_builder_encoding (h : host) (o : parse_options) (enc : parse_encoding)
    (units : List Nat) : ∀ (s s1 : scan_state), scan_loop h o enc units s = .next s1 →
    s1.builder._encoding = s.builder._encoding := by
  induction units with
  | nil =>
    intro s s1 hl
    simp only [scan_loop] at hl
    cases hl
    rfl
  | cons u rest ih =>
    intro s s1 hl
    simp only [scan_loop] at hl
    cases hb : loop_body h o enc u s with
    | next s2 =>
      rw [hb] at hl
      rw [ih s2 s1 hl, loop_body_builder_encoding h o enc u s s2 hb]
    | ret r s2 => rw [hb] at hl; cases hl
    | thrown => rw [hb] at hl; cases hl

/-- Under a concrete encoding, appending the quote of the encoding stores the
byte 34. -/
theorem append_double_quote (h : host) (b : string_builder)
    (henc : b._encoding ≠ .detect_from_bom) :
    b.append h (double_quote_per_encoding b._encoding) = b.emplace_back h 34 := by
  obtain ⟨buf, enc, sp⟩ := b
  cases enc
  · rfl
  · rfl
  · rfl
  · rfl
  · rfl
  · exact absurd rfl henc


/-! ## The claims -/

/-- C1: for rows that all have the same length `n ≥ 1`, made of plain fields
(bytes free of `','`, `'"'`, `'\\'`, newline and NUL, with no space or tab at
either end), none of them the single empty field, `parse_from_text` with the
default options on an empty document, over the text that joins the fields of
each row with `','` and ends each row with `'\n'`, returns `success` and the
table is exactly the list of rows. -/
theorem parse_from_text_round_trip (h : host) (rows : table) (n : Nat) (hn : 1 ≤ n)
    (hlen : ∀ r ∈ rows, r.length = n)
    (hfields : ∀ r ∈ rows, ∀ f ∈ r, plain_field f)
    (hne : ∀ r ∈ rows, r ≠ [[]]) :
    parse_from_text h (csv_text rows) default_options [] = some (.success, rows) := by
  rw [parse_from_text_utf8 h _ _ _ rfl, takeWhile_ne_zero _ (csv_text_ne_zero rows hfields)]
  obtain ⟨last1, sp1, hscan⟩ := scan_csv_text h n hn rows [] 0 (List.replicate 4096 0)
    (fun r hr => ⟨hlen r hr, hne r hr, hfields r hr⟩) (Or.inl rfl)
  have hinit : scan_state.initial .utf8 []
      = ⟨⟨[], .utf8, List.replicate 4096 0⟩, [], false, false, 0, []⟩ := rfl
  rw [hinit, hscan]
  simp [conclude, finish]

theorem parse_from_text_round_trip_witness :
    parse_from_text host.zero (csv_text [[[97], [98], [99]], [[49], [50], [51]]])
      default_options [] = some (.success, [[[97], [98], [99]], [[49], [50], [51]]]) :=
  parse_from_text_round_trip host.zero [[[97], [98], [99]], [[49], [50], [51]]] 3 (by decide)
    (by decide) (by decide) (by decide)

/-- C2: when `parse_from_stream`, run on a document that starts empty, returns
`success`, every row of the table has as many fields as row 0; for every
host, input and options. -/
theorem success_rows_match_first_row (h : host) (input : List Nat) (o : parse_options)
    (T : table)
    (hres : parse_from_stream h (istream.of_text input) o [] = some (.success, T)) :
    ∀ row ∈ T, row.length = (T.getD 0 []).length := by
  obtain ⟨s1, hx, hd⟩ := parse_from_stream_eq h _ o [] T _ hres
  unfold parse_from_stream_exit at hx
  have := conclude_uniform h o _ _ _ s1 _ (by exact uniform_nil) hx
  rw [hd] at this
  exact this

theorem success_rows_match_first_row_witness :
    parse_from_stream host.zero (istream.of_text [97, 44, 98, 10, 49, 44, 50, 10])
        default_options [] = some (.success, [[[97], [98]], [[49], [50]]]) ∧
      ∀ row ∈ ([[[97], [98]], [[49], [50]]] : table),
        row.length = (([[[97], [98]], [[49], [50]]] : table).getD 0 []).length :=
  ⟨by decide,
    success_rows_match_first_row host.zero [97, 44, 98, 10, 49, 44, 50, 10] default_options _
      (by decide)⟩


/-- C3: if `parse_from_stream`, on a document that starts empty, returns
`column_count_no_matched` leaving the table `T`, then `T` has at least one
row, the offending row (the local `row` at the return) is not a row of `T`,
and a proper initial segment `p` of the input parses to `success` with exactly
the table `T`, where `p` ends just before the offending row: `p` is read as the
first `j` units of the input, after them the row buffer and the accumulator
are empty and the table is `T`, no row is added from there on, and the rest of
the units, scanned from that state, end in the mismatch with the offending
row; for every host, input and options. -/
theorem column_count_no_matched_keeps_earlier_rows (h : host) (input : List Nat)
    (o : parse_options) (T : table)
    (hres : parse_from_stream h (istream.of_text input) o []
      = some (.column_count_no_matched, T)) :
    T ≠ [] ∧
    ∃ s1 p j sj,
      parse_from_stream_exit h (istream.of_text input) o []
        = some (.column_count_no_matched, s1) ∧
      s1._document = T ∧ s1.row ∉ T ∧
      p <+: input ∧ p.length < input.length ∧
      parse_from_stream h (istream.of_text p) o [] = some (.success, T) ∧
      input_encoding h p o = input_encoding h input o ∧
      input_units h p o = (input_units h input o).take j ∧
      scan_prefix h input o j = .next sj ∧
      sj.row = [] ∧ sj.builder.empty = true ∧ sj._document = T ∧
      (∀ k sk, j ≤ k → scan_prefix h input o k = .next sk → sk._document = T) ∧
      conclude h o (scan_loop h o (input_encoding h input o)
          ((input_units h input o).drop j) sj)
        = some (.column_count_no_matched, s1) := by
  obtain ⟨s1, hx, hd⟩ := parse_from_stream_eq h _ o [] T _ hres
  have hx0 := hx
  unfold parse_from_stream_exit at hx
  simp only [] at hx
  have huni := conclude_uniform h o _ _ _ s1 _ (by exact uniform_nil) hx
  obtain ⟨hne, hlen, j, sj, hj, hsj, hrow, hbe, hdoc, hall2, hresume⟩ :=
    conclude_mismatch h o _ (scan_state.initial _ []) rfl rfl _ s1 hx
  rw [hd] at hne hlen huni hdoc hall2
  have hnotin : s1.row ∉ T := fun hin => hlen (huni _ hin)
  refine ⟨hne, ?_⟩
  rcases detect_encoding_take h input o.determine_bom with hnil | ⟨he, m, hd2, hall⟩
  · rw [hnil] at hj
    simp at hj
  · have hj1 : 1 ≤ j := by
      rcases Nat.eq_zero_or_pos j with h0 | h0
      · exfalso
        subst h0
        simp only [List.take_zero, scan_loop] at hsj
        cases hsj
        exact hne hdoc.symm
      · exact h0
    have hj0 := hj
    have hsj0 := hsj
    rw [hd2] at hj hsj
    obtain ⟨htake, hbound⟩ := units_of_take h _ he input m j hj
    have hdet := hall j hj1 hbound
    have hp : parse_from_stream h (istream.of_text (input.take (m + unit_width
        (detect_encoding h (istream.of_text input) o.determine_bom).1 * j))) o []
        = some (.success, T) := by
      unfold parse_from_stream parse_from_stream_exit
      simp only [hdet, htake, hsj, conclude, finish, hrow, List.isEmpty_nil, not_true_eq_false,
        if_false, Option.map_some', hdoc]
    have hlt : (input.take (m + unit_width
        (detect_encoding h (istream.of_text input) o.determine_bom).1 * j)).length
        < input.length := by
      rcases Nat.lt_or_ge (m + unit_width
          (detect_encoding h (istream.of_text input) o.determine_bom).1 * j) input.length
        with hlt | hge
      · rw [List.length_take]; omega
      · exfalso
        rw [List.take_of_length_le hge, hres] at hp
        cases hp
    refine ⟨s1, _, j, sj, hx0, hd, hnotin, List.take_prefix _ _, hlt, hp, ?_, ?_, hsj0, hrow,
      hbe, hdoc, hall2, hresume⟩
    · unfold input_encoding
      rw [hdet]
    · unfold input_units
      rw [hdet, htake, hd2]

theorem column_count_no_matched_keeps_earlier_rows_witness :
    parse_from_stream host.zero
        (istream.of_text [97, 44, 98, 10, 99, 44, 100, 10, 49, 44, 50, 44, 51, 10])
        default_options [] = some (.column_count_no_matched, [[[97], [98]], [[99], [100]]]) ∧
      (([[[97], [98]], [[99], [100]]] : table) ≠ [] ∧
        ∃ s1 p j sj,
          parse_from_stream_exit host.zero
              (istream.of_text [97, 44, 98, 10, 99, 44, 100, 10, 49, 44, 50, 44, 51, 10])
              default_options []
            = some (.column_count_no_matched, s1) ∧
          s1._document = [[[97], [98]], [[99], [100]]] ∧
          s1.row ∉ ([[[97], [98]], [[99], [100]]] : table) ∧
          p <+: [97, 44, 98, 10, 99, 44, 100, 10, 49, 44, 50, 44, 51, 10] ∧
          p.length < [97, 44, 98, 10, 99, 44, 100, 10, 49, 44, 50, 44, 51, 10].length ∧
          parse_from_stream host.zero (istream.of_text p) default_options []
            = some (.success, [[[97], [98]], [[99], [100]]]) ∧
          input_encoding host.zero p default_options
            = input_encoding host.zero
                [97, 44, 98, 10, 99, 44, 100, 10, 49, 44, 50, 44, 51, 10] default_options ∧
          input_units host.zero p default_options
            = (input_units host.zero
                [97, 44, 98, 10, 99, 44, 100, 10, 49, 44, 50, 44, 51, 10]
                default_options).take j ∧
          scan_prefix host.zero [97, 44, 98, 10, 99, 44, 100, 10, 49, 44, 50, 44, 51, 10]
            default_options j = .next sj ∧
          sj.row = [] ∧ sj.builder.empty = true ∧
          sj._document = [[[97], [98]], [[99], [100]]] ∧
          (∀ k sk, j ≤ k →
            scan_prefix host.zero [97, 44, 98, 10, 99, 44, 100, 10, 49, 44, 50, 44, 51, 10]
              default_options k = .next sk →
            sk._document = [[[97], [98]], [[99], [100]]]) ∧
          conclude host.zero default_options
              (scan_loop host.zero default_options
                (input_encoding host.zero
                  [97, 44, 98, 10, 99, 44, 100, 10, 49, 44, 50, 44, 51, 10] default_options)
                ((input_units host.zero
                  [97, 44, 98, 10, 99, 44, 100, 10, 49, 44, 50, 44, 51, 10]
                  default_options).drop j) sj)
            = some (.column_count_no_matched, s1)) :=
  ⟨by decide,
    column_count_no_matched_keeps_earlier_rows host.zero
      [97, 44, 98, 10, 99, 44, 100, 10, 49, 44, 50, 44, 51, 10] default_options
      [[[97], [98]], [[99], [100]]] (by decide)⟩
/-- C4: if `parse_from_stream` returns `parse_error`, the document's table has
zero rows afterwards; for every host, input, options and prior content of the
document. -/
theorem parse_error_leaves_no_rows (h : host) (input : List Nat) (o : parse_options)
    (doc T : table)
    (hres : parse_from_stream h (istream.of_text input) o doc = some (.parse_error, T)) :
    T.length = 0 := by
  obtain ⟨s1, hx, hd⟩ := parse_from_stream_eq h _ o doc T _ hres
  unfold parse_from_stream_exit at hx
  obtain ⟨pre, s2, _, _, hcase⟩ := conclude_cases h o _ _ _ s1 _ hx
  rcases hcase with (⟨_, hd2⟩ | ⟨hr, _⟩) | ⟨hr, _⟩
  · rw [← hd, hd2]; rfl
  · cases hr
  · cases hr

theorem parse_error_leaves_no_rows_witness :
    parse_from_stream host.zero (istream.of_text [97, 10, 98, 44, 34, 99, 10]) default_options
        [[[120]]] = some (.parse_error, []) ∧ ([] : table).length = 0 :=
  ⟨by decide,
    parse_error_leaves_no_rows host.zero [97, 10, 98, 44, 34, 99, 10] default_options
      [[[120]]] [] (by decide)⟩

/-- C5: with the default options, for byte strings `u` and `s` free of `'"'`,
`'\\'`, newline and NUL and any `rest`, parsing `u ++ '"' ++ s ++ '\n' ++ rest`
returns `parse_error` with an empty table, whatever the document held. -/
theorem raw_newline_in_quotes_is_parse_error (h : host) (u s rest : List Nat) (doc : table)
    (hu : ∀ b ∈ u, b ≠ 34 ∧ b ≠ 92 ∧ b ≠ 10 ∧ b ≠ 0)
    (hs : ∀ b ∈ s, b ≠ 34 ∧ b ≠ 92 ∧ b ≠ 10 ∧ b ≠ 0) :
    parse_from_text h (u ++ [34] ++ s ++ [10] ++ rest) default_options doc
      = some (.parse_error, []) := by
  rw [parse_from_text_utf8 h _ _ _ rfl]
  have htw : (u ++ [34] ++ s ++ [10] ++ rest).takeWhile (fun x => decide (x ≠ 0))
      = u ++ (34 :: (s ++ (10 :: rest.takeWhile (fun x => decide (x ≠ 0))))) := by
    have e : u ++ [34] ++ s ++ [10] ++ rest = u ++ ([34] ++ (s ++ ([10] ++ rest))) := by
      simp
    rw [e, takeWhile_ne_zero_append u _ (fun b hb => (hu b hb).2.2.2),
      takeWhile_ne_zero_append [34] _ (by decide),
      takeWhile_ne_zero_append s _ (fun b hb => (hs b hb).2.2.2),
      takeWhile_ne_zero_append [10] _ (by decide)]
    rfl
  rw [htw]
  obtain ⟨buf1, sp1, row1, h1⟩ := scan_loop_no_exit h default_options false doc u
    (fun b hb => ⟨(hu b hb).1, (hu b hb).2.1, (hu b hb).2.2.1⟩) [] (List.replicate 4096 0) [] 0
  have hinit : scan_state.initial .utf8 doc
      = ⟨⟨[], .utf8, List.replicate 4096 0⟩, [], false, false, 0, doc⟩ := rfl
  rw [hinit, scan_loop_append_next _ _ _ _ _ _ _ h1]
  simp only [scan_loop]
  rw [loop_body_open_quote h default_options .utf8 _ _ _ _ (by decide)]
  simp only []
  obtain ⟨buf2, sp2, row2, h2⟩ := scan_loop_no_exit h default_options true doc s
    (fun b hb => ⟨(hs b hb).1, (hs b hb).2.1, (hs b hb).2.2.1⟩) buf1 sp1 row1 34
  rw [scan_loop_append_next _ _ _ _ _ _ _ h2]
  simp only [scan_loop, loop_body_newline_in_quote]
  rfl

theorem raw_newline_in_quotes_is_parse_error_witness :
    parse_from_text host.zero ([97, 44] ++ [34] ++ [98] ++ [10] ++ [99, 10]) default_options
      [[[120]]] = some (.parse_error, []) :=
  raw_newline_in_quotes_is_parse_error host.zero [97, 44] [98] [99, 10] [[[120]]]
    (by decide) (by decide)

/-- C6, at the input `"a` (an opening quote, one byte, end of stream): the scan
ends inside the quoted field, and `parse_from_text` with the default options
returns `success`, not `parse_error`; the test for an open quote after the
loop sits under `if (!row.empty())` and the row buffer is empty. -/
theorem open_quote_at_end_with_empty_row_is_success (h : host) :
    (∃ s, scan_loop h default_options .utf8 [34, 97] (scan_state.initial .utf8 [])
        = .next s ∧ s.is_in_quote = true ∧ s.row = []) ∧
      parse_from_text h [34, 97] default_options [] = some (.success, []) :=
  ⟨⟨_, rfl, rfl, rfl⟩, rfl⟩

/-- C7, at the input `a` (one byte, no newline): the scan ends outside quotes,
with no escape pending and the accumulator holding `a`, and `parse_from_text`
with the default options returns `success` with an empty table, while the
input `a` followed by newline gives the row `["a"]`; the statements after the
loop test the row buffer only. -/
theorem pending_field_at_end_is_dropped (h : host) :
    (∃ s, scan_loop h default_options .utf8 [97] (scan_state.initial .utf8 [])
        = .next s ∧ s.is_in_quote = false ∧ s.last_is_backslash = false ∧
          s.builder.empty = false ∧ s.row = []) ∧
      parse_from_text h [97] default_options [] = some (.success, []) ∧
      parse_from_text h [97, 10] default_options [] = some (.success, [[[97]]]) :=
  ⟨⟨_, rfl, rfl, rfl, rfl, rfl⟩, rfl, rfl⟩

/-- C8: with the default options, for a non-empty byte string `s` free of `'"'`,
`'\\'`, newline and NUL that has no space or tab at either end (`s` may hold
`','`), parsing `a,"s",d` followed by `'\n'` on an empty document returns
`success` with the single row `["a", s, "d"]`. -/
theorem quoted_field_keeps_delimiter (h : host) (s : List Nat) (hne : s ≠ [])
    (hs : ∀ b ∈ s, b < 256 ∧ b ≠ 34 ∧ b ≠ 92 ∧ b ≠ 10 ∧ b ≠ 0)
    (h1 : s.head? ≠ some 32) (h2 : s.head? ≠ some 9)
    (h3 : s.getLast? ≠ some 32) (h4 : s.getLast? ≠ some 9) :
    parse_from_text h ([97, 44, 34] ++ s ++ [34, 44, 100, 10]) default_options []
      = some (.success, [[[97], s, [100]]]) := by
  rw [parse_from_text_utf8 h _ _ _ rfl]
  have hz : ∀ b ∈ [97, 44, 34] ++ s ++ [34, 44, 100, 10], b ≠ 0 := by
    intro b hb
    simp only [List.mem_append] at hb
    rcases hb with (hb | hb) | hb
    · revert b; decide
    · exact (hs b hb).2.2.2.2
    · revert b; decide
  rw [takeWhile_ne_zero _ hz, List.append_assoc]
  obtain ⟨sp0, hstart⟩ : ∃ sp0,
      scan_loop h default_options .utf8 [97, 44, 34] (scan_state.initial .utf8 [])
        = .next ⟨⟨[], .utf8, sp0⟩, [[97]], true, false, 34, []⟩ := ⟨_, rfl⟩
  rw [scan_loop_append_next _ _ _ _ _ _ _ hstart]
  have hbody := scan_loop_plain h default_options .utf8 [[97]] true [] s ⟨[], .utf8, sp0⟩ 34
    (fun b hb => ⟨(hs b hb).2.1, (hs b hb).2.2.2.1, fun hc => absurd hc (hs b hb).2.2.1,
      fun _ => rfl⟩)
  obtain ⟨sp1, hfold⟩ := foldl_append_utf8 h s [] sp0 (fun b hb => (hs b hb).1)
  rw [hfold, List.nil_append] at hbody
  rw [scan_loop_append_next _ _ _ _ _ _ _ hbody]
  have hlast : s.getLast?.getD 34 ≠ 34 := by
    rw [List.getLast?_eq_getLast _ hne]
    exact (hs _ (List.getLast_mem hne)).2.1
  simp only [scan_loop]
  rw [loop_body_close_quote h default_options .utf8 _ _ _ _ hlast]
  simp only []
  have hdel := loop_body_delimiter h default_options s sp1 [[97]] 34 []
  simp only [default_options] at hdel
  simp only [default_options]
  rw [hdel, to_string_utf8_untrimmed s true (fun b hb => (hs b hb).2.2.2.2) h1 h2 h3 h4]
  rfl

theorem quoted_field_keeps_delimiter_witness :
    parse_from_text host.zero ([97, 44, 34] ++ [98, 44, 99] ++ [34, 44, 100, 10])
      default_options [] = some (.success, [[[97], [98, 44, 99], [100]]]) :=
  quoted_field_keeps_delimiter host.zero [98, 44, 99] (by decide) (by decide) (by decide)
    (by decide) (by decide) (by decide)

/-- C9, at the content of one space (whatever follows it in the storage):
`to_string(true)` under UTF-8 returns the space, not the empty string (both
trimming loops stop while `start < end` fails, and `end` starts at the last
byte); so the text ` ,a` followed by newline parses to the row
`[" ", "a"]`. -/
theorem to_string_keeps_last_blank (h : host) (spare : List Nat) :
    string_builder.to_string h ⟨[32], .utf8, spare⟩ true = some [32] ∧
      string_builder.to_string h ⟨[32, 9, 0], .utf8, spare⟩ true = some [0] ∧
      parse_from_text h [32, 44, 97, 10] default_options []
        = some (.success, [[[32], [97]]]) := by
  refine ⟨rfl, ?_, ?_⟩
  · rw [to_string_utf8_eq]; rfl
  · rw [parse_from_text_utf8 h _ _ _ rfl]; rfl

/-- C10: with the backslash escapes enabled, delimiter `','`, trimming off and
the UTF-8 encoding, for byte strings `u` and `v` free of `','`, `'"'`, `'\\'`,
newline and NUL, parsing `u ++ '\\' ++ c ++ v ++ '\n'` on an empty document
returns `success` with one row holding the one field `u ++ r ++ v`, where `r`
is the quote for `c = '"'`, the newline for `c = 'n'` and the backslash for
`c = '\\'`; whatever the strict flag. -/
theorem backslash_escape_is_literal (h : host) (strict : Bool) (u v : List Nat)
    (hu : ∀ b ∈ u, b < 256 ∧ b ≠ 44 ∧ b ≠ 34 ∧ b ≠ 92 ∧ b ≠ 10 ∧ b ≠ 0)
    (hv : ∀ b ∈ v, b < 256 ∧ b ≠ 44 ∧ b ≠ 34 ∧ b ≠ 92 ∧ b ≠ 10 ∧ b ≠ 0) :
    parse_from_text h (u ++ [92, 34] ++ v ++ [10]) ⟨44, false, .utf8, true, strict⟩ []
        = some (.success, [[u ++ [34] ++ v]]) ∧
      parse_from_text h (u ++ [92, 110] ++ v ++ [10]) ⟨44, false, .utf8, true, strict⟩ []
        = some (.success, [[u ++ [10] ++ v]]) ∧
      parse_from_text h (u ++ [92, 92] ++ v ++ [10]) ⟨44, false, .utf8, true, strict⟩ []
        = some (.success, [[u ++ [92] ++ v]]) :=
  ⟨scan_escape_line h strict u v 34 34 hu hv (by decide)
      (fun buf sp last => ⟨_, loop_body_escaped_quote h _ .utf8 ⟨buf, .utf8, sp⟩ _ _ _ _⟩),
    scan_escape_line h strict u v 110 10 hu hv (by decide)
      (fun buf sp last => ⟨_, loop_body_escaped_n h _ .utf8 ⟨buf, .utf8, sp⟩ _ _ _ _⟩),
    scan_escape_line h strict u v 92 92 hu hv (by decide)
      (fun buf sp last => ⟨_, loop_body_escaped_backslash h _ .utf8 ⟨buf, .utf8, sp⟩ _ _ _ _⟩)⟩

theorem backslash_escape_is_literal_witness :
    parse_from_text host.zero ([97] ++ [92, 34] ++ [98] ++ [10])
          ⟨44, false, .utf8, true, true⟩ [] = some (.success, [[[97] ++ [34] ++ [98]]]) ∧
      parse_from_text host.zero ([97] ++ [92, 110] ++ [98] ++ [10])
          ⟨44, false, .utf8, true, true⟩ [] = some (.success, [[[97] ++ [10] ++ [98]]]) ∧
      parse_from_text host.zero ([97] ++ [92, 92] ++ [98] ++ [10])
          ⟨44, false, .utf8, true, true⟩ [] = some (.success, [[[97] ++ [92] ++ [98]]]) :=
  backslash_escape_is_literal host.zero true [97] [98] (by decide) (by decide)

/-- C11: with the backslash escapes and their strict checking both enabled,
delimiter `','` and the UTF-8 encoding, for every trimming flag, host and prior
table, every byte string `u` free of `'\\'`, newline and NUL, every byte `c`
other than `'"'`, `'n'`, `'\\'` and NUL, and every byte string `rest`: parsing
`u ++ '\\' ++ c ++ rest` returns `parse_error` with an empty table. -/
theorem strict_unknown_escape_is_parse_error (h : host) (trim : Bool) (u rest : List Nat)
    (c : Nat) (doc : table) (hu : ∀ b ∈ u, b ≠ 92 ∧ b ≠ 10 ∧ b ≠ 0)
    (hc : c ≠ 34 ∧ c ≠ 110 ∧ c ≠ 92 ∧ c ≠ 0) :
    parse_from_text h (u ++ [92, c] ++ rest) ⟨44, trim, .utf8, true, true⟩ doc
      = some (.parse_error, []) := by
  obtain ⟨h34, h110, h92, h0⟩ := hc
  have hnz : ∀ b ∈ u ++ [92, c], b ≠ 0 := by
    intro b hb
    rcases List.mem_append.mp hb with hb | hb
    · exact (hu b hb).2.2
    · simp only [List.mem_cons, List.mem_singleton, List.not_mem_nil, or_false] at hb
      rcases hb with rfl | rfl
      · decide
      · exact h0
  obtain ⟨buf1, sp1, row1, q1, last1, hpre⟩ :=
    scan_loop_no_backslash h ⟨44, trim, .utf8, true, true⟩ doc u
      (fun b hb => ⟨(hu b hb).1, (hu b hb).2.1⟩) [] (List.replicate 4096 0) [] false 0
  rw [parse_from_text_utf8 h _ _ _ rfl, takeWhile_ne_zero_append _ _ hnz, List.append_assoc,
    scan_loop_append_next h _ .utf8 u _ (scan_state.initial .utf8 doc) _ hpre]
  simp only [List.cons_append, List.nil_append, scan_loop]
  rw [loop_body_backslash h _ .utf8 _ row1 q1 last1 doc rfl
    (Or.inl (show (44 : Nat) ≠ 92 by decide))]
  simp only []
  rw [loop_body_bad_escape h _ .utf8 c _ row1 q1 92 doc rfl h34 h110 h92]
  rfl

theorem strict_unknown_escape_is_parse_error_witness :
    parse_from_text host.zero ([97, 44, 34, 98] ++ [92, 116] ++ [99, 34, 10])
        ⟨44, true, .utf8, true, true⟩ [[[120]]]
      = some (.parse_error, []) :=
  strict_unknown_escape_is_parse_error host.zero true [97, 44, 34, 98] [99, 34, 10] 116
    [[[120]]] (by decide) (by decide)

/-- C12, amended to the UTF-8 encoding: for every options with the UTF-8
encoding whose delimiter is not the newline byte, every host, prior table and
byte strings `x` and `y`, parsing `x ++ '\n' ++ y` and parsing
`x ++ '\n' ++ '\n' ++ y` give the same outcome and the same table; an input
made only of newline bytes returns `success` and leaves the table as it was
(zero rows on an empty document); and under every encoding the scan loop does
the same on code units `x ++ '\n' ++ y` and `x ++ '\n' ++ '\n' ++ y`. -/
theorem blank_line_adds_no_row (h : host) (o : parse_options) (x y : List Nat) (doc : table)
    (ho : o.determine_bom = .utf8) (hd : o.delimiter ≠ 10) :
    parse_from_text h (x ++ [10] ++ y) o doc = parse_from_text h (x ++ [10, 10] ++ y) o doc ∧
      (∀ n, parse_from_text h (List.replicate n 10) o doc = some (.success, doc)) ∧
      ∀ enc s, scan_loop h o enc (x ++ [10] ++ y) s
        = scan_loop h o enc (x ++ [10, 10] ++ y) s := by
  refine ⟨?_, ?_, fun enc s => scan_loop_blank_line h o enc x y s hd⟩
  · rw [parse_from_text_utf8 h _ _ _ ho, parse_from_text_utf8 h _ _ _ ho]
    rcases takeWhile_blank_line x y with ⟨e1, e2⟩ | ⟨e1, e2⟩
    · rw [e1, e2]
    · rw [e1, e2, scan_loop_blank_line h o .utf8 x _ _ hd]
  · intro n
    have hz : ∀ b ∈ List.replicate n 10, b ≠ 0 := by
      intro b hb
      rw [List.eq_of_mem_replicate hb]
      decide
    rw [parse_from_text_utf8 h _ _ _ ho, takeWhile_ne_zero _ hz,
      scan_loop_newlines h o .utf8 doc hd]
    rfl

theorem blank_line_adds_no_row_witness :
    parse_from_text host.zero ([97, 44, 98] ++ [10] ++ [99, 44, 100, 10]) default_options []
        = parse_from_text host.zero ([97, 44, 98] ++ [10, 10] ++ [99, 44, 100, 10])
            default_options [] ∧
      (∀ n, parse_from_text host.zero (List.replicate n 10) default_options []
        = some (.success, [])) ∧
      ∀ enc s, scan_loop host.zero default_options enc
            ([97, 44, 98] ++ [10] ++ [99, 44, 100, 10]) s
        = scan_loop host.zero default_options enc
            ([97, 44, 98] ++ [10, 10] ++ [99, 44, 100, 10]) s :=
  blank_line_adds_no_row host.zero default_options [97, 44, 98] [99, 44, 100, 10] [] rfl
    (by decide)

/-- C12 as written fails under UTF-16LE (zeroed scratch memory): with `x` empty
and `y` the bytes `00 2C 00 0A 00`, the input `x ++ '\n' ++ y` is the units
newline, comma, newline and parses to one row of two empty fields, while
`x ++ '\n' ++ '\n' ++ y` regroups into other units and parses to no row. -/
theorem blank_line_regroups_wide_units :
    parse_from_text host.zero ([] ++ [10] ++ [0, 44, 0, 10, 0])
        ⟨44, true, .utf16_little_endian, true, true⟩ [] = some (.success, [[[], []]]) ∧
      parse_from_text host.zero ([] ++ [10, 10] ++ [0, 44, 0, 10, 0])
        ⟨44, true, .utf16_little_endian, true, true⟩ [] = some (.success, []) := by
  constructor <;> rfl

/-- C13, amended: `parse_from_text` does not empty the table at the start of a
call; for every host, text, options and prior table `D`, when the parse of the
text on an empty document returns `success` with table `T0`, and `D` or `T0` is
empty or their rows 0 have the same number of fields, the parse on a document
holding `D` returns `success` with `D ++ T0`; so parsing the same text twice in
succession on a document that starts empty leaves `T0 ++ T0`. -/
theorem parse_appends_to_prior_table (h : host) (text : List Nat) (o : parse_options)
    (D T0 : table) (h0 : parse_from_text h text o [] = some (.success, T0))
    (hfit : D = [] ∨ T0 = [] ∨ (D.getD 0 []).length = (T0.getD 0 []).length) :
    parse_from_text h text o D = some (.success, D ++ T0) ∧
      parse_from_text h text o T0 = some (.success, T0 ++ T0) :=
  ⟨parse_from_stream_prior h _ o D T0 h0 hfit,
    parse_from_stream_prior h _ o T0 T0 h0 (Or.inr (Or.inr rfl))⟩

theorem parse_appends_to_prior_table_witness :
    parse_from_text host.zero [97, 44, 98, 10] default_options [[[120], [121]]]
        = some (.success, [[[120], [121]]] ++ [[[97], [98]]]) ∧
      parse_from_text host.zero [97, 44, 98, 10] default_options [[[97], [98]]]
        = some (.success, [[[97], [98]]] ++ [[[97], [98]]]) :=
  parse_appends_to_prior_table host.zero [97, 44, 98, 10] default_options [[[120], [121]]]
    [[[97], [98]]] rfl (by decide)

/-- C13 as written fails at the text `a` plus newline with the default options:
on an empty document the parse leaves the one row `["a"]`, on the document
that holds this row it leaves two rows, so the table after the call depends on
the table before it and parsing twice does not give the table of parsing
once. -/
theorem second_parse_keeps_earlier_rows :
    parse_from_text host.zero [97, 10] default_options [] = some (.success, [[[97]]]) ∧
      parse_from_text host.zero [97, 10] default_options [[[97]]]
        = some (.success, [[[97]], [[97]]]) ∧
      parse_from_text host.zero [97, 10] default_options [[[97]]]
        ≠ parse_from_text host.zero [97, 10] default_options [] := by
  refine ⟨rfl, rfl, ?_⟩
  decide

/-- C14: for every byte string `c` and every setting of the other options,
`parse_from_stream` with `detect_from_bom` over the bytes `EF BB BF` followed by
`c` returns what `parse_from_stream` with `utf8` returns over `c` alone (the
same outcome and the same table, or an exception in both); at `EF BB BF a`
plus newline the only field is `a`. -/
theorem utf8_bom_is_skipped (h : host) (c : List Nat) (d : Nat) (t b e : Bool) (doc : table) :
    parse_from_stream h (istream.of_text ([0xEF, 0xBB, 0xBF] ++ c))
        ⟨d, t, .detect_from_bom, b, e⟩ doc
      = parse_from_stream h (istream.of_text c) ⟨d, t, .utf8, b, e⟩ doc ∧
    parse_from_stream h (istream.of_text [0xEF, 0xBB, 0xBF, 97, 10])
        ⟨44, true, .detect_from_bom, true, true⟩ []
      = some (.success, [[[97]]]) := by
  refine ⟨parse_from_stream_utf8_bom h c d t b e doc, ?_⟩
  rw [show ([0xEF, 0xBB, 0xBF, 97, 10] : List Nat) = [0xEF, 0xBB, 0xBF] ++ [97, 10] from rfl,
    parse_from_stream_utf8_bom h [97, 10] 44 true true true []]
  exact parse_from_text_utf8 h [97, 10] ⟨44, true, .utf8, true, true⟩ [] rfl

/-- C15, at the five-byte stream `abcde` (no signature): `detect_encoding` with
`detect_from_bom` returns `detect_from_bom` and leaves the read position at 4,
not 0: the four bytes it read to look for a signature are not given back (the
branches that find a signature call `seekg`, the fall-through does not), and
with the encoding unresolved the reader yields no unit, so the call parses the
text `a,b` plus newline to an empty table. -/
theorem detect_without_signature_consumes_four_bytes (h : host) :
    detect_encoding h (istream.of_text [97, 98, 99, 100, 101]) .detect_from_bom
        = (.detect_from_bom, ⟨[97, 98, 99, 100, 101], 4, false⟩) ∧
      parse_from_text h [97, 44, 98, 10] ⟨44, true, .detect_from_bom, true, true⟩ []
        = some (.success, []) := by
  constructor
  · rw [detect_encoding_cases h 97 98 99 100 [101] (by decide) (by decide) (by decide)]
    rfl
  · have hd : detect_encoding h (istream.of_text [97, 44, 98, 10]) .detect_from_bom
        = (.detect_from_bom, ⟨[97, 44, 98, 10], 4, false⟩) := by
      rw [detect_encoding_cases h 97 44 98 10 [] (by decide) (by decide) (by decide)]
      rfl
    unfold parse_from_text parse_from_stream parse_from_stream_exit
    simp only [hd, units_of_detect]
    rfl

/-- C16: for every stream of at least 4 bytes, `detect_encoding` called with
`detect_from_bom` returns the encoding of the first signature, in the order
UTF-8, UTF-16BE, UTF-16LE, UTF-32BE, UTF-32LE, that the stream begins with, and
leaves the read position at that signature's length; it never returns
`utf32_little_endian`, and a stream that begins `FF FE 00 00` resolves to
`utf16_little_endian` at position 2. -/
theorem detect_encoding_first_signature (h : host) (data : List Nat) (h4 : 4 ≤ data.length)
    (hb : ∀ b ∈ data, b < 256) :
    (∀ sig enc, first_signature data = some (sig, enc) →
        detect_encoding h (istream.of_text data) .detect_from_bom
          = (enc, ⟨data, sig.length, false⟩)) ∧
      (detect_encoding h (istream.of_text data) .detect_from_bom).1 ≠ .utf32_little_endian ∧
      (∀ rest, data = 0xFF :: 0xFE :: 0 :: 0 :: rest →
        detect_encoding h (istream.of_text data) .detect_from_bom
          = (.utf16_little_endian, ⟨data, 2, false⟩)) := by
  match data, h4, hb with
  | a :: b :: c :: d :: rest, _, hb =>
    have ha := hb a (by simp)
    have hb2 := hb b (by simp)
    have hc := hb c (by simp)
    rw [detect_encoding_cases h a b c d rest ha hb2 hc, first_signature_cases]
    refine ⟨?_, ?_, ?_⟩
    · intro sig enc hs
      split_ifs at hs ⊢ <;> cases hs <;> rfl
    · split_ifs with h1 h2 h3 h4 h5
      · exact fun hc => by cases hc
      · exact fun hc => by cases hc
      · exact fun hc => by cases hc
      · exact fun hc => by cases hc
      · exact absurd ⟨h5.1, h5.2.1⟩ h3
      · exact fun hc => by cases hc
    · intro rest2 he
      simp only [List.cons.injEq] at he
      obtain ⟨rfl, rfl, rfl, rfl, _⟩ := he
      rfl

theorem detect_encoding_first_signature_witness :
    (∀ sig enc, first_signature [0xFF, 0xFE, 0, 0, 0x41, 0, 0, 0] = some (sig, enc) →
        detect_encoding host.zero (istream.of_text [0xFF, 0xFE, 0, 0, 0x41, 0, 0, 0])
            .detect_from_bom
          = (enc, ⟨[0xFF, 0xFE, 0, 0, 0x41, 0, 0, 0], sig.length, false⟩)) ∧
      (detect_encoding host.zero (istream.of_text [0xFF, 0xFE, 0, 0, 0x41, 0, 0, 0])
        .detect_from_bom).1 ≠ .utf32_little_endian ∧
      (∀ rest, [0xFF, 0xFE, 0, 0, 0x41, 0, 0, 0] = 0xFF :: 0xFE :: 0 :: 0 :: rest →
        detect_encoding host.zero (istream.of_text [0xFF, 0xFE, 0, 0, 0x41, 0, 0, 0])
            .detect_from_bom
          = (.utf16_little_endian, ⟨[0xFF, 0xFE, 0, 0, 0x41, 0, 0, 0], 2, false⟩)) :=
  detect_encoding_first_signature host.zero [0xFF, 0xFE, 0, 0, 0x41, 0, 0, 0] (by decide)
    (by decide)

/-- C17, amended: for every host, options, encoding, prior table and units
`pre ++ [v]` that the scan loop uses up from the initial state ending inside a
quoted field, a quote read next with no escape pending is appended as a literal
quote (the parser staying in the quoted field) exactly when `v` is a quote that
was not consumed as the second unit of a backslash escape, and otherwise closes
the quoted field without appending; a quote read next with an escape pending is
appended, the parser staying in the quoted field. -/
theorem quote_in_quote_follows_last_classified_unit (h : host) (o : parse_options)
    (enc : parse_encoding) (doc : table) (pre : List Nat) (v : Nat) (s0 s : scan_state)
    (hpre : scan_loop h o enc pre (scan_state.initial enc doc) = .next s0)
    (hv : loop_body h o enc v s0 = .next s) (hq : s.is_in_quote = true) :
    (s.last_is_backslash = false →
      loop_body h o enc 34 s =
        if v = 34 ∧ s0.last_is_backslash = false then
          .next { s with
            builder := s.builder.append h (double_quote_per_encoding enc), lastRead := 34 }
        else .next { s with is_in_quote := false, lastRead := 34 }) ∧
    (s.last_is_backslash = true →
      loop_body h o enc 34 s =
        .next { s with
          builder := s.builder.append h (double_quote_per_encoding enc),
          last_is_backslash := false }) := by
  constructor
  · intro hb
    have hl := loop_body_lastRead h o enc v s0 s hv hq
    rw [loop_body_quote_in_quote h o enc s hq hb]
    by_cases hb0 : s0.last_is_backslash = true
    · have h92 : s0.lastRead = 92 :=
        scan_loop_pending_escape h o enc pre _ s0 (fun hc => by cases hc) hpre hb0
      have hne : ¬ (v = 34 ∧ s0.last_is_backslash = false) := by
        rintro ⟨_, hc⟩
        rw [hb0] at hc
        cases hc
      have hlast : s.lastRead ≠ 34 := by
        by_cases hesc : v = 34 ∨ v = 110 ∨ v = 92
        · rw [if_pos ⟨hb0, hesc⟩, h92] at hl
          rw [hl]
          decide
        · rw [if_neg (fun hc => hesc hc.2)] at hl
          rw [hl]
          exact fun hc => hesc (Or.inl hc)
      rw [if_neg hne, if_neg hlast]
    · have hb1 : s0.last_is_backslash = false := by simpa using hb0
      rw [if_neg (fun hc => hb0 hc.1)] at hl
      rw [hl]
      by_cases h34 : v = 34
      · rw [if_pos h34, if_pos ⟨h34, hb1⟩]
      · rw [if_neg h34, if_neg (fun hc => h34 hc.1)]
  · intro hb
    simp only [loop_body, hb, if_true]

theorem quote_in_quote_follows_last_classified_unit_witness :
    ((false : Bool) = false →
      loop_body host.zero default_options .utf8 34
          ⟨⟨[97, 34], .utf8, List.replicate 4094 0⟩, [], true, false, 92, []⟩ =
        if (34 : Nat) = 34 ∧ (true : Bool) = false then
          .next ⟨⟨[97, 34, 34], .utf8, List.replicate 4093 0⟩, [], true, false, 34, []⟩
        else .next ⟨⟨[97, 34], .utf8, List.replicate 4094 0⟩, [], false, false, 34, []⟩) ∧
    ((false : Bool) = true →
      loop_body host.zero default_options .utf8 34
          ⟨⟨[97, 34], .utf8, List.replicate 4094 0⟩, [], true, false, 92, []⟩ =
        .next ⟨⟨[97, 34, 34], .utf8, List.replicate 4093 0⟩, [], true, false, 92, []⟩) :=
  quote_in_quote_follows_last_classified_unit host.zero default_options .utf8 [] [34, 97, 92]
    34 ⟨⟨[97], .utf8, List.replicate 4095 0⟩, [], true, true, 92, []⟩
    ⟨⟨[97, 34], .utf8, List.replicate 4094 0⟩, [], true, false, 92, []⟩
    rfl rfl rfl

/-- C17 as written fails at the input `"a\""` plus newline with the default
options: after `"a\"` the parser is inside the quoted field with no escape
pending and the unit just before is a quote (the escaped one), yet the next
quote closes the field without being appended, and the whole input parses to
the one row with the field `a"` instead of ending in `parse_error`. -/
theorem quote_after_escaped_quote_closes_the_field :
    scan_loop host.zero default_options .utf8 [34, 97, 92, 34] (scan_state.initial .utf8 [])
        = .next ⟨⟨[97, 34], .utf8, List.replicate 4094 0⟩, [], true, false, 92, []⟩ ∧
      ([34, 97, 92, 34] : List Nat).getLast? = some 34 ∧
      loop_body host.zero default_options .utf8 34
          ⟨⟨[97, 34], .utf8, List.replicate 4094 0⟩, [], true, false, 92, []⟩
        = .next ⟨⟨[97, 34], .utf8, List.replicate 4094 0⟩, [], false, false, 34, []⟩ ∧
      parse_from_text host.zero [34, 97, 92, 34, 34, 10] default_options []
        = some (.success, [[[97, 34]]]) :=
  ⟨rfl, rfl, rfl, rfl⟩

/-- C18: under the UTF-8 encoding, for every options, host, prior table and byte
strings `x` and `y`, parsing `x ++ [0x00] ++ y` gives the same outcome and the
same table as parsing `x` alone. -/
theorem nul_byte_ends_the_input (h : host) (x y : List Nat) (o : parse_options) (doc : table)
    (ho : o.determine_bom = .utf8) :
    parse_from_text h (x ++ [0] ++ y) o doc = parse_from_text h x o doc := by
  rw [parse_from_text_utf8 h _ _ _ ho, parse_from_text_utf8 h _ _ _ ho, takeWhile_ne_zero_nul]

theorem nul_byte_ends_the_input_witness :
    parse_from_text host.zero ([97, 10] ++ [0] ++ [98, 10]) default_options []
      = parse_from_text host.zero [97, 10] default_options [] :=
  nul_byte_ends_the_input host.zero [97, 10] [98, 10] default_options [] rfl

/-- C19, for every content, storage and unit: under each of the five concrete
encodings `append` makes the accumulator's byte buffer longer by exactly ONE
byte, the low 8 bits of the unit (each branch is one `emplace_back` on the
`vector<uint8_t>`), so under UTF-16 the unit `0x1234` adds the single byte
`0x34`, and under UTF-32 the unit `0x12345678` the single byte `0x78`. -/
theorem append_adds_one_byte (h : host) (buf spare : List Nat) (ch : Nat) :
    (string_builder.append h ⟨buf, .utf8, spare⟩ ch)._buffer = buf ++ [ch % 256] ∧
      (string_builder.append h ⟨buf, .utf16_big_endian, spare⟩ ch)._buffer
        = buf ++ [ch % 256] ∧
      (string_builder.append h ⟨buf, .utf16_little_endian, spare⟩ ch)._buffer
        = buf ++ [ch % 256] ∧
      (string_builder.append h ⟨buf, .utf32_big_endian, spare⟩ ch)._buffer
        = buf ++ [ch % 256] ∧
      (string_builder.append h ⟨buf, .utf32_little_endian, spare⟩ ch)._buffer
        = buf ++ [ch % 256] ∧
      (string_builder.append h ⟨[], .utf16_little_endian, spare⟩ 0x1234)._buffer = [0x34] ∧
      (string_builder.append h ⟨[], .utf32_little_endian, spare⟩ 0x12345678)._buffer
        = [0x78] := by
  have h16 : ch % 65536 % 256 = ch % 256 := Nat.mod_mod_of_dvd ch (by decide)
  refine ⟨rfl, ?_, ?_, rfl, rfl, rfl, rfl⟩
  · simp only [string_builder.append, string_builder.emplace_back, h16]
  · simp only [string_builder.append, string_builder.emplace_back, h16]

/-- C20: whenever a quote opens a quoted field (the scan of the input so far,
from the start of the parse, ends outside quotes with no escape pending, and the
delimiter is not the quote) and the next unit is a quote too, the second quote
is appended as the byte 34 and the scan stays inside the quoted field; for
every host, options, concrete encoding, prior table and input before the two
quotes (with the encoding unresolved the loop reads no unit).  With the default
options `a,""x",b` followed by newline returns the row `a`, `"x`, `b`, and
`a,"",b` followed by newline returns `parse_error` with an empty table. -/
theorem quote_after_opening_quote_is_literal (h : host) (o : parse_options)
    (enc : parse_encoding) (doc : table) (pre : List Nat) (s : scan_state)
    (henc : enc ≠ .detect_from_bom) (hd : o.delimiter ≠ 34)
    (hs : scan_loop h o enc pre (scan_state.initial enc doc) = .next s)
    (hq : s.is_in_quote = false) (hb : s.last_is_backslash = false) :
    scan_loop h o enc (pre ++ [34]) (scan_state.initial enc doc)
        = .next { s with is_in_quote := true, lastRead := 34 } ∧
      scan_loop h o enc (pre ++ [34, 34]) (scan_state.initial enc doc)
        = .next { s with
            builder := s.builder.emplace_back h 34
            is_in_quote := true
            lastRead := 34 } ∧
      (s.builder.emplace_back h 34)._buffer = s.builder._buffer ++ [34] ∧
      parse_from_text h [97, 44, 34, 34, 120, 34, 44, 98, 10] default_options []
        = some (.success, [[[97], [34, 120], [98]]]) ∧
      parse_from_text h [97, 44, 34, 34, 44, 98, 10] default_options []
        = some (.parse_error, []) := by
  have hbe : s.builder._encoding = enc :=
    scan_loop_builder_encoding h o enc pre _ s hs
  obtain ⟨b, row, q, bs, last, doc1⟩ := s
  simp only at hq hb hbe
  subst hq hb
  refine ⟨?_, ?_, rfl, ?_, ?_⟩
  · rw [scan_loop_append_next _ _ _ _ _ _ _ hs]
    simp only [scan_loop, loop_body_open_quote h o enc b row last doc1 hd]
  · rw [scan_loop_append_next _ _ _ _ _ _ _ hs]
    simp only [scan_loop, loop_body_open_quote h o enc b row last doc1 hd,
      loop_body_quote_after_quote]
    rw [← hbe, append_double_quote h b (by rw [hbe]; exact henc)]
  · rw [parse_from_text_utf8 h _ _ _ rfl]
    rfl
  · rw [parse_from_text_utf8 h _ _ _ rfl]
    rfl

theorem quote_after_opening_quote_is_literal_witness :
    scan_loop host.zero default_options .utf8 ([97, 44] ++ [34]) (scan_state.initial .utf8 [])
        = .next ⟨⟨[], .utf8, 97 :: List.replicate 4095 0⟩, [[97]], true, false, 34, []⟩ ∧
      scan_loop host.zero default_options .utf8 ([97, 44] ++ [34, 34])
          (scan_state.initial .utf8 [])
        = .next ⟨⟨[34], .utf8, List.replicate 4095 0⟩, [[97]], true, false, 34, []⟩ ∧
      (string_builder.emplace_back host.zero ⟨[], .utf8, 97 :: List.replicate 4095 0⟩ 34)._buffer
        = [] ++ [34] ∧
      parse_from_text host.zero [97, 44, 34, 34, 120, 34, 44, 98, 10] default_options []
        = some (.success, [[[97], [34, 120], [98]]]) ∧
      parse_from_text host.zero [97, 44, 34, 34, 44, 98, 10] default_options []
        = some (.parse_error, []) :=
  quote_after_opening_quote_is_literal host.zero default_options .utf8 [] [97, 44]
    ⟨⟨[], .utf8, 97 :: List.replicate 4095 0⟩, [[97]], false, false, 44, []⟩ (by decide)
    (by decide) rfl rfl rfl


/-! ## Further properties of the code -/

/-- X1: at the end of a NUL-free UTF-8 input whose scan ends inside a quoted field:
with a non-empty row buffer `parse_from_text` returns `parse_error` and an empty
table; with an empty row buffer it returns `success` and leaves the table as
the loop left it. -/
theorem unclosed_quote_at_end_of_input (h : host) (text : List Nat) (o : parse_options)
    (doc : table)
    (ho : o.determine_bom = .utf8) (hz : ∀ b ∈ text, b ≠ 0) (s : scan_state)
    (hs : scan_loop h o .utf8 text (scan_state.initial .utf8 doc) = .next s)
    (hq : s.is_in_quote = true) :
    (s.row ≠ [] → parse_from_text h text o doc = some (.parse_error, [])) ∧
      (s.row = [] → parse_from_text h text o doc = some (.success, s._document)) := by
  rw [parse_from_text_utf8 h _ _ _ ho, takeWhile_ne_zero _ hz, hs]
  constructor
  · intro hrow
    have hre : s.row.isEmpty = false := by
      cases hr : s.row with
      | nil => exact absurd hr hrow
      | cons a t => rfl
    simp [conclude, finish, hre, hq]
  · intro hrow
    simp [conclude, finish, hrow]

theorem unclosed_quote_at_end_of_input_witness :
    ((⟨⟨[98], .utf8, List.replicate 4095 0⟩, [[97]], true, false, 98, []⟩ : scan_state).row ≠ [] →
        parse_from_text host.zero [97, 44, 34, 98] default_options []
          = some (.parse_error, [])) ∧
      ((⟨⟨[98], .utf8, List.replicate 4095 0⟩, [[97]], true, false, 98, []⟩ : scan_state).row = [] →
        parse_from_text host.zero [97, 44, 34, 98] default_options []
          = some (.success,
              (⟨⟨[98], .utf8, List.replicate 4095 0⟩, [[97]], true, false, 98, []⟩ :
                scan_state)._document)) :=
  unclosed_quote_at_end_of_input host.zero [97, 44, 34, 98] default_options [] rfl (by decide)
    ⟨⟨[98], .utf8, List.replicate 4095 0⟩, [[97]], true, false, 98, []⟩ rfl rfl

/-- X2: for a NUL-free UTF-8 input whose scan ends outside quotes, with no escape
pending and a non-empty row buffer (the last line holds a delimiter), and a
delimiter other than newline: parsing the input and parsing it followed by one
newline give the same outcome and the same table. -/
theorem pending_row_at_end_is_finalized (h : host) (x : List Nat) (o : parse_options)
    (doc : table) (ho : o.determine_bom = .utf8) (hd : o.delimiter ≠ 10)
    (hz : ∀ b ∈ x, b ≠ 0) (s : scan_state)
    (hs : scan_loop h o .utf8 x (scan_state.initial .utf8 doc) = .next s)
    (hq : s.is_in_quote = false) (hb : s.last_is_backslash = false) (hrow : s.row ≠ []) :
    parse_from_text h x o doc = parse_from_text h (x ++ [10]) o doc := by
  have hz2 : ∀ b ∈ x ++ [10], b ≠ 0 := by
    intro b hb
    rcases List.mem_append.mp hb with hb | hb
    · exact hz b hb
    · rw [List.mem_singleton.mp hb]; decide
  rw [parse_from_text_utf8 h _ _ _ ho, parse_from_text_utf8 h _ _ _ ho,
    takeWhile_ne_zero _ hz, takeWhile_ne_zero _ hz2, scan_loop_append_next _ _ _ _ _ _ _ hs,
    hs]
  cases hp : push_field h o s with
  | none =>
      have hre : ¬ s.row.isEmpty = true := by
        rw [List.isEmpty_iff]; exact hrow
      have hre2 : ¬ (s.row.isEmpty = true ∧ s.builder.empty = true) := fun hc => hre hc.1
      have hl : loop_body h o .utf8 10 s = .thrown := by
        unfold loop_body
        rw [if_neg (by rw [hb]; decide)]
        unfold classify
        rw [if_neg (fun hc => hd hc.1.symm), if_neg (fun hc => absurd hc.1 (by decide)),
          if_neg (by decide), if_neg (fun hc => absurd hc.1 (by decide)), if_pos rfl,
          if_neg (by rw [hq]; decide), if_neg hre2]
        simp only [hp]
      have hf : finish h o s = none := by
        unfold finish
        rw [if_pos hre, if_neg (by rw [hq]; decide)]
        simp only [hp]
      simp only [scan_loop, hl, conclude, hf]
  | some s1 =>
      simp only [scan_loop, conclude, finish_pending_row h o s s1 hrow hq hp,
        loop_body_newline_pending_row h o .utf8 s s1 hd hrow hq hb hp]
      split_ifs with hm
      · rfl
      · simp [finish]

theorem pending_row_at_end_is_finalized_witness :
    parse_from_text host.zero [97, 44, 98] default_options []
      = parse_from_text host.zero ([97, 44, 98] ++ [10]) default_options [] :=
  pending_row_at_end_is_finalized host.zero [97, 44, 98] default_options [] rfl (by decide)
    (by decide) ⟨⟨[98], .utf8, List.replicate 4095 0⟩, [[97]], false, false, 98, []⟩ rfl rfl rfl
    (by decide)

/-- X3: under UTF-8, `to_string(true)` on a content that holds at least one byte
other than space, tab and NUL returns the content without its longest leading
and without its longest trailing run of such bytes. -/
theorem to_string_trims_both_ends (h : host) (b spare : List Nat)
    (hb : ∃ x ∈ b, is_trimmed_unit x = false) :
    string_builder.to_string h ⟨b, .utf8, spare⟩ true
      = some ((b.dropWhile is_trimmed_unit).reverse.dropWhile is_trimmed_unit).reverse := by
  rw [to_string_utf8_eq, to_string_utf8_trimmed b hb]

theorem to_string_trims_both_ends_witness :
    string_builder.to_string host.zero ⟨[32, 9, 97, 32, 98, 0, 32], .utf8, [0, 0]⟩ true
      = some ((([32, 9, 97, 32, 98, 0, 32] : List Nat).dropWhile
          is_trimmed_unit).reverse.dropWhile is_trimmed_unit).reverse :=
  to_string_trims_both_ends host.zero [32, 9, 97, 32, 98, 0, 32] [0, 0]
    ⟨97, by decide, by decide⟩

/-- X4: under UTF-8, `to_string(true)` on a non-empty content made only of
spaces, tabs and NULs returns the one-byte string holding its last byte. -/
theorem to_string_of_blank_content (h : host) (b spare : List Nat) (hne : b ≠ [])
    (hall : ∀ x ∈ b, is_trimmed_unit x = true) :
    string_builder.to_string h ⟨b, .utf8, spare⟩ true = some [b.getLast hne] := by
  rw [to_string_utf8_eq, to_string_utf8_blank b hne hall]

theorem to_string_of_blank_content_witness :
    string_builder.to_string host.zero ⟨[32, 0, 9], .utf8, [0, 0]⟩ true
      = some [([32, 0, 9] : List Nat).getLast (by decide)] :=
  to_string_of_blank_content host.zero [32, 0, 9] [0, 0] (by decide) (by decide)

/-- X5: for every stream of at least 4 bytes that begins with none of the five
signatures, `detect_encoding` called with `detect_from_bom` returns
`detect_from_bom` and leaves the read position at 4. -/
theorem detect_encoding_no_signature (h : host) (data : List Nat) (h4 : 4 ≤ data.length)
    (hb : ∀ b ∈ data, b < 256) (hnone : first_signature data = none) :
    detect_encoding h (istream.of_text data) .detect_from_bom
      = (.detect_from_bom, ⟨data, 4, false⟩) := by
  match data, h4, hb, hnone with
  | a :: b :: c :: d :: rest, _, hb, hnone =>
    have ha := hb a (by simp)
    have hb2 := hb b (by simp)
    have hc := hb c (by simp)
    rw [first_signature_cases] at hnone
    rw [detect_encoding_cases h a b c d rest ha hb2 hc]
    split_ifs at hnone ⊢
    rfl

theorem detect_encoding_no_signature_witness :
    detect_encoding host.zero (istream.of_text [97, 98, 99, 100, 101]) .detect_from_bom
      = (.detect_from_bom, ⟨[97, 98, 99, 100, 101], 4, false⟩) :=
  detect_encoding_no_signature host.zero [97, 98, 99, 100, 101] (by decide) (by decide)
    (by decide)

/-- X6: under UTF-16LE the wide branch of `to_string` reads the unit past the
accumulated bytes from the vector's storage, where an earlier field may have
left bytes: on a fresh accumulator the content `a` goes to the converter as
the unit `0x0061`, and after the field `ab` was accumulated and cleared it goes
as the unit `0x6261`.  So, with a converter that returns the units it is
given, the text `a,ab,a` plus newline in UTF-16LE parses to the row `0x61`,
`0x6261`, `0x6261`. -/
theorem wide_field_reads_stale_bytes (h : host) :
    string_builder.to_string h
        ((string_builder.mk_new .utf16_little_endian).append h 0x61) true
      = h.wide_to_bytes .utf16_little_endian [0x61] ∧
    string_builder.to_string h
        ((((string_builder.mk_new .utf16_little_endian).append h 0x61).append h
          0x62).clear.append h 0x61) true
      = h.wide_to_bytes .utf16_little_endian [0x6261] ∧
    parse_from_text ⟨[], [], fun _ => [], [], fun _ units => some units⟩
        [0x61, 0, 0x2C, 0, 0x61, 0, 0x62, 0, 0x2C, 0, 0x61, 0, 0x0A, 0]
        ⟨44, true, .utf16_little_endian, true, true⟩ []
      = some (.success, [[[0x61], [0x6261], [0x6261]]]) := by
  have e1 : (string_builder.mk_new .utf16_little_endian).append h 0x61
      = ⟨[0x61], .utf16_little_endian, List.replicate 4095 0⟩ := rfl
  have e2 : (((string_builder.mk_new .utf16_little_endian).append h 0x61).append h
      0x62).clear.append h 0x61
      = ⟨[0x61], .utf16_little_endian, 0x62 :: List.replicate 4094 0⟩ := rfl
  have key : ∀ (x : Nat) (sp : List Nat),
      string_builder.to_string h ⟨[0x61], .utf16_little_endian, x :: sp⟩ true
        = h.wide_to_bytes .utf16_little_endian [0x61 + 256 * x] := by
    intro x sp
    unfold string_builder.to_string to_string_wide
    simp only [List.length_singleton, Nat.reduceDiv, Nat.zero_add]
    show h.wide_to_bytes _ _ = _
    congr 1
  refine ⟨?_, ?_, ?_⟩
  · rw [e1, show List.replicate 4095 0 = 0 :: List.replicate 4094 0 from rfl, key]
  · rw [e2, key]
  · decide


end hzn.csv
